import Mathlib

/-!
Verification of the TNLMeans denoiser (src/TNLMeans.cpp).

The development shallowly embeds the data model and algorithms of the
source file: machine doubles are modelled as exact reals, 8-bit pixel
planes as total functions from integer coordinates to integers, and the
imperative loop nests as left folds over explicit iteration lists that
mirror the source loop bounds.  Frame indices, loop counters and pixel
coordinates are integers, as in the source.
-/

set_option maxHeartbeats 1000000

namespace TNL

/-- One plane of an 8-bit frame: pixel value at coordinate (x, y).
Source pixels are `uint8_t`; bounds 0..255 appear as hypotheses where needed. -/
abbrev Pic := ℤ × ℤ → ℤ

/-- `std::numeric_limits<double>::epsilon()` for IEEE-754 doubles, 2⁻⁵². -/
noncomputable def dblEps : ℝ := 1 / 2 ^ 52

/-- C++ `int(r)`: truncation of a double toward zero. -/
noncomputable def ctrunc (r : ℝ) : ℤ := if r < 0 then -⌊-r⌋ else ⌊r⌋

/-- The output write `std::max( std::min( int(r + 0.5), 255 ), 0 )`
(TNLMeans.cpp lines 354, 496, 600, 714). -/
noncomputable def clamp255 (r : ℝ) : ℤ := max (min (ctrunc (r + 1 / 2)) 255) 0

/-- The inclusive integer range `for ( int i = a; i <= b; ++i )` as a list. -/
def intRange (a b : ℤ) : List ℤ := (List.range (b + 1 - a).toNat).map (fun k : ℕ => a + (k : ℤ))

theorem intRange_eq_nil {a b : ℤ} (h : b < a) : intRange a b = [] := by
  unfold intRange
  have : (b + 1 - a).toNat = 0 := by omega
  simp [this]

theorem intRange_eq_cons {a b : ℤ} (h : a ≤ b) : intRange a b = a :: intRange (a + 1) b := by
  unfold intRange
  have h1 : (b + 1 - a).toNat = (b + 1 - (a + 1)).toNat + 1 := by omega
  rw [h1, List.range_succ_eq_map, List.map_cons, List.map_map]
  simp only [Nat.cast_zero, add_zero]
  refine congrArg (a :: ·) ?_
  apply List.map_congr_left
  intro k _
  simp only [Function.comp_apply]
  push_cast
  ring

theorem mem_intRange {a b x : ℤ} : x ∈ intRange a b ↔ a ≤ x ∧ x ≤ b := by
  unfold intRange
  simp only [List.mem_map, List.mem_range]
  constructor
  · intro hx
    obtain ⟨k, hk, he⟩ := hx
    omega
  · intro hx
    refine ⟨(x - a).toNat, ?_, ?_⟩ <;> omega

theorem intRange_nodup (a b : ℤ) : (intRange a b).Nodup := by
  unfold intRange
  refine List.Nodup.map_on ?_ (List.nodup_range _)
  intro x _ y _ h
  omega

/-- Fold-invariant principle for `intRange` loops. -/
theorem intRange_foldl_inv {σ : Type*} (f : σ → ℤ → σ) (motive : ℤ → σ → Prop)
    (a b : ℤ) (hab : a ≤ b + 1)
    (step : ∀ i s, a ≤ i → i ≤ b → motive i s → motive (i + 1) (f s i)) :
    ∀ s, motive a s → motive (b + 1) ((intRange a b).foldl f s) := by
  have key : ∀ (n : ℕ) (a : ℤ), a + n = b + 1 →
      (∀ i s, a ≤ i → i ≤ b → motive i s → motive (i + 1) (f s i)) →
      ∀ s, motive a s → motive (b + 1) ((intRange a b).foldl f s) := by
    intro n
    induction n with
    | zero =>
      intro a ha _ s hs
      rw [intRange_eq_nil (by omega)]
      simpa using (by omega : a = b + 1) ▸ hs
    | succ m ih =>
      intro a ha hstep s hs
      rw [intRange_eq_cons (by omega)]
      simp only [List.foldl_cons]
      exact ih (a + 1) (by omega) (fun i s hi1 hi2 h => hstep i s (by omega) hi2 h)
        (f s a) (hstep a s le_rfl (by omega) hs)
  intro s hs
  exact key (b + 1 - a).toNat a (by omega) step s hs

/-- `mapn` (TNLMeans.cpp lines 730-735): clamp a frame index into `[0, numFrames-1]`. -/
def mapn (numFrames n : ℤ) : ℤ :=
  if n < 0 then 0 else if numFrames ≤ n then numFrames - 1 else n

/-- The temporal indices requested by `RequestFrame` (lines 144-145):
`mapn i` for `i` in `[n-Az, n+Az]`. -/
def requestFrames (numFrames Az n : ℤ) : List ℤ :=
  (intRange (n - Az) (n + Az)).map (mapn numFrames)

/-- `startz` (lines 265, 403): first accumulated temporal slot. -/
def startzOf (Az n : ℤ) : ℤ := Az - min n Az

/-- `stopz` (lines 266, 404): last accumulated temporal slot. -/
def stopzOf (Az numFrames n : ℤ) : ℤ := Az + min (numFrames - n - 1) Az

/-! ### Constructor validation (TNLMeans.cpp lines 49-61) -/

/-- The eager parameter checks of `TNLMeans::TNLMeans`, in source order,
with the exact `bad_param` messages. -/
noncomputable def validateParams (compatFamily : Bool) (bits : ℤ)
    (Ax Ay Az Sx Sy Bx By : ℤ) (a h : ℝ) : Except String Unit :=
  if compatFamily then .error "only planar formats are supported"
  else if bits ≠ 8 then .error "only 8-bit formats are supported"
  else if h ≤ 0 then .error "h must be greater than 0"
  else if a ≤ 0 then .error "a must be greater than 0"
  else if Ax < 0 then .error "ax must be greater than or equal to 0"
  else if Ay < 0 then .error "ay must be greater than or equal to 0"
  else if Az < 0 then .error "az must be greater than or equal to 0"
  else if Bx < 0 then .error "bx must be greater than or equal to 0"
  else if By < 0 then .error "by must be greater than or equal to 0"
  else if Sx < 0 then .error "sx must be greater than or equal to 0"
  else if Sy < 0 then .error "sy must be greater than or equal to 0"
  else if Sx < Bx then .error "sx must be greater than or equal to bx"
  else if Sy < By then .error "sy must be greater than or equal to by"
  else .ok ()

/-! ### Gaussian kernel and weight function -/

/-- Offset clamping toward the block margin from the kernel construction
(lines 112-123): for a negative offset `min (j+B) 0`, else `max (j-B) 0`. -/
def clampOffB (B j : ℤ) : ℤ := if j < 0 then min (j + B) 0 else max (j - B) 0

/-- Kernel table entry for patch offset (j, k) (line 124):
`exp( -((m*m + n*n) / (2*a*a)) )` with clamped offsets m, n. -/
noncomputable def gwVal (a : ℝ) (Bx By j k : ℤ) : ℝ :=
  Real.exp (-(((clampOffB By j * clampOffB By j + clampOffB Bx k * clampOffB Bx k : ℤ) : ℝ)
    / (2 * (a * a))))

/-- `hin = -1.0 / h` (line 63). -/
noncomputable def hin (h : ℝ) : ℝ := -1 / h

/-- `h2in = -1.0 / (h * h)` (line 62). -/
noncomputable def h2in (h : ℝ) : ℝ := -1 / (h * h)

/-- Modelled from the spec: `GetSADWeight` / `GetSSDWeight` live in the
missing header TNLMeans.h; §4.2 of the spec defines the patch weight as
`exp(scale * diff / gweights)` with scale `hin` for SAD and `h2in` for SSD. -/
noncomputable def weightFromDiff (ssd : Bool) (h diff gweights : ℝ) : ℝ :=
  Real.exp ((if ssd then h2in h else hin h) * diff / gweights)

/-- Modelled from the spec: `GetSAD` / `GetSSD` live in the missing header
TNLMeans.h; §4.2 defines one patch-offset term as `kernel[offset] * |s1 - s2|`
for SAD and `kernel[offset] * (s1 - s2)^2` for SSD. -/
def diffTerm (ssd : Bool) (g : ℝ) (s1 s2 : ℤ) : ℝ :=
  if ssd then g * ((s1 - s2 : ℤ) : ℝ) * ((s1 - s2 : ℤ) : ℝ) else g * |((s1 - s2 : ℤ) : ℝ)|

/-! ### Border clipping of patch and search windows -/

/-- `yT = -std::min( std::min( Sy, u ), y )` (lines 308, 558, ...). -/
def yTc (Sy u y : ℤ) : ℤ := -(min (min Sy u) y)

/-- `yB = std::min( std::min( Sy, heightm1 - u ), heightm1 - y )` (lines 309, 559, ...). -/
def yBc (Sy hm1 u y : ℤ) : ℤ := min (min Sy (hm1 - u)) (hm1 - y)

/-- `xL = -std::min( std::min( Sx, v ), x )` (lines 321, 571, ...). -/
def xLc (Sx v x : ℤ) : ℤ := -(min (min Sx v) x)

/-- `xR = std::min( std::min( Sx, widthm1 - v ), widthm1 - x )` (lines 322, 572, ...). -/
def xRc (Sx wm1 v x : ℤ) : ℤ := min (min Sx (wm1 - v)) (wm1 - x)

/-- `yBb = std::min( std::min( By, heightm1 - u ), heightm1 - y )` (lines 439, 659):
vertical extent of the block smear in the block variants. -/
def yBbC (By hm1 u y : ℤ) : ℤ := min (min By (hm1 - u)) (hm1 - y)

/-- `xRb = std::min( std::min( Bx, widthm1 - v ), widthm1 - x )` (lines 466, 685). -/
def xRbC (Bx wm1 v x : ℤ) : ℤ := min (min Bx (wm1 - v)) (wm1 - x)

/-- Engine configuration: the constructor-stored fields of class TNLMeans. -/
structure Cfg where
  Ax : ℤ
  Ay : ℤ
  Az : ℤ
  Sx : ℤ
  Sy : ℤ
  Bx : ℤ
  By : ℤ
  a : ℝ
  h : ℝ
  ssd : Bool

/-- The patch-difference accumulation (lines 326-337 and twins): sum of
`diffTerm` over the border-clipped patch offsets, with `s1` sampled from the
candidate frame at (v+k, u+j) and `s2` from the source frame at (x+k, y+j). -/
noncomputable def patchDiff (cfg : Cfg) (f1 f2 : Pic) (wm1 hm1 x y u v : ℤ) : ℝ :=
  ∑ j ∈ Finset.Icc (yTc cfg.Sy u y) (yBc cfg.Sy hm1 u y),
    ∑ k ∈ Finset.Icc (xLc cfg.Sx v x) (xRc cfg.Sx wm1 v x),
      diffTerm cfg.ssd (gwVal cfg.a cfg.Bx cfg.By j k) (f1 (v + k, u + j)) (f2 (x + k, y + j))

/-- `gweights` accumulation over the same clipped patch (line 332). -/
noncomputable def patchGW (cfg : Cfg) (wm1 hm1 x y u v : ℤ) : ℝ :=
  ∑ j ∈ Finset.Icc (yTc cfg.Sy u y) (yBc cfg.Sy hm1 u y),
    ∑ k ∈ Finset.Icc (xLc cfg.Sx v x) (xRc cfg.Sx wm1 v x),
      gwVal cfg.a cfg.Bx cfg.By j k

/-- The weight of one candidate pair: center pixel (x,y) of frame `f2`
against candidate pixel (v,u) of frame `f1` (line 338 and twins). -/
noncomputable def pairWeight (cfg : Cfg) (f1 f2 : Pic) (wm1 hm1 x y u v : ℤ) : ℝ :=
  weightFromDiff cfg.ssd cfg.h (patchDiff cfg f1 f2 wm1 hm1 x y u v)
    (patchGW cfg wm1 hm1 x y u v)

theorem patchDiff_symm (cfg : Cfg) (f1 f2 : Pic) (wm1 hm1 x y u v : ℤ) :
    patchDiff cfg f1 f2 wm1 hm1 x y u v = patchDiff cfg f2 f1 wm1 hm1 v u y x := by
  unfold patchDiff
  have hy : yTc cfg.Sy u y = yTc cfg.Sy y u := by unfold yTc; rw [min_comm cfg.Sy u]; omega
  have hy2 : yBc cfg.Sy hm1 u y = yBc cfg.Sy hm1 y u := by
    unfold yBc
    rw [min_assoc, min_comm (hm1 - u), ← min_assoc]
  have hx : xLc cfg.Sx v x = xLc cfg.Sx x v := by unfold xLc; rw [min_comm cfg.Sx v]; omega
  have hx2 : xRc cfg.Sx wm1 v x = xRc cfg.Sx wm1 x v := by
    unfold xRc
    rw [min_assoc, min_comm (wm1 - v), ← min_assoc]
  rw [hy, hy2, hx, hx2]
  apply Finset.sum_congr rfl
  intro j _
  apply Finset.sum_congr rfl
  intro k _
  unfold diffTerm
  rcases cfg.ssd with _ | _
  · simp only [Bool.false_eq_true, if_false]
    push_cast
    rw [abs_sub_comm]
  · simp only [if_true]
    push_cast
    ring

theorem patchGW_symm (cfg : Cfg) (wm1 hm1 x y u v : ℤ) :
    patchGW cfg wm1 hm1 x y u v = patchGW cfg wm1 hm1 v u y x := by
  unfold patchGW
  have hy : yTc cfg.Sy u y = yTc cfg.Sy y u := by unfold yTc; rw [min_comm cfg.Sy u]; omega
  have hy2 : yBc cfg.Sy hm1 u y = yBc cfg.Sy hm1 y u := by
    unfold yBc
    rw [min_assoc, min_comm (hm1 - u), ← min_assoc]
  have hx : xLc cfg.Sx v x = xLc cfg.Sx x v := by unfold xLc; rw [min_comm cfg.Sx v]; omega
  have hx2 : xRc cfg.Sx wm1 v x = xRc cfg.Sx wm1 x v := by
    unfold xRc
    rw [min_assoc, min_comm (wm1 - v), ← min_assoc]
  rw [hy, hy2, hx, hx2]

/-- Symmetry of the pair weight: the weight of candidate (v,u) in `f1`
seen from center (x,y) in `f2` equals the weight of candidate (x,y) in `f2`
seen from center (v,u) in `f1`. -/
theorem pairWeight_symm (cfg : Cfg) (f1 f2 : Pic) (wm1 hm1 x y u v : ℤ) :
    pairWeight cfg f1 f2 wm1 hm1 x y u v = pairWeight cfg f2 f1 wm1 hm1 v u y x := by
  unfold pairWeight
  rw [patchDiff_symm, patchGW_symm]

theorem pairWeight_pos (cfg : Cfg) (f1 f2 : Pic) (wm1 hm1 x y u v : ℤ) :
    0 < pairWeight cfg f1 f2 wm1 hm1 x y u v :=
  Real.exp_pos _

/-! ### Accumulators and the temporal frame cache -/

/-- `SDATA`: per-plane dense (sums, weights, wmaxs) accumulators, indexed here
by pixel coordinate instead of the linear offset `y*width+x`. -/
structure SD where
  sums : ℤ × ℤ → ℝ
  weights : ℤ × ℤ → ℝ
  wmaxs : ℤ × ℤ → ℝ

/-- A zeroed SDATA (`fill_zero_d` on all three arrays). -/
def SD.zero : SD := ⟨fun _ => 0, fun _ => 0, fun _ => 0⟩

/-- Pointwise update of one accumulator cell. -/
def upd (f : ℤ × ℤ → ℝ) (p : ℤ × ℤ) (r : ℝ) : ℤ × ℤ → ℝ := fun q => if q = p then r else f q

/-- Pointwise update of one output pixel. -/
def updO (f : Pic) (p : ℤ × ℤ) (r : ℤ) : Pic := fun q => if q = p then r else f q

/-- Pointwise update of one integer-indexed flag array (`dsa`). -/
def updZ (f : ℤ → ℤ) (i r : ℤ) : ℤ → ℤ := fun j => if j = i then r else f j

@[simp] theorem upd_same (f : ℤ × ℤ → ℝ) (p : ℤ × ℤ) (r : ℝ) : upd f p r p = r := by
  simp [upd]

theorem upd_other (f : ℤ × ℤ → ℝ) (p q : ℤ × ℤ) (r : ℝ) (h : q ≠ p) : upd f p r q = f q := by
  simp [upd, h]

@[simp] theorem updO_same (f : Pic) (p : ℤ × ℤ) (r : ℤ) : updO f p r p = r := by
  simp [updO]

theorem updO_other (f : Pic) (p q : ℤ × ℤ) (r : ℤ) (h : q ≠ p) : updO f p r q = f q := by
  simp [updO, h]

@[simp] theorem updZ_same (f : ℤ → ℤ) (i r : ℤ) : updZ f i r i = r := by
  simp [updZ]

theorem updZ_other (f : ℤ → ℤ) (i j r : ℤ) (h : j ≠ i) : updZ f i r j = f j := by
  simp [updZ, h]

/-- `nlFrame`: one cache slot — the frame number (sentinel −20 when empty),
the materialized plane, and (temporal-pixel mode) its SDATA and `dsa` flags. -/
structure Slot where
  fnum : ℤ
  data : Pic
  ds : SD
  dsa : ℤ → ℤ

/-- A freshly constructed `nlFrame` (lines 737-770): `fnum = -20`, zeroed
accumulators and flags; no materialized frame yet (modelled as the zero plane). -/
def freshSlot : Slot := ⟨-20, fun _ => 0, SD.zero, fun _ => 0⟩

/-- `nlCache`: ring buffer of slots with rotation offset `start_pos`. -/
structure Cache where
  size : ℤ
  start_pos : ℤ
  slots : ℤ → Slot

/-- `nlCache::nlCache` (lines 802-823): `start_pos = size = -20`, then for a
positive requested size, `start_pos = 0` and `size = _size` with fresh slots. -/
def mkCache (sz : ℤ) : Cache :=
  if 0 < sz then ⟨sz, 0, fun _ => freshSlot⟩ else ⟨-20, -20, fun _ => freshSlot⟩

/-- `nlCache::getCachePos` (lines 858-861): `(start_pos + n) % size`. -/
def getCachePos (c : Cache) (n : ℤ) : ℤ := (c.start_pos + n) % c.size

/-- The double scan of `nlCache::resetCacheStart` (lines 832-835): outer loop
over `j` in `[first, last]`, inner over slots `i` in `[0, size-1]`, stopping at
the first hit `frames[i]->fnum == j`. -/
def rcsScan (c : Cache) (first last : ℤ) : Option (ℤ × ℤ) :=
  ((intRange first last).flatMap
    (fun j => (intRange 0 (c.size - 1)).map (fun i => (j, i)))).find?
    (fun ji => (c.slots ji.2).fnum == ji.1)

/-- `nlCache::resetCacheStart` (lines 830-843). -/
def resetCacheStart (c : Cache) (first last : ℤ) : Cache :=
  match rcsScan c first last with
  | none => c
  | some ji =>
    let s := ji.2 - ji.1 + first
    { c with start_pos := if s < 0 then s + c.size else if c.size ≤ s then s - c.size else s }

/-! ### Claim C9: ring-buffer invariant -/

/-- C9: after construction `start_pos = 0` and `0 ≤ start_pos < size`; every
`resetCacheStart` call with a window of exactly `size` indices keeps
`0 ≤ start_pos < size` (for any cache contents); and `getCachePos` maps
logical index `i` to physical slot `(start_pos + i) % size`. -/
theorem cache_ring_invariant (sz : ℤ) (hsz : 0 < sz) (c : Cache) (first last : ℤ)
    (hs0 : 0 ≤ c.start_pos) (hs1 : c.start_pos < c.size)
    (hfl : first ≤ last) (hlen : last - first + 1 = c.size) :
    ((mkCache sz).start_pos = 0 ∧
      0 ≤ (mkCache sz).start_pos ∧ (mkCache sz).start_pos < (mkCache sz).size) ∧
    ((resetCacheStart c first last).size = c.size ∧
      0 ≤ (resetCacheStart c first last).start_pos ∧
      (resetCacheStart c first last).start_pos < c.size) ∧
    (∀ i, getCachePos c i = (c.start_pos + i) % c.size) := by
  refine ⟨?_, ?_, fun i => rfl⟩
  · rw [mkCache, if_pos hsz]
    exact ⟨rfl, le_refl 0, hsz⟩
  · unfold resetCacheStart
    cases hscan : rcsScan c first last with
    | none => exact ⟨rfl, hs0, hs1⟩
    | some ji =>
      have hmem := List.mem_of_find?_eq_some hscan
      rw [List.mem_flatMap] at hmem
      obtain ⟨j, hj, hji⟩ := hmem
      rw [List.mem_map] at hji
      obtain ⟨i, hi, hji⟩ := hji
      subst hji
      rw [mem_intRange] at hj hi
      refine ⟨rfl, ?_, ?_⟩ <;>
      · simp only
        split_ifs <;> omega

theorem cache_ring_invariant_witness :
    0 < (3 : ℤ) ∧ (mkCache 3).start_pos = 0 ∧
      0 ≤ (resetCacheStart (mkCache 3) 0 2).start_pos := by
  have hs : (mkCache 3).start_pos = 0 := by
    rw [mkCache, if_pos (by norm_num)]
  have hsz : (mkCache 3).size = 3 := by
    rw [mkCache, if_pos (by norm_num)]
  have h := cache_ring_invariant 3 (by norm_num) (mkCache 3) 0 2
    (by rw [hs]) (by rw [hs, hsz]; norm_num) (by norm_num) (by rw [hsz]; norm_num)
  exact ⟨by norm_num, h.1.1, h.2.1.2.1⟩

/-! ### Claim C10: frame-index clamping -/

/-- C10: `mapn` clamps below to 0 and above to `numFrames−1` and is the
identity in range; every index in the `RequestFrame` window request list is in
`[0, numFrames−1]`; and for an output index `n` in range, a temporal slot `z`
lies in `[startz, stopz]` exactly when the frame `n−Az+z` it denotes lies in
`[0, numFrames−1]`, so out-of-range offsets are excluded from accumulation. -/
theorem mapn_clamping (numFrames Az n : ℤ) (hAz : 0 ≤ Az) (hn0 : 0 ≤ n)
    (hn1 : n ≤ numFrames - 1) :
    (∀ m : ℤ, m < 0 → mapn numFrames m = 0) ∧
    (∀ m : ℤ, numFrames ≤ m → mapn numFrames m = numFrames - 1) ∧
    (∀ m : ℤ, 0 ≤ m → m < numFrames → mapn numFrames m = m) ∧
    (∀ m ∈ requestFrames numFrames Az n, 0 ≤ m ∧ m ≤ numFrames - 1) ∧
    (∀ z : ℤ, 0 ≤ z → z ≤ 2 * Az →
      ((startzOf Az n ≤ z ∧ z ≤ stopzOf Az numFrames n) ↔
        (0 ≤ n - Az + z ∧ n - Az + z ≤ numFrames - 1))) := by
  refine ⟨?_, ?_, ?_, ?_, ?_⟩
  · intro m hm; unfold mapn; split_ifs <;> omega
  · intro m hm; unfold mapn; split_ifs <;> omega
  · intro m hm1 hm2; unfold mapn; split_ifs <;> omega
  · intro m hm
    unfold requestFrames at hm
    rw [List.mem_map] at hm
    obtain ⟨i, hi, rfl⟩ := hm
    rw [mem_intRange] at hi
    unfold mapn; split_ifs <;> omega
  · intro z hz0 hz1
    unfold startzOf stopzOf
    omega

theorem mapn_clamping_witness :
    (0 : ℤ) ≤ 1 ∧ mapn 5 (-3) = 0 ∧ mapn 5 9 = 4 := by
  have h := mapn_clamping 5 1 2 (by norm_num) (by norm_num) (by norm_num)
  exact ⟨by norm_num, h.1 (-3) (by norm_num), by
    have := h.2.1 9 (by norm_num); simpa using this⟩

/-! ### Claim C8: border clipping keeps every sampled offset in frame -/

/-- C8: the clipped patch bounds `(yT, yB, xL, xR)` keep both sampled patch
rows/columns (candidate side `v+k, u+j` and source side `x+k, y+j`) inside
`[0, width−1] × [0, height−1]`; the clipped search bounds keep every candidate
in frame; and the block-smear bounds of the block variants keep every smeared
read in frame. No upper bound on the target or candidate coordinates is
assumed, so the block variants' border tiles whose centers or scanned rows
lie beyond the last row/column are covered as well: the `hm1 − u` / `hm1 − y`
(and `wm1 − v` / `wm1 − x`) terms of the clip bounds alone suffice. -/
theorem border_clipping_safe :
    (∀ Sx wm1 x v k : ℤ, 0 ≤ x → 0 ≤ v →
      xLc Sx v x ≤ k → k ≤ xRc Sx wm1 v x →
      0 ≤ v + k ∧ v + k ≤ wm1 ∧ 0 ≤ x + k ∧ x + k ≤ wm1) ∧
    (∀ Sy hm1 y u j : ℤ, 0 ≤ y → 0 ≤ u →
      yTc Sy u y ≤ j → j ≤ yBc Sy hm1 u y →
      0 ≤ u + j ∧ u + j ≤ hm1 ∧ 0 ≤ y + j ∧ y + j ≤ hm1) ∧
    (∀ Ax wm1 x v : ℤ, max (x - Ax) 0 ≤ v → v ≤ min (x + Ax) wm1 →
      0 ≤ v ∧ v ≤ wm1) ∧
    (∀ By hm1 y u j : ℤ, 0 ≤ By → By ≤ u → 0 ≤ y →
      -By ≤ j → j ≤ yBbC By hm1 u y → 0 ≤ u + j ∧ u + j ≤ hm1) ∧
    (∀ Bx wm1 x v k : ℤ, 0 ≤ Bx → Bx ≤ v → 0 ≤ x →
      -Bx ≤ k → k ≤ xRbC Bx wm1 v x → 0 ≤ v + k ∧ v + k ≤ wm1) := by
  refine ⟨?_, ?_, ?_, ?_, ?_⟩
  · intro Sx wm1 x v k h1 h2 h3 h4
    unfold xLc at h3; unfold xRc at h4; omega
  · intro Sy hm1 y u j h1 h2 h3 h4
    unfold yTc at h3; unfold yBc at h4; omega
  · intro Ax wm1 x v h1 h2
    omega
  · intro By hm1 y u j h1 h2 h3 h4 h5
    unfold yBbC at h5; omega
  · intro Bx wm1 x v k h1 h2 h3 h4 h5
    unfold xRbC at h5; omega

theorem border_clipping_safe_witness :
    (0 : ℤ) ≤ 0 ∧ (0 ≤ (0 : ℤ) + xLc 3 0 0 ∧ 0 + xLc 3 0 0 ≤ 9 ∧
      0 ≤ (0 : ℤ) + xLc 3 0 0 ∧ 0 + xLc 3 0 0 ≤ 9) := by
  refine ⟨le_refl 0, ?_⟩
  exact border_clipping_safe.1 3 9 0 0 (xLc 3 0 0) (le_refl 0) (le_refl 0)
    (le_refl _) (by decide)

/-! ### Claim C7: eager constructor validation -/

/-- C7: for a planar 8-bit clip, construction succeeds exactly when all the
parameter constraints hold (Ax, Ay, Az, Bx, By, Sx, Sy ≥ 0, Sx ≥ Bx, Sy ≥ By,
a > 0, h > 0), and each violated constraint, when reached in source order, is
reported as a `bad_param` error naming the specific field.  A failure yields
an `.error`, never a usable engine (`Except` has no partial success). -/
theorem ctor_validation (Ax Ay Az Sx Sy Bx By : ℤ) (a h : ℝ) :
    (validateParams false 8 Ax Ay Az Sx Sy Bx By a h = .ok () ↔
      (0 < h ∧ 0 < a ∧ 0 ≤ Ax ∧ 0 ≤ Ay ∧ 0 ≤ Az ∧ 0 ≤ Bx ∧ 0 ≤ By ∧ 0 ≤ Sx ∧ 0 ≤ Sy ∧
        Bx ≤ Sx ∧ By ≤ Sy)) ∧
    (h ≤ 0 →
      validateParams false 8 Ax Ay Az Sx Sy Bx By a h = .error "h must be greater than 0") ∧
    (0 < h → a ≤ 0 →
      validateParams false 8 Ax Ay Az Sx Sy Bx By a h = .error "a must be greater than 0") ∧
    (0 < h → 0 < a → Ax < 0 →
      validateParams false 8 Ax Ay Az Sx Sy Bx By a h =
        .error "ax must be greater than or equal to 0") ∧
    (0 < h → 0 < a → 0 ≤ Ax → Ay < 0 →
      validateParams false 8 Ax Ay Az Sx Sy Bx By a h =
        .error "ay must be greater than or equal to 0") ∧
    (0 < h → 0 < a → 0 ≤ Ax → 0 ≤ Ay → Az < 0 →
      validateParams false 8 Ax Ay Az Sx Sy Bx By a h =
        .error "az must be greater than or equal to 0") ∧
    (0 < h → 0 < a → 0 ≤ Ax → 0 ≤ Ay → 0 ≤ Az → Bx < 0 →
      validateParams false 8 Ax Ay Az Sx Sy Bx By a h =
        .error "bx must be greater than or equal to 0") ∧
    (0 < h → 0 < a → 0 ≤ Ax → 0 ≤ Ay → 0 ≤ Az → 0 ≤ Bx → By < 0 →
      validateParams false 8 Ax Ay Az Sx Sy Bx By a h =
        .error "by must be greater than or equal to 0") ∧
    (0 < h → 0 < a → 0 ≤ Ax → 0 ≤ Ay → 0 ≤ Az → 0 ≤ Bx → 0 ≤ By → Sx < 0 →
      validateParams false 8 Ax Ay Az Sx Sy Bx By a h =
        .error "sx must be greater than or equal to 0") ∧
    (0 < h → 0 < a → 0 ≤ Ax → 0 ≤ Ay → 0 ≤ Az → 0 ≤ Bx → 0 ≤ By → 0 ≤ Sx → Sy < 0 →
      validateParams false 8 Ax Ay Az Sx Sy Bx By a h =
        .error "sy must be greater than or equal to 0") ∧
    (0 < h → 0 < a → 0 ≤ Ax → 0 ≤ Ay → 0 ≤ Az → 0 ≤ Bx → 0 ≤ By → 0 ≤ Sx → 0 ≤ Sy →
      Sx < Bx →
      validateParams false 8 Ax Ay Az Sx Sy Bx By a h =
        .error "sx must be greater than or equal to bx") ∧
    (0 < h → 0 < a → 0 ≤ Ax → 0 ≤ Ay → 0 ≤ Az → 0 ≤ Bx → 0 ≤ By → 0 ≤ Sx → 0 ≤ Sy →
      Bx ≤ Sx → Sy < By →
      validateParams false 8 Ax Ay Az Sx Sy Bx By a h =
        .error "sy must be greater than or equal to by") := by
  constructor
  · unfold validateParams
    rw [if_neg (by decide : ¬(false = true)), if_neg (by decide : ¬((8 : ℤ) ≠ 8))]
    split_ifs with h1 h2 h3 h4 h5 h6 h7 h8 h9 h10 h11
    · exact iff_of_false (by simp) (fun hc => absurd hc.1 (not_lt.mpr h1))
    · exact iff_of_false (by simp) (fun hc => absurd hc.2.1 (not_lt.mpr h2))
    · exact iff_of_false (by simp) (fun hc => absurd hc.2.2.1 (not_le.mpr h3))
    · exact iff_of_false (by simp) (fun hc => absurd hc.2.2.2.1 (not_le.mpr h4))
    · exact iff_of_false (by simp) (fun hc => absurd hc.2.2.2.2.1 (not_le.mpr h5))
    · exact iff_of_false (by simp) (fun hc => absurd hc.2.2.2.2.2.1 (not_le.mpr h6))
    · exact iff_of_false (by simp) (fun hc => absurd hc.2.2.2.2.2.2.1 (not_le.mpr h7))
    · exact iff_of_false (by simp) (fun hc => absurd hc.2.2.2.2.2.2.2.1 (not_le.mpr h8))
    · exact iff_of_false (by simp) (fun hc => absurd hc.2.2.2.2.2.2.2.2.1 (not_le.mpr h9))
    · exact iff_of_false (by simp) (fun hc => absurd hc.2.2.2.2.2.2.2.2.2.1 (not_le.mpr h10))
    · exact iff_of_false (by simp)
        (fun hc => absurd hc.2.2.2.2.2.2.2.2.2.2 (not_le.mpr h11))
    · exact iff_of_true rfl ⟨not_le.mp h1, not_le.mp h2, not_lt.mp h3, not_lt.mp h4,
        not_lt.mp h5, not_lt.mp h6, not_lt.mp h7, not_lt.mp h8, not_lt.mp h9,
        not_lt.mp h10, not_lt.mp h11⟩
  refine ⟨?_, ?_, ?_, ?_, ?_, ?_, ?_, ?_, ?_, ?_, ?_⟩
  · intro p1
    unfold validateParams
    rw [if_neg (by decide : ¬(false = true)), if_neg (by decide : ¬((8 : ℤ) ≠ 8)), if_pos p1]
  · intro p1 p2
    unfold validateParams
    rw [if_neg (by decide : ¬(false = true)), if_neg (by decide : ¬((8 : ℤ) ≠ 8)),
      if_neg (not_le.mpr p1), if_pos p2]
  · intro p1 p2 p3
    unfold validateParams
    rw [if_neg (by decide : ¬(false = true)), if_neg (by decide : ¬((8 : ℤ) ≠ 8)),
      if_neg (not_le.mpr p1), if_neg (not_le.mpr p2), if_pos p3]
  · intro p1 p2 p3 p4
    unfold validateParams
    rw [if_neg (by decide : ¬(false = true)), if_neg (by decide : ¬((8 : ℤ) ≠ 8)),
      if_neg (not_le.mpr p1), if_neg (not_le.mpr p2), if_neg (not_lt.mpr p3), if_pos p4]
  · intro p1 p2 p3 p4 p5
    unfold validateParams
    rw [if_neg (by decide : ¬(false = true)), if_neg (by decide : ¬((8 : ℤ) ≠ 8)),
      if_neg (not_le.mpr p1), if_neg (not_le.mpr p2), if_neg (not_lt.mpr p3),
      if_neg (not_lt.mpr p4), if_pos p5]
  · intro p1 p2 p3 p4 p5 p6
    unfold validateParams
    rw [if_neg (by decide : ¬(false = true)), if_neg (by decide : ¬((8 : ℤ) ≠ 8)),
      if_neg (not_le.mpr p1), if_neg (not_le.mpr p2), if_neg (not_lt.mpr p3),
      if_neg (not_lt.mpr p4), if_neg (not_lt.mpr p5), if_pos p6]
  · intro p1 p2 p3 p4 p5 p6 p7
    unfold validateParams
    rw [if_neg (by decide : ¬(false = true)), if_neg (by decide : ¬((8 : ℤ) ≠ 8)),
      if_neg (not_le.mpr p1), if_neg (not_le.mpr p2), if_neg (not_lt.mpr p3),
      if_neg (not_lt.mpr p4), if_neg (not_lt.mpr p5), if_neg (not_lt.mpr p6), if_pos p7]
  · intro p1 p2 p3 p4 p5 p6 p7 p8
    unfold validateParams
    rw [if_neg (by decide : ¬(false = true)), if_neg (by decide : ¬((8 : ℤ) ≠ 8)),
      if_neg (not_le.mpr p1), if_neg (not_le.mpr p2), if_neg (not_lt.mpr p3),
      if_neg (not_lt.mpr p4), if_neg (not_lt.mpr p5), if_neg (not_lt.mpr p6),
      if_neg (not_lt.mpr p7), if_pos p8]
  · intro p1 p2 p3 p4 p5 p6 p7 p8 p9
    unfold validateParams
    rw [if_neg (by decide : ¬(false = true)), if_neg (by decide : ¬((8 : ℤ) ≠ 8)),
      if_neg (not_le.mpr p1), if_neg (not_le.mpr p2), if_neg (not_lt.mpr p3),
      if_neg (not_lt.mpr p4), if_neg (not_lt.mpr p5), if_neg (not_lt.mpr p6),
      if_neg (not_lt.mpr p7), if_neg (not_lt.mpr p8), if_pos p9]
  · intro p1 p2 p3 p4 p5 p6 p7 p8 p9 p10
    unfold validateParams
    rw [if_neg (by decide : ¬(false = true)), if_neg (by decide : ¬((8 : ℤ) ≠ 8)),
      if_neg (not_le.mpr p1), if_neg (not_le.mpr p2), if_neg (not_lt.mpr p3),
      if_neg (not_lt.mpr p4), if_neg (not_lt.mpr p5), if_neg (not_lt.mpr p6),
      if_neg (not_lt.mpr p7), if_neg (not_lt.mpr p8), if_neg (not_lt.mpr p9), if_pos p10]
  · intro p1 p2 p3 p4 p5 p6 p7 p8 p9 p10 p11
    unfold validateParams
    rw [if_neg (by decide : ¬(false = true)), if_neg (by decide : ¬((8 : ℤ) ≠ 8)),
      if_neg (not_le.mpr p1), if_neg (not_le.mpr p2), if_neg (not_lt.mpr p3),
      if_neg (not_lt.mpr p4), if_neg (not_lt.mpr p5), if_neg (not_lt.mpr p6),
      if_neg (not_lt.mpr p7), if_neg (not_lt.mpr p8), if_neg (not_lt.mpr p9),
      if_neg (not_lt.mpr p10), if_pos p11]

theorem ctor_validation_witness :
    ((0 : ℝ) < 1) ∧
      validateParams false 8 1 1 0 2 2 0 0 1 1 = .ok () := by
  have h := (ctor_validation 1 1 0 2 2 0 0 1 1).1
  exact ⟨by norm_num, h.mpr ⟨by norm_num, by norm_num, by norm_num, by norm_num, by norm_num,
    by norm_num, by norm_num, by norm_num, by norm_num, by norm_num, by norm_num⟩⟩

/-! ### Claim C6: the patch-to-patch weight function -/

/-- C6 (weight function spec-modelled from §4.2, scales `hin`, `h2in` from the
constructor): the weight equals `exp(scale · diff / gweights)` with scale
`−1/h` for SAD and `−1/h²` for SSD; for `diff ≥ 0`, `gweights > 0`, `h > 0`
the weight lies in (0, 1], equals 1 exactly when `diff = 0`, and is
non-increasing in the normalized distance `diff / gweights`. -/
theorem weight_function_props :
    (∀ (s : Bool) (h d g : ℝ),
      weightFromDiff s h d g = Real.exp ((if s then -1 / (h * h) else -1 / h) * d / g)) ∧
    (∀ (s : Bool) (h d g : ℝ), 0 < h → 0 ≤ d → 0 < g →
      0 < weightFromDiff s h d g ∧ weightFromDiff s h d g ≤ 1 ∧
        (d = 0 → weightFromDiff s h d g = 1)) ∧
    (∀ (s : Bool) (h d₁ g₁ d₂ g₂ : ℝ), 0 < h → d₁ / g₁ ≤ d₂ / g₂ →
      weightFromDiff s h d₂ g₂ ≤ weightFromDiff s h d₁ g₁) := by
  have hscale : ∀ (s : Bool) (h : ℝ), 0 < h → (if s then h2in h else hin h) ≤ 0 := by
    intro s h hh
    cases s
    · simp only [Bool.false_eq_true, if_false, hin]
      exact le_of_lt (div_neg_of_neg_of_pos (by norm_num) hh)
    · simp only [if_true, h2in]
      exact le_of_lt (div_neg_of_neg_of_pos (by norm_num) (mul_pos hh hh))
  refine ⟨?_, ?_, ?_⟩
  · intro s h d g
    unfold weightFromDiff hin h2in
    rfl
  · intro s h d g hh hd hg
    unfold weightFromDiff
    refine ⟨Real.exp_pos _, ?_, ?_⟩
    · rw [Real.exp_le_one_iff, mul_div_assoc]
      exact mul_nonpos_of_nonpos_of_nonneg (hscale s h hh) (div_nonneg hd (le_of_lt hg))
    · intro hd0
      rw [hd0]
      simp [Real.exp_zero]
  · intro s h d₁ g₁ d₂ g₂ hh hmono
    unfold weightFromDiff
    rw [Real.exp_le_exp, mul_div_assoc, mul_div_assoc]
    exact mul_le_mul_of_nonpos_left hmono (hscale s h hh)

theorem weight_function_props_witness :
    (0 : ℝ) < 1 ∧ weightFromDiff false 1 0 1 = 1 :=
  ⟨by norm_num,
    (weight_function_props.2.1 false 1 0 1 (by norm_num) (le_refl 0) (by norm_num)).2.2 rfl⟩

/-! ### The spatial-pixel pass `GetFrameWOZ` (lines 511-608) -/

/-- `wmax = *dwmax <= epsilon ? 1.0 : *dwmax` (lines 351, 489, 597, 707):
the self weight derived from the accumulated running maximum. -/
noncomputable def selfW (m : ℝ) : ℝ := if m ≤ dblEps then 1 else m

/-- Row-major order on pixel cells (x, y): the order in which the
`for y / for x` loop nest of every variant visits output pixels. -/
def before (p q : ℤ × ℤ) : Prop := p.2 < q.2 ∨ (p.2 = q.2 ∧ p.1 < q.1)

instance beforeDec (p q : ℤ × ℤ) : Decidable (before p q) := by
  unfold before
  exact inferInstance

theorem before_trichotomy (p q : ℤ × ℤ) : before p q ∨ p = q ∨ before q p := by
  unfold before
  rcases p with ⟨a, b⟩
  rcases q with ⟨c, d⟩
  simp only [Prod.mk.injEq]
  omega

theorem before_irrefl (p : ℤ × ℤ) : ¬ before p p := by
  unfold before
  omega

theorem before_asymm {p q : ℤ × ℤ} (h : before p q) : ¬ before q p := by
  unfold before at h ⊢
  omega

/-- All in-frame pixel cells. -/
def dom (wm1 hm1 : ℤ) : Finset (ℤ × ℤ) := Finset.Icc 0 wm1 ×ˢ Finset.Icc 0 hm1

theorem mem_dom {wm1 hm1 : ℤ} {p : ℤ × ℤ} :
    p ∈ dom wm1 hm1 ↔ 0 ≤ p.1 ∧ p.1 ≤ wm1 ∧ 0 ≤ p.2 ∧ p.2 ≤ hm1 := by
  unfold dom
  rw [Finset.mem_product, Finset.mem_Icc, Finset.mem_Icc]
  tauto

/-- The full border-clipped (Ax, Ay) search window around a pixel: columns
`[max(x-Ax,0), min(x+Ax,wm1)]`, rows `[max(y-Ay,0), min(y+Ay,hm1)]`
(lines 286-292, 545-550). -/
def winF (Ax Ay wm1 hm1 : ℤ) (p : ℤ × ℤ) : Finset (ℤ × ℤ) :=
  Finset.Icc (max (p.1 - Ax) 0) (min (p.1 + Ax) wm1) ×ˢ
    Finset.Icc (max (p.2 - Ay) 0) (min (p.2 + Ay) hm1)

theorem mem_winF {Ax Ay wm1 hm1 : ℤ} {p q : ℤ × ℤ} :
    q ∈ winF Ax Ay wm1 hm1 p ↔
      (max (p.1 - Ax) 0 ≤ q.1 ∧ q.1 ≤ min (p.1 + Ax) wm1) ∧
      (max (p.2 - Ay) 0 ≤ q.2 ∧ q.2 ≤ min (p.2 + Ay) hm1) := by
  unfold winF
  rw [Finset.mem_product, Finset.mem_Icc, Finset.mem_Icc]

theorem winF_subset_dom {Ax Ay wm1 hm1 : ℤ} {p q : ℤ × ℤ}
    (h : q ∈ winF Ax Ay wm1 hm1 p) : q ∈ dom wm1 hm1 := by
  rw [mem_winF] at h
  rw [mem_dom]
  omega

theorem mem_winF_comm {Ax Ay wm1 hm1 : ℤ} {p q : ℤ × ℤ}
    (hp : p ∈ dom wm1 hm1) (hq : q ∈ dom wm1 hm1) :
    q ∈ winF Ax Ay wm1 hm1 p ↔ p ∈ winF Ax Ay wm1 hm1 q := by
  rw [mem_dom] at hp hq
  rw [mem_winF, mem_winF]
  omega

/-- The pair weight in cell form: center cell p, candidate cell q, both in
the same frame `f`. -/
noncomputable def wP (cfg : Cfg) (f : Pic) (wm1 hm1 : ℤ) (p q : ℤ × ℤ) : ℝ :=
  pairWeight cfg f f wm1 hm1 p.1 p.2 q.2 q.1

theorem wP_symm (cfg : Cfg) (f : Pic) (wm1 hm1 : ℤ) (p q : ℤ × ℤ) :
    wP cfg f wm1 hm1 p q = wP cfg f wm1 hm1 q p := by
  unfold wP
  exact pairWeight_symm cfg f f wm1 hm1 p.1 p.2 q.2 q.1

theorem wP_pos (cfg : Cfg) (f : Pic) (wm1 hm1 : ℤ) (p q : ℤ × ℤ) :
    0 < wP cfg f wm1 hm1 p q :=
  pairWeight_pos ..

/-- Brute-force reference, weight total: every other pixel of the full
clipped window contributes its pair weight once (claim C2's reference). -/
noncomputable def refWeight (cfg : Cfg) (f : Pic) (wm1 hm1 : ℤ) (p : ℤ × ℤ) : ℝ :=
  ∑ q ∈ (winF cfg.Ax cfg.Ay wm1 hm1 p).erase p, wP cfg f wm1 hm1 p q

/-- Brute-force reference, weighted sum of candidate values. -/
noncomputable def refSum (cfg : Cfg) (f : Pic) (wm1 hm1 : ℤ) (p : ℤ × ℤ) : ℝ :=
  ∑ q ∈ (winF cfg.Ax cfg.Ay wm1 hm1 p).erase p, (f q : ℝ) * wP cfg f wm1 hm1 p q

/-- Brute-force reference, maximum candidate weight (0 when no candidate). -/
noncomputable def refWmax (cfg : Cfg) (f : Pic) (wm1 hm1 : ℤ) (p : ℤ × ℤ) : ℝ :=
  ((winF cfg.Ax cfg.Ay wm1 hm1 p).erase p).fold max 0 (wP cfg f wm1 hm1 p)

/-- Brute-force reference output pixel: add the self term with weight
`selfW (refWmax p)` and normalize, rounding and clamping as the source does. -/
noncomputable def refOut (cfg : Cfg) (f : Pic) (wm1 hm1 : ℤ) (p : ℤ × ℤ) : ℤ :=
  clamp255 ((refSum cfg f wm1 hm1 p + (f p : ℝ) * selfW (refWmax cfg f wm1 hm1 p)) /
    (refWeight cfg f wm1 hm1 p + selfW (refWmax cfg f wm1 hm1 p)))

/-- The causal candidate cells of pixel (x,y) in `GetFrameWOZ`
(loops at lines 555-565): rows `u` from `y` to `min(y+Ay, hm1)`, columns `v`
from `x+1` on the center row, else from `max(x-Ax, 0)`, to `min(x+Ax, wm1)`.
Each candidate is the cell (v, u). -/
def wozCands (Ax Ay wm1 hm1 x y : ℤ) : List (ℤ × ℤ) :=
  (intRange y (min (y + Ay) hm1)).flatMap (fun u =>
    (intRange (if u = y then x + 1 else max (x - Ax) 0) (min (x + Ax) wm1)).map
      (fun v => (v, u)))

/-- One candidate update of the spatial-pixel scan (lines 588-594), in
source order: cweight, dweight, csum, dsum, cwmax, dwmax. -/
noncomputable def wozScanStep (cfg : Cfg) (f : Pic) (wm1 hm1 : ℤ) (p : ℤ × ℤ)
    (s : SD) (q : ℤ × ℤ) : SD :=
  let w := pairWeight cfg f f wm1 hm1 p.1 p.2 q.2 q.1
  let we1 := upd s.weights q (s.weights q + w)
  let we2 := upd we1 p (we1 p + w)
  let su1 := upd s.sums q (s.sums q + (f p : ℝ) * w)
  let su2 := upd su1 p (su1 p + (f q : ℝ) * w)
  let ma1 := upd s.wmaxs q (if s.wmaxs q < w then w else s.wmaxs q)
  let ma2 := upd ma1 p (if ma1 p < w then w else ma1 p)
  ⟨su2, we2, ma2⟩

/-- End of one pixel (lines 597-600): apply the self weight, then write the
rounded, clamped quotient to the output. -/
noncomputable def wozFinish (f : Pic) (st : SD × Pic) (p : ℤ × ℤ) : SD × Pic :=
  let s := st.1
  let wm := selfW (s.wmaxs p)
  let su := upd s.sums p (s.sums p + (f p : ℝ) * wm)
  let we := upd s.weights p (s.weights p + wm)
  (⟨su, we, s.wmaxs⟩, updO st.2 p (clamp255 (su p / we p)))

/-- One full pixel of `GetFrameWOZ`: causal candidate scan, then finish. -/
noncomputable def wozPixel (cfg : Cfg) (f : Pic) (wm1 hm1 : ℤ) (st : SD × Pic)
    (p : ℤ × ℤ) : SD × Pic :=
  wozFinish f
    ((wozCands cfg.Ax cfg.Ay wm1 hm1 p.1 p.2).foldl (wozScanStep cfg f wm1 hm1 p) st.1, st.2) p

/-- Row-major pixel enumeration of the `for y / for x` loop nest. -/
def pixelsRM (wm1 hm1 : ℤ) : List (ℤ × ℤ) :=
  (intRange 0 hm1).flatMap (fun y => (intRange 0 wm1).map (fun x => (x, y)))

/-- `GetFrameWOZ` on one plane: zeroed accumulators (lines 540-542), then
the row-major pixel loop; the result is the output plane. -/
noncomputable def GetFrameWOZ (cfg : Cfg) (f : Pic) (width height : ℤ) : Pic :=
  ((pixelsRM (width - 1) (height - 1)).foldl
    (wozPixel cfg f (width - 1) (height - 1)) (SD.zero, fun _ => 0)).2

/-! ### Fold and max helper lemmas -/

theorem maxUpd_eq (a b : ℝ) : (if a < b then b else a) = max a b := by
  rcases lt_or_le a b with h | h
  · rw [if_pos h, max_eq_right (le_of_lt h)]
  · rw [if_neg (not_lt.mpr h), max_eq_left h]

theorem foldl_max_shift (L : List ℝ) (b : ℝ) (hb : 0 ≤ b) (hL : ∀ x ∈ L, 0 ≤ x) :
    L.foldl max b = max b (L.foldl max 0) := by
  induction L generalizing b with
  | nil => simp [max_eq_left hb]
  | cons x t ih =>
    simp only [List.foldl_cons]
    have hx : 0 ≤ x := hL x (List.mem_cons_self x t)
    rw [ih (max b x) (le_max_of_le_right hx) (fun z hz => hL z (List.mem_cons_of_mem x hz)),
      ih (max 0 x) (le_max_left 0 x) (fun z hz => hL z (List.mem_cons_of_mem x hz)),
      max_eq_right hx, max_assoc]

theorem foldmax_nonneg (s : Finset (ℤ × ℤ)) (g : ℤ × ℤ → ℝ) : 0 ≤ s.fold max 0 g := by
  induction s using Finset.induction_on with
  | empty => simp
  | insert ha ih => rw [Finset.fold_insert ha]; exact le_max_of_le_right ih

theorem foldmax_union_disjoint (s t : Finset (ℤ × ℤ)) (g : ℤ × ℤ → ℝ)
    (hd : Disjoint s t) :
    (s ∪ t).fold max 0 g = max (s.fold max 0 g) (t.fold max 0 g) := by
  induction s using Finset.induction_on with
  | empty => simp [max_eq_right (foldmax_nonneg t g)]
  | @insert a s ha ih =>
    have hat : a ∉ t := fun hmem =>
      (Finset.disjoint_left.mp hd (Finset.mem_insert_self a s)) hmem
    have has : a ∉ s ∪ t := by
      rw [Finset.mem_union]
      rintro (h | h)
      · exact ha h
      · exact hat h
    rw [Finset.insert_union, Finset.fold_insert has, Finset.fold_insert ha,
      ih (Finset.disjoint_of_subset_left (Finset.subset_insert a s) hd), max_assoc]

theorem foldmax_congr (s : Finset (ℤ × ℤ)) (g g' : ℤ × ℤ → ℝ)
    (h : ∀ q ∈ s, g q = g' q) : s.fold max 0 g = s.fold max 0 g' := by
  induction s using Finset.induction_on with
  | empty => simp
  | @insert a s ha ih =>
    rw [Finset.fold_insert ha, Finset.fold_insert ha,
      h a (Finset.mem_insert_self a s), ih (fun q hq => h q (Finset.mem_insert_of_mem hq))]

theorem list_foldmax_toFinset (L : List (ℤ × ℤ)) (hnd : L.Nodup) (g : ℤ × ℤ → ℝ)
    (hg : ∀ q ∈ L, 0 ≤ g q) :
    (L.map g).foldl max 0 = L.toFinset.fold max 0 g := by
  induction L with
  | nil => simp
  | cons q t ih =>
    rw [List.nodup_cons] at hnd
    have hgq : 0 ≤ g q := hg q (List.mem_cons_self q t)
    have hgt : ∀ z ∈ t, 0 ≤ g z := fun z hz => hg z (List.mem_cons_of_mem q hz)
    rw [List.map_cons, List.foldl_cons,
      foldl_max_shift _ _ (le_max_of_le_right hgq)
        (by intro x hx; rw [List.mem_map] at hx; obtain ⟨z, hz, rfl⟩ := hx; exact hgt z hz),
      ih hnd.2 hgt, max_eq_right hgq, List.toFinset_cons,
      Finset.fold_insert (by rw [List.mem_toFinset]; exact hnd.1)]

/-! ### The causal candidate list: characterization -/

theorem mem_wozCands {Ax Ay wm1 hm1 x y : ℤ} (hAx : 0 ≤ Ax) (hAy : 0 ≤ Ay)
    (hx0 : 0 ≤ x) (hx1 : x ≤ wm1) (hy0 : 0 ≤ y) (hy1 : y ≤ hm1) {q : ℤ × ℤ} :
    q ∈ wozCands Ax Ay wm1 hm1 x y ↔
      q ∈ (winF Ax Ay wm1 hm1 (x, y)).erase (x, y) ∧ before (x, y) q := by
  obtain ⟨qx, qy⟩ := q
  unfold wozCands
  rw [List.mem_flatMap]
  rw [Finset.mem_erase, mem_winF]
  simp only [List.mem_map, mem_intRange, Prod.mk.injEq, ne_eq]
  unfold before
  dsimp only
  constructor
  · rintro ⟨u, hu, v, hv, he1, he2⟩
    subst he1
    subst he2
    by_cases huy : u = y
    · rw [if_pos huy] at hv
      subst huy
      refine ⟨⟨?_, ?_⟩, ?_⟩ <;> omega
    · rw [if_neg huy] at hv
      refine ⟨⟨?_, ?_⟩, ?_⟩ <;> omega
  · rintro ⟨⟨hne, hb⟩, hbef⟩
    refine ⟨qy, ?_, qx, ?_, rfl, rfl⟩
    · omega
    · by_cases huy : qy = y
      · rw [if_pos huy]
        omega
      · rw [if_neg huy]
        omega

theorem wozCands_nodup (Ax Ay wm1 hm1 x y : ℤ) : (wozCands Ax Ay wm1 hm1 x y).Nodup := by
  unfold wozCands
  rw [List.nodup_flatMap]
  constructor
  · intro u _
    refine List.Nodup.map_on ?_ (intRange_nodup _ _)
    intro a _ b _ h
    rw [Prod.mk.injEq] at h
    exact h.1
  · refine List.Pairwise.imp ?_ (List.Pairwise.imp (fun h => h) (intRange_nodup _ _))
    intro u1 u2 hne
    intro a ha1 ha2
    rw [List.mem_map] at ha1 ha2
    obtain ⟨v1, _, rfl⟩ := ha1
    obtain ⟨v2, _, he⟩ := ha2
    rw [Prod.mk.injEq] at he
    exact hne he.2.symm

theorem self_not_mem_wozCands {Ax Ay wm1 hm1 x y : ℤ} (hAx : 0 ≤ Ax) (hAy : 0 ≤ Ay)
    (hx0 : 0 ≤ x) (hx1 : x ≤ wm1) (hy0 : 0 ≤ y) (hy1 : y ≤ hm1) :
    (x, y) ∉ wozCands Ax Ay wm1 hm1 x y := by
  intro hmem
  rw [mem_wozCands hAx hAy hx0 hx1 hy0 hy1] at hmem
  exact before_irrefl (x, y) hmem.2

/-! ### Denotation of the spatial-pixel candidate scan -/

theorem wozScanStep_eval (cfg : Cfg) (f : Pic) (wm1 hm1 : ℤ) (p q : ℤ × ℤ) (s : SD)
    (hpq : p ≠ q) :
    (wozScanStep cfg f wm1 hm1 p s q).weights p = s.weights p + wP cfg f wm1 hm1 p q ∧
    (wozScanStep cfg f wm1 hm1 p s q).weights q = s.weights q + wP cfg f wm1 hm1 p q ∧
    (wozScanStep cfg f wm1 hm1 p s q).sums p
      = s.sums p + (f q : ℝ) * wP cfg f wm1 hm1 p q ∧
    (wozScanStep cfg f wm1 hm1 p s q).sums q
      = s.sums q + (f p : ℝ) * wP cfg f wm1 hm1 p q ∧
    (wozScanStep cfg f wm1 hm1 p s q).wmaxs p = max (s.wmaxs p) (wP cfg f wm1 hm1 p q) ∧
    (wozScanStep cfg f wm1 hm1 p s q).wmaxs q = max (s.wmaxs q) (wP cfg f wm1 hm1 p q) ∧
    (∀ r, r ≠ p → r ≠ q →
      (wozScanStep cfg f wm1 hm1 p s q).weights r = s.weights r ∧
      (wozScanStep cfg f wm1 hm1 p s q).sums r = s.sums r ∧
      (wozScanStep cfg f wm1 hm1 p s q).wmaxs r = s.wmaxs r) := by
  have hqp : q ≠ p := Ne.symm hpq
  refine ⟨?_, ?_, ?_, ?_, ?_, ?_, ?_⟩
  · simp [wozScanStep, upd, hpq, wP]
  · simp [wozScanStep, upd, hqp, wP]
  · simp [wozScanStep, upd, hpq, wP]
  · simp [wozScanStep, upd, hqp, wP]
  · simp only [wozScanStep, upd, wP]
    rw [if_pos trivial, if_neg hpq]
    exact maxUpd_eq _ _
  · simp only [wozScanStep, upd, wP]
    rw [if_neg hqp, if_pos trivial]
    exact maxUpd_eq _ _
  · intro r hrp hrq
    refine ⟨?_, ?_, ?_⟩ <;>
    · simp only [wozScanStep, upd]
      rw [if_neg hrp, if_neg hrq]

theorem woz_scan_den (cfg : Cfg) (f : Pic) (wm1 hm1 : ℤ) (p : ℤ × ℤ) :
    ∀ (L : List (ℤ × ℤ)), p ∉ L → L.Nodup → ∀ s : SD,
      ((L.foldl (wozScanStep cfg f wm1 hm1 p) s).weights p
          = s.weights p + (L.map (wP cfg f wm1 hm1 p)).sum) ∧
      ((L.foldl (wozScanStep cfg f wm1 hm1 p) s).sums p
          = s.sums p + (L.map (fun q => (f q : ℝ) * wP cfg f wm1 hm1 p q)).sum) ∧
      ((L.foldl (wozScanStep cfg f wm1 hm1 p) s).wmaxs p
          = (L.map (wP cfg f wm1 hm1 p)).foldl max (s.wmaxs p)) ∧
      (∀ r, r ≠ p → r ∉ L →
        (L.foldl (wozScanStep cfg f wm1 hm1 p) s).weights r = s.weights r ∧
        (L.foldl (wozScanStep cfg f wm1 hm1 p) s).sums r = s.sums r ∧
        (L.foldl (wozScanStep cfg f wm1 hm1 p) s).wmaxs r = s.wmaxs r) ∧
      (∀ r, r ≠ p → r ∈ L →
        (L.foldl (wozScanStep cfg f wm1 hm1 p) s).weights r
          = s.weights r + wP cfg f wm1 hm1 p r ∧
        (L.foldl (wozScanStep cfg f wm1 hm1 p) s).sums r
          = s.sums r + (f p : ℝ) * wP cfg f wm1 hm1 p r ∧
        (L.foldl (wozScanStep cfg f wm1 hm1 p) s).wmaxs r
          = max (s.wmaxs r) (wP cfg f wm1 hm1 p r)) := by
  intro L
  induction L with
  | nil =>
    intro _ _ s
    refine ⟨by simp, by simp, by simp, fun r _ _ => ⟨rfl, rfl, rfl⟩,
      fun r _ hr => absurd hr (List.not_mem_nil r)⟩
  | cons q t ih =>
    intro hnp hnd s
    have hpq : p ≠ q := fun h => hnp (h ▸ List.mem_cons_self q t)
    have hpt : p ∉ t := fun h => hnp (List.mem_cons_of_mem q h)
    rw [List.nodup_cons] at hnd
    obtain ⟨hqt, hndt⟩ := hnd
    rw [List.foldl_cons]
    obtain ⟨e1, e2, e3, e4, e5, e6, e7⟩ := wozScanStep_eval cfg f wm1 hm1 p q s hpq
    obtain ⟨i1, i2, i3, i4, i5⟩ := ih hpt hndt (wozScanStep cfg f wm1 hm1 p s q)
    refine ⟨?_, ?_, ?_, ?_, ?_⟩
    · rw [i1, e1, List.map_cons, List.sum_cons]
      ring
    · rw [i2, e3, List.map_cons, List.sum_cons]
      ring
    · rw [i3, e5, List.map_cons, List.foldl_cons]
    · intro r hrp hrm
      have hrq : r ≠ q := fun h => hrm (h ▸ List.mem_cons_self q t)
      have hrt : r ∉ t := fun h => hrm (List.mem_cons_of_mem q h)
      obtain ⟨j1, j2, j3⟩ := i4 r hrp hrt
      obtain ⟨k1, k2, k3⟩ := e7 r hrp hrq
      exact ⟨j1.trans k1, j2.trans k2, j3.trans k3⟩
    · intro r hrp hrm
      rcases List.mem_cons.mp hrm with hrq | hrt
      · subst hrq
        obtain ⟨j1, j2, j3⟩ := i4 r hrp hqt
        exact ⟨j1.trans e2, j2.trans e4, j3.trans e6⟩
      · obtain ⟨j1, j2, j3⟩ := i5 r hrp hrt
        have hrq : r ≠ q := fun h => hqt (h ▸ hrt)
        obtain ⟨k1, k2, k3⟩ := e7 r hrp hrq
        rw [j1, k1, j2, k2, j3, k3]
        exact ⟨rfl, rfl, rfl⟩

/-! ### The row-major sweep invariant for `GetFrameWOZ` -/

/-- The candidates of cell r already visited when the sweep cut is at c. -/
def halfSet (Ax Ay wm1 hm1 : ℤ) (r c : ℤ × ℤ) : Finset (ℤ × ℤ) :=
  ((winF Ax Ay wm1 hm1 r).erase r).filter (fun q => before q c)

/-- The causal (still to come) candidates of cell p. -/
def causalSet (Ax Ay wm1 hm1 : ℤ) (p : ℤ × ℤ) : Finset (ℤ × ℤ) :=
  ((winF Ax Ay wm1 hm1 p).erase p).filter (fun q => before p q)

theorem mem_halfSet {Ax Ay wm1 hm1 : ℤ} {r c q : ℤ × ℤ} :
    q ∈ halfSet Ax Ay wm1 hm1 r c ↔
      q ∈ (winF Ax Ay wm1 hm1 r).erase r ∧ before q c := Finset.mem_filter

theorem mem_causalSet {Ax Ay wm1 hm1 : ℤ} {p q : ℤ × ℤ} :
    q ∈ causalSet Ax Ay wm1 hm1 p ↔
      q ∈ (winF Ax Ay wm1 hm1 p).erase p ∧ before p q := Finset.mem_filter

theorem wozCands_toFinset {Ax Ay wm1 hm1 x y : ℤ} (hAx : 0 ≤ Ax) (hAy : 0 ≤ Ay)
    (hx0 : 0 ≤ x) (hx1 : x ≤ wm1) (hy0 : 0 ≤ y) (hy1 : y ≤ hm1) :
    (wozCands Ax Ay wm1 hm1 x y).toFinset = causalSet Ax Ay wm1 hm1 (x, y) := by
  apply Finset.ext
  intro q
  rw [List.mem_toFinset, mem_wozCands hAx hAy hx0 hx1 hy0 hy1, mem_causalSet]

theorem erase_eq_half_union_causal (Ax Ay wm1 hm1 : ℤ) (p : ℤ × ℤ) :
    (winF Ax Ay wm1 hm1 p).erase p
      = halfSet Ax Ay wm1 hm1 p p ∪ causalSet Ax Ay wm1 hm1 p := by
  apply Finset.ext
  intro q
  rw [Finset.mem_union, mem_halfSet, mem_causalSet]
  constructor
  · intro hq
    have hne : q ≠ p := (Finset.mem_erase.mp hq).1
    rcases before_trichotomy q p with h | h | h
    · exact Or.inl ⟨hq, h⟩
    · exact absurd h hne
    · exact Or.inr ⟨hq, h⟩
  · rintro (⟨hq, _⟩ | ⟨hq, _⟩) <;> exact hq

theorem half_causal_disjoint (Ax Ay wm1 hm1 : ℤ) (p : ℤ × ℤ) :
    Disjoint (halfSet Ax Ay wm1 hm1 p p) (causalSet Ax Ay wm1 hm1 p) := by
  rw [Finset.disjoint_left]
  intro q hq1 hq2
  exact before_asymm (mem_halfSet.mp hq1).2 (mem_causalSet.mp hq2).2

/-- Advancing the cut past pixel (x, y): a cell is strictly before the new cut
exactly when it is before the old cut or is the pixel just processed. -/
theorem before_cutSucc (r : ℤ × ℤ) (x y : ℤ) :
    before r (x + 1, y) ↔ before r (x, y) ∨ r = (x, y) := by
  obtain ⟨a, b⟩ := r
  unfold before
  dsimp only
  rw [Prod.mk.injEq]
  omega

/-- A row boundary: the cut (wm1+1, y) and the cut (0, y+1) classify every
in-frame cell identically. -/
theorem before_cutRow {wm1 hm1 : ℤ} {r : ℤ × ℤ} (hr : r ∈ dom wm1 hm1) (y : ℤ) :
    before r (wm1 + 1, y) ↔ before r (0, y + 1) := by
  rw [mem_dom] at hr
  obtain ⟨a, b⟩ := r
  unfold before
  dsimp only at hr ⊢
  omega

/-- The sweep invariant: cells strictly before the cut carry their final
output; cells at or after the cut carry exactly the contributions of the
already-visited unordered pairs that involve them. -/
def wozInv (cfg : Cfg) (f : Pic) (wm1 hm1 : ℤ) (c : ℤ × ℤ) (st : SD × Pic) : Prop :=
  (∀ r ∈ dom wm1 hm1, before r c → st.2 r = refOut cfg f wm1 hm1 r) ∧
  (∀ r ∈ dom wm1 hm1, ¬ before r c →
    st.1.weights r = ∑ q ∈ halfSet cfg.Ax cfg.Ay wm1 hm1 r c, wP cfg f wm1 hm1 r q ∧
    st.1.sums r
      = ∑ q ∈ halfSet cfg.Ax cfg.Ay wm1 hm1 r c, (f q : ℝ) * wP cfg f wm1 hm1 r q ∧
    st.1.wmaxs r = (halfSet cfg.Ax cfg.Ay wm1 hm1 r c).fold max 0 (wP cfg f wm1 hm1 r))

theorem wozInv_cut_congr (cfg : Cfg) (f : Pic) (wm1 hm1 : ℤ) (c c' : ℤ × ℤ)
    (st : SD × Pic) (hcc : ∀ q ∈ dom wm1 hm1, before q c ↔ before q c')
    (h : wozInv cfg f wm1 hm1 c st) : wozInv cfg f wm1 hm1 c' st := by
  have hhalf : ∀ r, halfSet cfg.Ax cfg.Ay wm1 hm1 r c = halfSet cfg.Ax cfg.Ay wm1 hm1 r c' := by
    intro r
    unfold halfSet
    apply Finset.filter_congr
    intro q hq
    exact hcc q (winF_subset_dom (Finset.mem_of_mem_erase hq))
  constructor
  · intro r hr hb
    exact h.1 r hr ((hcc r hr).mpr hb)
  · intro r hr hb
    rw [← hhalf r]
    exact h.2 r hr (fun hb2 => hb ((hcc r hr).mp hb2))

theorem wozInv_init (cfg : Cfg) (f : Pic) (wm1 hm1 : ℤ) :
    wozInv cfg f wm1 hm1 (0, 0) (SD.zero, fun _ => 0) := by
  constructor
  · intro r hr hb
    rw [mem_dom] at hr
    unfold before at hb
    dsimp only at hb
    omega
  · intro r hr _
    have hempty : halfSet cfg.Ax cfg.Ay wm1 hm1 r (0, 0) = ∅ := by
      apply Finset.eq_empty_of_forall_not_mem
      intro q hq
      have hqd := winF_subset_dom (Finset.mem_of_mem_erase (mem_halfSet.mp hq).1)
      have hb := (mem_halfSet.mp hq).2
      rw [mem_dom] at hqd
      unfold before at hb
      dsimp only at hb
      omega
    rw [hempty]
    simp [SD.zero]

/-- One pixel of the sweep preserves the invariant, advancing the cut. -/
theorem woz_pixel_step (cfg : Cfg) (f : Pic) (wm1 hm1 : ℤ)
    (hAx : 0 ≤ cfg.Ax) (hAy : 0 ≤ cfg.Ay)
    (x y : ℤ) (hx0 : 0 ≤ x) (hx1 : x ≤ wm1) (hy0 : 0 ≤ y) (hy1 : y ≤ hm1)
    (st : SD × Pic) (hInv : wozInv cfg f wm1 hm1 (x, y) st) :
    wozInv cfg f wm1 hm1 (x + 1, y) (wozPixel cfg f wm1 hm1 st (x, y)) := by
  have hpdom : (x, y) ∈ dom wm1 hm1 := by
    rw [mem_dom]
    exact ⟨hx0, hx1, hy0, hy1⟩
  obtain ⟨hw0, hs0, hm0⟩ := hInv.2 (x, y) hpdom (before_irrefl (x, y))
  have hnodup := wozCands_nodup cfg.Ax cfg.Ay wm1 hm1 x y
  have hself := self_not_mem_wozCands hAx hAy hx0 hx1 hy0 hy1
  obtain ⟨d1, d2, d3, d4, d5⟩ :=
    woz_scan_den cfg f wm1 hm1 (x, y) (wozCands cfg.Ax cfg.Ay wm1 hm1 x y) hself hnodup st.1
  have htf := @wozCands_toFinset cfg.Ax cfg.Ay wm1 hm1 x y hAx hAy hx0 hx1 hy0 hy1
  have hLiff : ∀ q : ℤ × ℤ, q ∈ wozCands cfg.Ax cfg.Ay wm1 hm1 x y ↔
      q ∈ causalSet cfg.Ax cfg.Ay wm1 hm1 (x, y) := by
    intro q
    rw [mem_wozCands hAx hAy hx0 hx1 hy0 hy1, mem_causalSet]
  have hwnn : ∀ v ∈ (wozCands cfg.Ax cfg.Ay wm1 hm1 x y).map (wP cfg f wm1 hm1 (x, y)),
      (0 : ℝ) ≤ v := by
    intro v hv
    rw [List.mem_map] at hv
    obtain ⟨q, _, rfl⟩ := hv
    exact (wP_pos ..).le
  -- the center cell holds the brute-force reference totals after the scan
  have hcw : ((wozCands cfg.Ax cfg.Ay wm1 hm1 x y).foldl
      (wozScanStep cfg f wm1 hm1 (x, y)) st.1).weights (x, y)
      = refWeight cfg f wm1 hm1 (x, y) := by
    rw [d1, hw0, refWeight, erase_eq_half_union_causal,
      Finset.sum_union (half_causal_disjoint cfg.Ax cfg.Ay wm1 hm1 (x, y)), ← htf,
      List.sum_toFinset _ hnodup]
  have hcs : ((wozCands cfg.Ax cfg.Ay wm1 hm1 x y).foldl
      (wozScanStep cfg f wm1 hm1 (x, y)) st.1).sums (x, y)
      = refSum cfg f wm1 hm1 (x, y) := by
    rw [d2, hs0, refSum, erase_eq_half_union_causal,
      Finset.sum_union (half_causal_disjoint cfg.Ax cfg.Ay wm1 hm1 (x, y)), ← htf,
      List.sum_toFinset _ hnodup]
  have hcm : ((wozCands cfg.Ax cfg.Ay wm1 hm1 x y).foldl
      (wozScanStep cfg f wm1 hm1 (x, y)) st.1).wmaxs (x, y)
      = refWmax cfg f wm1 hm1 (x, y) := by
    rw [d3, hm0, foldl_max_shift _ _ (foldmax_nonneg _ _) hwnn,
      list_foldmax_toFinset _ hnodup _ (fun q _ => (wP_pos ..).le), htf,
      refWmax, erase_eq_half_union_causal,
      foldmax_union_disjoint _ _ _ (half_causal_disjoint cfg.Ax cfg.Ay wm1 hm1 (x, y))]
  -- the output written at (x, y) is the reference output
  have hout_p : (wozPixel cfg f wm1 hm1 st (x, y)).2 (x, y) = refOut cfg f wm1 hm1 (x, y) := by
    simp only [wozPixel, wozFinish]
    rw [updO_same, upd_same, upd_same, hcw, hcs, hcm, refOut]
  -- component facts for cells other than (x, y)
  have hother : ∀ r : ℤ × ℤ, r ≠ (x, y) →
      (wozPixel cfg f wm1 hm1 st (x, y)).1.weights r
        = ((wozCands cfg.Ax cfg.Ay wm1 hm1 x y).foldl
            (wozScanStep cfg f wm1 hm1 (x, y)) st.1).weights r ∧
      (wozPixel cfg f wm1 hm1 st (x, y)).1.sums r
        = ((wozCands cfg.Ax cfg.Ay wm1 hm1 x y).foldl
            (wozScanStep cfg f wm1 hm1 (x, y)) st.1).sums r ∧
      (wozPixel cfg f wm1 hm1 st (x, y)).1.wmaxs r
        = ((wozCands cfg.Ax cfg.Ay wm1 hm1 x y).foldl
            (wozScanStep cfg f wm1 hm1 (x, y)) st.1).wmaxs r ∧
      (wozPixel cfg f wm1 hm1 st (x, y)).2 r = st.2 r := by
    intro r hrp
    simp only [wozPixel, wozFinish]
    exact ⟨upd_other _ _ _ _ hrp, upd_other _ _ _ _ hrp, by trivial, updO_other _ _ _ _ hrp⟩
  constructor
  · -- processed cells carry the reference output
    intro r hr hb
    rcases (before_cutSucc r x y).mp hb with hb' | rfl
    · have hrp : r ≠ (x, y) := by
        intro h
        subst h
        exact before_irrefl _ hb'
      rw [(hother r hrp).2.2.2]
      exact hInv.1 r hr hb'
    · exact hout_p
  · -- cells at or after the new cut
    intro r hr hb
    have hb1 : ¬ before r (x, y) := fun h => hb ((before_cutSucc r x y).mpr (Or.inl h))
    have hrp : r ≠ (x, y) := fun h => hb ((before_cutSucc r x y).mpr (Or.inr h))
    have hbpr : before (x, y) r := by
      rcases before_trichotomy (x, y) r with h | h | h
      · exact h
      · exact absurd h.symm hrp
      · exact absurd h hb1
    obtain ⟨hw1, hs1, hm1r, _⟩ := hother r hrp
    obtain ⟨hiw, his, him⟩ := hInv.2 r hr hb1
    by_cases hrc : r ∈ causalSet cfg.Ax cfg.Ay wm1 hm1 (x, y)
    · -- r received this pixel's contribution
      have hrL : r ∈ wozCands cfg.Ax cfg.Ay wm1 hm1 x y := (hLiff r).mpr hrc
      obtain ⟨e1, e2, e3⟩ := d5 r hrp hrL
      have hpwin : (x, y) ∈ (winF cfg.Ax cfg.Ay wm1 hm1 r).erase r := by
        rw [Finset.mem_erase]
        refine ⟨Ne.symm hrp, ?_⟩
        rw [@mem_winF_comm cfg.Ax cfg.Ay wm1 hm1 r (x, y) hr hpdom]
        exact Finset.mem_of_mem_erase (mem_causalSet.mp hrc).1
      have hpnothalf : (x, y) ∉ halfSet cfg.Ax cfg.Ay wm1 hm1 r (x, y) := by
        intro h
        exact before_irrefl (x, y) (mem_halfSet.mp h).2
      have hins : halfSet cfg.Ax cfg.Ay wm1 hm1 r (x + 1, y)
          = insert (x, y) (halfSet cfg.Ax cfg.Ay wm1 hm1 r (x, y)) := by
        apply Finset.ext
        intro q
        rw [Finset.mem_insert, mem_halfSet, mem_halfSet, before_cutSucc]
        constructor
        · rintro ⟨hq1, hq2 | hq3⟩
          · exact Or.inr ⟨hq1, hq2⟩
          · exact Or.inl hq3
        · rintro (rfl | ⟨hq1, hq2⟩)
          · exact ⟨hpwin, Or.inr rfl⟩
          · exact ⟨hq1, Or.inl hq2⟩
      refine ⟨?_, ?_, ?_⟩
      · rw [hw1, e1, hiw, hins, Finset.sum_insert hpnothalf,
          wP_symm cfg f wm1 hm1 (x, y) r]
        ring
      · rw [hs1, e2, his, hins, Finset.sum_insert hpnothalf,
          wP_symm cfg f wm1 hm1 (x, y) r]
        ring
      · rw [hm1r, e3, him, hins, Finset.fold_insert hpnothalf,
          wP_symm cfg f wm1 hm1 (x, y) r, max_comm]
    · -- r is outside this pixel's window: nothing changed
      have hrL : r ∉ wozCands cfg.Ax cfg.Ay wm1 hm1 x y := fun h => hrc ((hLiff r).mp h)
      obtain ⟨e1, e2, e3⟩ := d4 r hrp hrL
      have hpnotwin : (x, y) ∉ (winF cfg.Ax cfg.Ay wm1 hm1 r).erase r := by
        intro h
        apply hrc
        rw [mem_causalSet]
        refine ⟨?_, hbpr⟩
        rw [Finset.mem_erase]
        refine ⟨hrp, ?_⟩
        rw [@mem_winF_comm cfg.Ax cfg.Ay wm1 hm1 (x, y) r hpdom hr]
        exact Finset.mem_of_mem_erase h
      have hsame : halfSet cfg.Ax cfg.Ay wm1 hm1 r (x + 1, y)
          = halfSet cfg.Ax cfg.Ay wm1 hm1 r (x, y) := by
        apply Finset.ext
        intro q
        rw [mem_halfSet, mem_halfSet, before_cutSucc]
        constructor
        · rintro ⟨hq1, hq2 | rfl⟩
          · exact ⟨hq1, hq2⟩
          · exact absurd hq1 hpnotwin
        · rintro ⟨hq1, hq2⟩
          exact ⟨hq1, Or.inl hq2⟩
      rw [hsame, hw1, e1, hs1, e2, hm1r, e3]
      exact ⟨hiw, his, him⟩

theorem foldl_flatMap {α β σ : Type*} (l : List α) (g : α → List β) (f : σ → β → σ) :
    ∀ s, (l.flatMap g).foldl f s = l.foldl (fun s a => (g a).foldl f s) s := by
  induction l with
  | nil => intro s; rfl
  | cons a t ih =>
    intro s
    rw [List.flatMap_cons, List.foldl_append, List.foldl_cons, ih]

/-- Master equivalence: the spatial-pixel pass computes the brute-force
per-pixel reference at every in-frame pixel. -/
theorem woz_eq_ref (cfg : Cfg) (f : Pic) (width height : ℤ)
    (hW : 0 < width) (hH : 0 < height) (hAx : 0 ≤ cfg.Ax) (hAy : 0 ≤ cfg.Ay) :
    ∀ p ∈ dom (width - 1) (height - 1),
      GetFrameWOZ cfg f width height p = refOut cfg f (width - 1) (height - 1) p := by
  have hfin : wozInv cfg f (width - 1) (height - 1) (0, (height - 1) + 1)
      ((pixelsRM (width - 1) (height - 1)).foldl (wozPixel cfg f (width - 1) (height - 1))
        (SD.zero, fun _ => 0)) := by
    unfold pixelsRM
    rw [foldl_flatMap]
    refine intRange_foldl_inv _
      (fun yv st => wozInv cfg f (width - 1) (height - 1) (0, yv) st) 0 (height - 1)
      (by omega) ?_ _ (wozInv_init cfg f _ _)
    intro yv st hy0 hy1 hInv
    rw [List.foldl_map]
    refine wozInv_cut_congr cfg f (width - 1) (height - 1) ((width - 1) + 1, yv) (0, yv + 1) _
      (fun q hq => before_cutRow hq yv) ?_
    refine intRange_foldl_inv _
      (fun xv st => wozInv cfg f (width - 1) (height - 1) (xv, yv) st) 0 (width - 1)
      (by omega) ?_ st hInv
    intro i s hi0 hi1 h
    exact woz_pixel_step cfg f (width - 1) (height - 1) hAx hAy i yv hi0 hi1 hy0 hy1 s h
  intro p hp
  have hb : before p (0, (height - 1) + 1) := by
    rw [mem_dom] at hp
    unfold before
    left
    omega
  exact hfin.1 p hp hb

/-! ### Claim C2: spatial-pixel output equals the brute-force reference -/

/-- C2: for every frame and configuration (spatial-pixel mode), the output of
`GetFrameWOZ` is identical to the brute-force reference in which every
unordered pair {p, q} with q in p's clipped (Ax, Ay) window is scored once
(the code enumerates the causal half u ≥ y, v > x on the center row, and adds
each weight symmetrically to both accumulators), and each output pixel is
`round(sum/weight)` clamped to [0, 255] after the `selfW` self term. -/
theorem spatial_pixel_matches_bruteforce (cfg : Cfg) (f : Pic) (width height : ℤ)
    (hW : 0 < width) (hH : 0 < height) (hAx : 0 ≤ cfg.Ax) (hAy : 0 ≤ cfg.Ay) :
    ∀ p ∈ dom (width - 1) (height - 1),
      GetFrameWOZ cfg f width height p = refOut cfg f (width - 1) (height - 1) p :=
  woz_eq_ref cfg f width height hW hH hAx hAy

def cfgW : Cfg := ⟨1, 1, 0, 1, 1, 0, 0, 1, 1, false⟩

def fW : Pic := fun q => if q = (1, 0) then 9 else 3

theorem spatial_pixel_matches_bruteforce_witness :
    (0 : ℤ) < 2 ∧ GetFrameWOZ cfgW fW 2 1 (0, 0) = refOut cfgW fW 1 0 (0, 0) := by
  refine ⟨by norm_num, ?_⟩
  have h := spatial_pixel_matches_bruteforce cfgW fW 2 1 (by norm_num) (by norm_num)
    (by norm_num [cfgW]) (by norm_num [cfgW]) (0, 0) (by decide)
  simpa using h

/-! ### Claim C4: constant frames are fixed points of the spatial-pixel pass -/

theorem clamp255_intCast (c : ℤ) (h0 : 0 ≤ c) (h1 : c ≤ 255) : clamp255 (c : ℝ) = c := by
  have hfl : ⌊(1 : ℝ) / 2⌋ = 0 := by
    rw [Int.floor_eq_zero_iff]
    constructor <;> norm_num
  have hge : (0 : ℝ) ≤ (c : ℝ) + 1 / 2 := by
    have : (0 : ℝ) ≤ (c : ℝ) := by exact_mod_cast h0
    linarith
  have hct : ctrunc ((c : ℝ) + 1 / 2) = c := by
    unfold ctrunc
    rw [if_neg (not_lt.mpr hge), Int.floor_int_add, hfl, add_zero]
  unfold clamp255
  rw [hct]
  omega

theorem fold_const_one_le (S : Finset (ℤ × ℤ)) :
    S.fold max 0 (fun _ => (1 : ℝ)) ≤ 1 := by
  induction S using Finset.induction_on with
  | empty => simp
  | insert ha ih =>
    rw [Finset.fold_insert ha]
    exact max_le le_rfl ih

theorem fold_const_one_of_nonempty {S : Finset (ℤ × ℤ)} (h : S.Nonempty) :
    S.fold max 0 (fun _ => (1 : ℝ)) = 1 := by
  induction S using Finset.induction_on with
  | empty => exact absurd h Finset.not_nonempty_empty
  | @insert a S ha ih =>
    rw [Finset.fold_insert ha]
    exact max_eq_left (fold_const_one_le S)

theorem dblEps_lt_one : dblEps < 1 := by
  unfold dblEps
  norm_num

/-- On a constant frame every pair weight is exactly 1 (diff accumulates to
zero, and `exp 0 = 1` regardless of the kernel normalization). -/
theorem wP_const (cfg : Cfg) (c : ℤ) (wm1 hm1 : ℤ) (p q : ℤ × ℤ) :
    wP cfg (fun _ => c) wm1 hm1 p q = 1 := by
  unfold wP pairWeight
  have hdiff : patchDiff cfg (fun _ => c) (fun _ => c) wm1 hm1 p.1 p.2 q.2 q.1 = 0 := by
    unfold patchDiff diffTerm
    rcases cfg.ssd with _ | _ <;> simp
  rw [hdiff]
  unfold weightFromDiff
  rw [mul_zero, zero_div, Real.exp_zero]

/-- C4: spatial-pixel mode is the identity on constant frames: with Az = 0
and Bx = By = 0, for every 8-bit constant c and every admissible
configuration of Ax, Ay, Sx, Sy, a, h, each output pixel equals c exactly. -/
theorem constant_frame_identity (cfg : Cfg) (c width height : ℤ)
    (hc0 : 0 ≤ c) (hc1 : c ≤ 255)
    (hW : 0 < width) (hH : 0 < height) (hAx : 0 ≤ cfg.Ax) (hAy : 0 ≤ cfg.Ay)
    (hSx : 0 ≤ cfg.Sx) (hSy : 0 ≤ cfg.Sy) (ha : 0 < cfg.a) (hh : 0 < cfg.h)
    (hAz : cfg.Az = 0) (hBx : cfg.Bx = 0) (hBy : cfg.By = 0) :
    ∀ p ∈ dom (width - 1) (height - 1),
      GetFrameWOZ cfg (fun _ => c) width height p = c := by
  intro p hp
  rw [woz_eq_ref cfg (fun _ => c) width height hW hH hAx hAy p hp]
  set S := (winF cfg.Ax cfg.Ay (width - 1) (height - 1) p).erase p with hS
  have hrw : refWeight cfg (fun _ => c) (width - 1) (height - 1) p = (S.card : ℝ) := by
    unfold refWeight
    rw [← hS]
    rw [Finset.sum_congr rfl (fun q _ => wP_const cfg c (width - 1) (height - 1) p q)]
    simp
  have hrs : refSum cfg (fun _ => c) (width - 1) (height - 1) p = (c : ℝ) * (S.card : ℝ) := by
    unfold refSum
    rw [← hS]
    rw [Finset.sum_congr rfl
      (fun q _ => by rw [wP_const cfg c (width - 1) (height - 1) p q, mul_one])]
    rw [Finset.sum_const]
    ring
  have hmax : refWmax cfg (fun _ => c) (width - 1) (height - 1) p
      = S.fold max 0 (fun _ => (1 : ℝ)) := by
    unfold refWmax
    rw [← hS]
    exact foldmax_congr S _ _ (fun q _ => wP_const cfg c (width - 1) (height - 1) p q)
  have hself : selfW (refWmax cfg (fun _ => c) (width - 1) (height - 1) p) = 1 := by
    rcases Finset.eq_empty_or_nonempty S with he | hne
    · rw [selfW, hmax, he]
      rw [if_pos (by simp only [Finset.fold_empty]; unfold dblEps; positivity)]
    · rw [selfW, hmax, fold_const_one_of_nonempty hne,
        if_neg (not_le.mpr dblEps_lt_one)]
  unfold refOut
  rw [hrs, hrw, hself, mul_one]
  have hpos : (0 : ℝ) < (S.card : ℝ) + 1 := by positivity
  have : ((c : ℝ) * (S.card : ℝ) + (c : ℝ)) / ((S.card : ℝ) + 1) = (c : ℝ) := by
    field_simp
    ring
  rw [this]
  exact clamp255_intCast c hc0 hc1

theorem constant_frame_identity_witness :
    (0 : ℤ) ≤ 7 ∧ GetFrameWOZ cfgW (fun _ => 7) 2 1 (0, 0) = 7 := by
  refine ⟨by norm_num, ?_⟩
  have h := constant_frame_identity cfgW 7 2 1 (by norm_num) (by norm_num) (by norm_num)
    (by norm_num) (by norm_num [cfgW]) (by norm_num [cfgW]) (by norm_num [cfgW])
    (by norm_num [cfgW]) (by norm_num [cfgW]) (by norm_num [cfgW]) (by norm_num [cfgW])
    (by norm_num [cfgW]) (by norm_num [cfgW]) (0, 0) (by decide)
  simpa using h

/-! ### Claim C5: the self-weight fallback -/

/-- With zero search radii the clipped window contains only the pixel itself. -/
theorem erase_empty_of_zero_radius {wm1 hm1 : ℤ} {p : ℤ × ℤ} (hp : p ∈ dom wm1 hm1) :
    (winF 0 0 wm1 hm1 p).erase p = ∅ := by
  apply Finset.eq_empty_of_forall_not_mem
  intro q hq
  rw [mem_dom] at hp
  have hne := (Finset.mem_erase.mp hq).1
  have hin := (Finset.mem_erase.mp hq).2
  rw [mem_winF] at hin
  exact hne (Prod.ext (by omega) (by omega))

/-- C5 amended: the self weight used for p is `selfW maxWeight[p]`: 1.0 when
`maxWeight[p] ≤ DBL_EPSILON` — in particular when no candidate exists (e.g.
Ax = Ay = 0), where the output equals the input exactly — and `maxWeight[p]`
only when `maxWeight[p] > DBL_EPSILON` (so a candidate pair whose weight is
positive but at most 2⁻⁵² still falls back to self weight 1.0). -/
theorem selfweight_fallback (cfg : Cfg) (f : Pic) (width height : ℤ)
    (hW : 0 < width) (hH : 0 < height) (hAx : 0 ≤ cfg.Ax) (hAy : 0 ≤ cfg.Ay) :
    ∀ p ∈ dom (width - 1) (height - 1),
      (GetFrameWOZ cfg f width height p
        = clamp255 ((refSum cfg f (width - 1) (height - 1) p
            + (f p : ℝ) * selfW (refWmax cfg f (width - 1) (height - 1) p))
          / (refWeight cfg f (width - 1) (height - 1) p
            + selfW (refWmax cfg f (width - 1) (height - 1) p)))) ∧
      (dblEps < refWmax cfg f (width - 1) (height - 1) p →
        selfW (refWmax cfg f (width - 1) (height - 1) p)
          = refWmax cfg f (width - 1) (height - 1) p) ∧
      (refWmax cfg f (width - 1) (height - 1) p ≤ dblEps →
        selfW (refWmax cfg f (width - 1) (height - 1) p) = 1) ∧
      (cfg.Ax = 0 → cfg.Ay = 0 → 0 ≤ f p → f p ≤ 255 →
        GetFrameWOZ cfg f width height p = f p) := by
  intro p hp
  have hmain := woz_eq_ref cfg f width height hW hH hAx hAy p hp
  refine ⟨?_, ?_, ?_, ?_⟩
  · rw [hmain]
    rfl
  · intro hgt
    rw [selfW, if_neg (not_le.mpr hgt)]
  · intro hle
    rw [selfW, if_pos hle]
  · intro hAx0 hAy0 hf0 hf1
    rw [hmain]
    have hempty : (winF cfg.Ax cfg.Ay (width - 1) (height - 1) p).erase p = ∅ := by
      rw [hAx0, hAy0]
      exact erase_empty_of_zero_radius hp
    unfold refOut refSum refWeight refWmax
    rw [hempty]
    simp only [Finset.sum_empty, Finset.fold_empty]
    rw [selfW, if_pos (by unfold dblEps; positivity)]
    rw [zero_add, zero_add, mul_one, div_one]
    exact clamp255_intCast (f p) hf0 hf1

/-- Configuration for the fallback counterexample: Ax = 1, Ay = 0,
Sx = Sy = 0, a = 1, h = 1, SAD metric. -/
def cfgC5 : Cfg := ⟨1, 0, 0, 0, 0, 0, 0, 1, 1, false⟩

/-- 2×1 frame [0, 255]. -/
def fC5 : Pic := fun q => if q = (1, 0) then 255 else 0

theorem wP_C5 : wP cfgC5 fC5 1 0 (0, 0) (1, 0) = Real.exp (-255) := by
  unfold wP pairWeight patchDiff patchGW weightFromDiff
  norm_num [cfgC5, fC5, yTc, yBc, xLc, xRc, gwVal, clampOffB, diffTerm, hin,
    Finset.Icc_self, Finset.sum_singleton, Real.exp_zero]

theorem exp_neg_255_le_eps : Real.exp (-255) ≤ dblEps := by
  have h2 : (2 : ℝ) ≤ Real.exp 1 :=
    le_of_lt (lt_trans (by norm_num) Real.exp_one_gt_d9)
  have hpow : (2 : ℝ) ^ 52 ≤ Real.exp 255 := by
    have he : Real.exp 255 = Real.exp 1 ^ 255 := by
      rw [← Real.exp_nat_mul]
      norm_num
    have h1 : (2 : ℝ) ^ 52 ≤ (2 : ℝ) ^ 255 :=
      pow_le_pow_right (by norm_num) (by norm_num)
    have h2' : (2 : ℝ) ^ 255 ≤ Real.exp 1 ^ 255 :=
      pow_le_pow_left (by norm_num) h2 255
    rw [he]
    linarith
  have hepos : (0 : ℝ) < (2 : ℝ) ^ 52 := by positivity
  rw [Real.exp_neg]
  unfold dblEps
  rw [one_div]
  exact inv_le_inv_of_le hepos hpow

theorem winF_C5 : (winF cfgC5.Ax cfgC5.Ay 1 0 ((0 : ℤ), (0 : ℤ))).erase (0, 0)
    = {((1 : ℤ), (0 : ℤ))} := by
  simp only [cfgC5]
  decide

theorem refWmax_C5 : refWmax cfgC5 fC5 1 0 (0, 0) = Real.exp (-255) := by
  unfold refWmax
  rw [winF_C5, Finset.fold_singleton, wP_C5]
  exact max_eq_left (Real.exp_pos _).le

theorem refWeight_C5 : refWeight cfgC5 fC5 1 0 (0, 0) = Real.exp (-255) := by
  unfold refWeight
  rw [winF_C5, Finset.sum_singleton, wP_C5]

theorem refSum_C5 : refSum cfgC5 fC5 1 0 (0, 0) = 255 * Real.exp (-255) := by
  unfold refSum
  rw [winF_C5, Finset.sum_singleton, wP_C5]
  norm_num [fC5]

/-- C5 counterexample: in this concrete spatial-pixel instance a candidate
pair produced a strictly positive weight (maxWeight = e⁻²⁵⁵ > 0), yet the
code's output is 0 because the self weight used is 1.0 (since
maxWeight ≤ DBL_EPSILON), while the claim's rule "otherwise the self term
added is maxWeight[p]" would produce 128; the self weight actually used
differs from maxWeight. -/
theorem selfweight_fallback_counterexample :
    0 < refWmax cfgC5 fC5 1 0 (0, 0) ∧
    GetFrameWOZ cfgC5 fC5 2 1 (0, 0) = 0 ∧
    clamp255 ((refSum cfgC5 fC5 1 0 (0, 0)
        + (fC5 (0, 0) : ℝ) * refWmax cfgC5 fC5 1 0 (0, 0))
      / (refWeight cfgC5 fC5 1 0 (0, 0) + refWmax cfgC5 fC5 1 0 (0, 0))) = 128 ∧
    selfW (refWmax cfgC5 fC5 1 0 (0, 0)) ≠ refWmax cfgC5 fC5 1 0 (0, 0) := by
  have hepos : (0 : ℝ) < Real.exp (-255) := Real.exp_pos _
  have hf0 : (fC5 (0, 0) : ℝ) = 0 := by
    unfold fC5
    rw [if_neg (by decide : ¬((0 : ℤ), (0 : ℤ)) = ((1 : ℤ), (0 : ℤ)))]
    norm_num
  have hselfW : selfW (refWmax cfgC5 fC5 1 0 (0, 0)) = 1 := by
    rw [refWmax_C5, selfW, if_pos exp_neg_255_le_eps]
  refine ⟨by rw [refWmax_C5]; exact hepos, ?_, ?_, ?_⟩
  · rw [woz_eq_ref cfgC5 fC5 2 1 (by norm_num) (by norm_num)
      (by norm_num [cfgC5]) (by norm_num [cfgC5]) (0, 0) (by decide)]
    show clamp255 ((refSum cfgC5 fC5 1 0 (0, 0)
        + (fC5 (0, 0) : ℝ) * selfW (refWmax cfgC5 fC5 1 0 (0, 0)))
      / (refWeight cfgC5 fC5 1 0 (0, 0) + selfW (refWmax cfgC5 fC5 1 0 (0, 0)))) = 0
    rw [hselfW, refSum_C5, refWeight_C5, hf0, zero_mul, add_zero]
    have hq0 : (0 : ℝ) ≤ 255 * Real.exp (-255) / (Real.exp (-255) + 1) := by positivity
    have hq1 : 255 * Real.exp (-255) / (Real.exp (-255) + 1) < 1 / 2 := by
      have hd : (1 : ℝ) ≤ Real.exp (-255) + 1 := by linarith
      have h1 : 255 * Real.exp (-255) / (Real.exp (-255) + 1) ≤ 255 * Real.exp (-255) :=
        div_le_self (by positivity) hd
      have h2 : 255 * Real.exp (-255) ≤ 255 * dblEps :=
        mul_le_mul_of_nonneg_left exp_neg_255_le_eps (by norm_num)
      have h3 : (255 : ℝ) * dblEps < 1 / 2 := by
        unfold dblEps
        norm_num
      linarith
    unfold clamp255 ctrunc
    rw [if_neg (by linarith)]
    have hfl : ⌊255 * Real.exp (-255) / (Real.exp (-255) + 1) + 1 / 2⌋ = 0 := by
      rw [Int.floor_eq_zero_iff, Set.mem_Ico]
      constructor
      · linarith
      · linarith
    rw [hfl]
    norm_num
  · rw [refSum_C5, refWeight_C5, refWmax_C5, hf0, zero_mul, add_zero]
    have he : Real.exp (-255) ≠ 0 := ne_of_gt hepos
    have hq : 255 * Real.exp (-255) / (Real.exp (-255) + Real.exp (-255)) = 255 / 2 := by
      field_simp
      ring
    rw [hq]
    unfold clamp255 ctrunc
    rw [if_neg (by norm_num)]
    have : (255 : ℝ) / 2 + 1 / 2 = ((128 : ℤ) : ℝ) := by norm_num
    rw [this, Int.floor_intCast]
    norm_num
  · rw [hselfW, refWmax_C5]
    intro h
    have : Real.exp (-255) < 1 := by
      have := exp_neg_255_le_eps
      have := dblEps_lt_one
      linarith
    linarith

def cfgZ : Cfg := ⟨0, 0, 0, 0, 0, 0, 0, 1, 1, false⟩

theorem selfweight_fallback_witness :
    (0 : ℤ) < 2 ∧ GetFrameWOZ cfgZ (fun _ => 3) 2 1 (0, 0) = 3 := by
  refine ⟨by norm_num, ?_⟩
  exact (selfweight_fallback cfgZ (fun _ => 3) 2 1 (by norm_num) (by norm_num)
    (by norm_num [cfgZ]) (by norm_num [cfgZ]) (0, 0) (by decide)).2.2.2
    (by norm_num [cfgZ]) (by norm_num [cfgZ]) (by norm_num) (by norm_num)

/-! ### The spatial-block pass `GetFrameWOZB` (lines 610-728) -/

/-- Number of iterations of `for (c = B; c < len + B; c += 2B+1)`. -/
def numTiles (B len : ℤ) : ℕ := ((len + 2 * B) / (2 * B + 1)).toNat

/-- Tile-origin list of the block loops `for (y = By; y < height + By; y += Byd)`. -/
def tileList (B len : ℤ) : List ℤ :=
  (List.range (numTiles B len)).map (fun t : ℕ => B + (2 * B + 1) * (t : ℤ))

theorem tileList_zero (len : ℤ) : tileList 0 len = intRange 0 (len - 1) := by
  unfold tileList numTiles intRange
  have : (len + 2 * 0) / (2 * 0 + 1) = len := by omega
  rw [this]
  have : (len - 1 + 1 - 0).toNat = len.toNat := by omega
  rw [this]
  apply List.map_congr_left
  intro t _
  omega

/-- Block scratch pair (`sumsb`, `weightsb`), indexed by the block offset
(k, j) instead of the linear index `(j+By)*Bxd + (k+Bx)`, together with the
running per-tile `wmax`. -/
structure BD where
  sumsb : ℤ × ℤ → ℝ
  weightsb : ℤ × ℤ → ℝ
  wmax : ℝ

def BD.zero : BD := ⟨fun _ => 0, fun _ => 0, 0⟩

/-- Candidate cells of tile (x, y) in the block variant (loops at lines
655-664): `u` in `[max(y-Ay, By), min(y+Ay, hm1 - min(By, hm1-y))]`, `v` in
`[max(x-Ax, Bx), min(x+Ax, wm1 - min(Bx, wm1-x))]`; the self candidate is
skipped inside the body. -/
def wozbCands (Ax Ay Bx By wm1 hm1 x y : ℤ) : List (ℤ × ℤ) :=
  (intRange (max (y - Ay) By) (min (y + Ay) (hm1 - min By (hm1 - y)))).flatMap (fun u =>
    (intRange (max (x - Ax) Bx) (min (x + Ax) (wm1 - min Bx (wm1 - x)))).map
      (fun v => (v, u)))

/-- The smear offsets of one candidate (lines 689-699): `j` in `[-By, yBb]`,
`k` in `[-Bx, xRb]`. -/
def smearOffs (Bx By wm1 hm1 x y v u : ℤ) : List (ℤ × ℤ) :=
  (intRange (-By) (yBbC By hm1 u y)).flatMap (fun j =>
    (intRange (-Bx) (xRbC Bx wm1 v x)).map (fun k => (k, j)))

/-- One candidate of the block scan (lines 664-700): skip the self candidate,
else compute the pair weight, smear `value·w` and `w` over the clipped block
footprint, and update the tile-wide running maximum. -/
noncomputable def wozbCandStep (cfg : Cfg) (f : Pic) (wm1 hm1 x y : ℤ)
    (b : BD) (q : ℤ × ℤ) : BD :=
  if q.2 = y ∧ q.1 = x then b
  else
    let w := pairWeight cfg f f wm1 hm1 x y q.2 q.1
    let sw := (smearOffs cfg.Bx cfg.By wm1 hm1 x y q.1 q.2).foldl
      (fun g o => (upd g.1 o (g.1 o + (f (q.1 + o.1, q.2 + o.2) : ℝ) * w),
        upd g.2 o (g.2 o + w))) (b.sumsb, b.weightsb)
    ⟨sw.1, sw.2, if b.wmax < w then w else b.wmax⟩

/-- One full tile (lines 647-721): zero the scratch, scan candidates, then
normalize and write every pixel of the tile footprint, adding the `selfW`
self term per pixel. -/
noncomputable def wozbTile (cfg : Cfg) (f : Pic) (width height : ℤ)
    (out : Pic) (p : ℤ × ℤ) : Pic :=
  let wm1 := width - 1
  let hm1 := height - 1
  let b := (wozbCands cfg.Ax cfg.Ay cfg.Bx cfg.By wm1 hm1 p.1 p.2).foldl
    (wozbCandStep cfg f wm1 hm1 p.1 p.2) BD.zero
  let wm := selfW b.wmax
  let yTr := min (2 * cfg.By + 1) (height - p.2 + cfg.By)
  let xTr := min (2 * cfg.Bx + 1) (width - p.1 + cfg.Bx)
  ((intRange 0 (yTr - 1)).flatMap (fun j => (intRange 0 (xTr - 1)).map
      (fun k => (k, j)))).foldl
    (fun o kj =>
      let cell := (p.1 - cfg.Bx + kj.1, p.2 - cfg.By + kj.2)
      updO o cell (clamp255
        ((b.sumsb (kj.1 - cfg.Bx, kj.2 - cfg.By) + (f cell : ℝ) * wm) /
          (b.weightsb (kj.1 - cfg.Bx, kj.2 - cfg.By) + wm)))) out

/-- `GetFrameWOZB` on one plane: the tile loops in row-major tile order. -/
noncomputable def GetFrameWOZB (cfg : Cfg) (f : Pic) (width height : ℤ) : Pic :=
  ((tileList cfg.By height).flatMap (fun y => (tileList cfg.Bx width).map
      (fun x => (x, y)))).foldl
    (wozbTile cfg f width height) (fun _ => 0)

/-! ### `GetFrameWOZB` with zero block radii computes the same reference -/

theorem selfCond_iff (q : ℤ × ℤ) (x y : ℤ) : (q.2 = y ∧ q.1 = x) ↔ q = (x, y) := by
  obtain ⟨a, b⟩ := q
  rw [Prod.mk.injEq]
  dsimp only
  tauto

theorem smearOffs_zero {wm1 hm1 x y v u : ℤ} (hy : 0 ≤ y) (hy1 : y ≤ hm1)
    (hu : 0 ≤ u) (hu1 : u ≤ hm1) (hx : 0 ≤ x) (hx1 : x ≤ wm1)
    (hv : 0 ≤ v) (hv1 : v ≤ wm1) :
    smearOffs 0 0 wm1 hm1 x y v u = [((0 : ℤ), (0 : ℤ))] := by
  unfold smearOffs
  have h1 : yBbC 0 hm1 u y = 0 := by unfold yBbC; omega
  have h2 : xRbC 0 wm1 v x = 0 := by unfold xRbC; omega
  rw [h1, h2, show -(0 : ℤ) = 0 by omega]
  rw [intRange_eq_cons (le_refl 0), intRange_eq_nil (by omega)]
  rfl

theorem wozbCandStep_zero (cfg : Cfg) (f : Pic) (wm1 hm1 x y : ℤ)
    (hBx : cfg.Bx = 0) (hBy : cfg.By = 0)
    (hy : 0 ≤ y) (hy1 : y ≤ hm1) (hx : 0 ≤ x) (hx1 : x ≤ wm1)
    (b : BD) (q : ℤ × ℤ) (hq : q ∈ dom wm1 hm1) :
    wozbCandStep cfg f wm1 hm1 x y b q
      = if q = (x, y) then b
        else ⟨upd b.sumsb (0, 0) (b.sumsb (0, 0)
            + (f q : ℝ) * wP cfg f wm1 hm1 (x, y) q),
          upd b.weightsb (0, 0) (b.weightsb (0, 0) + wP cfg f wm1 hm1 (x, y) q),
          max b.wmax (wP cfg f wm1 hm1 (x, y) q)⟩ := by
  rw [mem_dom] at hq
  unfold wozbCandStep
  by_cases hself : q = (x, y)
  · rw [if_pos ((selfCond_iff q x y).mpr hself), if_pos hself]
  · rw [if_neg (fun h => hself ((selfCond_iff q x y).mp h)), if_neg hself]
    rw [hBx, hBy, smearOffs_zero hy hy1 hq.2.2.1 hq.2.2.2 hx hx1 hq.1 hq.2.1]
    simp only [List.foldl_cons, List.foldl_nil]
    rw [maxUpd_eq]
    have hqe : (q.1 + (0 : ℤ), q.2 + (0 : ℤ)) = q := by
      obtain ⟨a, b⟩ := q
      simp
    rw [hqe]
    rfl

theorem mem_wozbCands_zero {Ax Ay wm1 hm1 x y : ℤ} (hAx : 0 ≤ Ax) (hAy : 0 ≤ Ay)
    (hx0 : 0 ≤ x) (hx1 : x ≤ wm1) (hy0 : 0 ≤ y) (hy1 : y ≤ hm1) {q : ℤ × ℤ} :
    q ∈ wozbCands Ax Ay 0 0 wm1 hm1 x y ↔ q ∈ winF Ax Ay wm1 hm1 (x, y) := by
  obtain ⟨qx, qy⟩ := q
  unfold wozbCands
  rw [List.mem_flatMap, mem_winF]
  simp only [List.mem_map, mem_intRange, Prod.mk.injEq]
  constructor
  · rintro ⟨u, hu, v, hv, he1, he2⟩
    subst he1
    subst he2
    omega
  · rintro ⟨h1, h2⟩
    exact ⟨qy, by omega, qx, by omega, rfl, rfl⟩

theorem wozbCands_nodup (Ax Ay Bx By wm1 hm1 x y : ℤ) :
    (wozbCands Ax Ay Bx By wm1 hm1 x y).Nodup := by
  unfold wozbCands
  rw [List.nodup_flatMap]
  constructor
  · intro u _
    refine List.Nodup.map_on ?_ (intRange_nodup _ _)
    intro a _ b _ h
    rw [Prod.mk.injEq] at h
    exact h.1
  · refine List.Pairwise.imp ?_ (List.Pairwise.imp (fun h => h) (intRange_nodup _ _))
    intro u1 u2 hne
    intro a ha1 ha2
    rw [List.mem_map] at ha1 ha2
    obtain ⟨v1, _, rfl⟩ := ha1
    obtain ⟨v2, _, he⟩ := ha2
    rw [Prod.mk.injEq] at he
    exact hne he.2.symm

/-- Denotation of the zero-block-radius candidate scan: the single scratch
cell accumulates exactly the non-self weighted sums, and `wmax` their
running maximum. -/
theorem wozb0_den (cfg : Cfg) (f : Pic) (wm1 hm1 x y : ℤ)
    (hBx : cfg.Bx = 0) (hBy : cfg.By = 0)
    (hy : 0 ≤ y) (hy1 : y ≤ hm1) (hx : 0 ≤ x) (hx1 : x ≤ wm1) :
    ∀ L : List (ℤ × ℤ), (∀ q ∈ L, q ∈ dom wm1 hm1) → ∀ b : BD,
      (L.foldl (wozbCandStep cfg f wm1 hm1 x y) b).sumsb (0, 0)
        = b.sumsb (0, 0) + ((L.filter (fun q => q ≠ (x, y))).map
            (fun q => (f q : ℝ) * wP cfg f wm1 hm1 (x, y) q)).sum ∧
      (L.foldl (wozbCandStep cfg f wm1 hm1 x y) b).weightsb (0, 0)
        = b.weightsb (0, 0) + ((L.filter (fun q => q ≠ (x, y))).map
            (wP cfg f wm1 hm1 (x, y))).sum ∧
      (L.foldl (wozbCandStep cfg f wm1 hm1 x y) b).wmax
        = ((L.filter (fun q => q ≠ (x, y))).map
            (wP cfg f wm1 hm1 (x, y))).foldl max b.wmax := by
  intro L
  induction L with
  | nil =>
    intro _ b
    simp
  | cons q t ih =>
    intro hmem b
    have hq := hmem q (List.mem_cons_self q t)
    have hmt : ∀ z ∈ t, z ∈ dom wm1 hm1 := fun z hz => hmem z (List.mem_cons_of_mem q hz)
    rw [List.foldl_cons, wozbCandStep_zero cfg f wm1 hm1 x y hBx hBy hy hy1 hx hx1 b q hq]
    by_cases hself : q = (x, y)
    · rw [if_pos hself]
      have hfil : List.filter (fun z => decide (z ≠ (x, y))) (q :: t)
          = List.filter (fun z => decide (z ≠ (x, y))) t := by
        rw [List.filter_cons, if_neg (by simp [hself])]
      simp only [hfil]
      exact ih hmt b
    · rw [if_neg hself]
      obtain ⟨i1, i2, i3⟩ := ih hmt _
      have hfil : List.filter (fun z => decide (z ≠ (x, y))) (q :: t)
          = q :: List.filter (fun z => decide (z ≠ (x, y))) t := by
        rw [List.filter_cons, if_pos (by simp [hself])]
      simp only [hfil, List.map_cons, List.sum_cons, List.foldl_cons]
      refine ⟨?_, ?_, ?_⟩
      · rw [i1]
        dsimp only
        rw [upd_same]
        ring
      · rw [i2]
        dsimp only
        rw [upd_same]
        ring
      · rw [i3]

theorem foldl_congr_mem {α σ : Type*} (L : List α) (f g : σ → α → σ)
    (h : ∀ s, ∀ a ∈ L, f s a = g s a) : ∀ s, L.foldl f s = L.foldl g s := by
  induction L with
  | nil => intro s; rfl
  | cons a t ih =>
    intro s
    rw [List.foldl_cons, List.foldl_cons, h s a (List.mem_cons_self a t)]
    exact ih (fun s b hb => h s b (List.mem_cons_of_mem a hb)) _

theorem foldl_updO (L : List (ℤ × ℤ)) (g : ℤ × ℤ → ℤ) :
    ∀ (o : Pic) (r : ℤ × ℤ),
      (L.foldl (fun o p => updO o p (g p)) o) r = if r ∈ L then g r else o r := by
  induction L with
  | nil => intro o r; simp
  | cons p t ih =>
    intro o r
    rw [List.foldl_cons, ih]
    by_cases hrt : r ∈ t
    · rw [if_pos hrt, if_pos (List.mem_cons_of_mem p hrt)]
    · rw [if_neg hrt]
      by_cases hrp : r = p
      · subst hrp
        rw [if_pos (List.mem_cons_self r t), updO_same]
      · rw [if_neg (by simp [List.mem_cons, hrp, hrt]), updO_other _ _ _ _ hrp]

theorem mem_pixelsRM {wm1 hm1 : ℤ} {q : ℤ × ℤ} :
    q ∈ pixelsRM wm1 hm1 ↔ q ∈ dom wm1 hm1 := by
  obtain ⟨qx, qy⟩ := q
  unfold pixelsRM
  rw [List.mem_flatMap, mem_dom]
  simp only [List.mem_map, mem_intRange, Prod.mk.injEq]
  constructor
  · rintro ⟨u, hu, v, hv, he1, he2⟩
    subst he1
    subst he2
    exact ⟨hv.1, hv.2, hu.1, hu.2⟩
  · rintro ⟨h1, h2, h3, h4⟩
    exact ⟨qy, ⟨h3, h4⟩, qx, ⟨h1, h2⟩, rfl, rfl⟩

/-- With zero block radii a tile is a single pixel and writes exactly the
brute-force reference output. -/
theorem wozbTile_zero (cfg : Cfg) (f : Pic) (width height : ℤ)
    (hBx : cfg.Bx = 0) (hBy : cfg.By = 0) (hAx : 0 ≤ cfg.Ax) (hAy : 0 ≤ cfg.Ay)
    (x y : ℤ) (hx0 : 0 ≤ x) (hx1 : x ≤ width - 1) (hy0 : 0 ≤ y) (hy1 : y ≤ height - 1)
    (out : Pic) :
    wozbTile cfg f width height out (x, y)
      = updO out (x, y) (refOut cfg f (width - 1) (height - 1) (x, y)) := by
  have hmemL : ∀ q ∈ wozbCands cfg.Ax cfg.Ay cfg.Bx cfg.By (width - 1) (height - 1) x y,
      q ∈ dom (width - 1) (height - 1) := by
    intro q hq
    rw [hBx, hBy] at hq
    rw [mem_wozbCands_zero hAx hAy hx0 hx1 hy0 hy1] at hq
    exact winF_subset_dom hq
  obtain ⟨hb1, hb2, hb3⟩ := wozb0_den cfg f (width - 1) (height - 1) x y hBx hBy
    hy0 hy1 hx0 hx1
    (wozbCands cfg.Ax cfg.Ay cfg.Bx cfg.By (width - 1) (height - 1) x y) hmemL BD.zero
  have hnodupL : ((wozbCands cfg.Ax cfg.Ay cfg.Bx cfg.By (width - 1) (height - 1)
      x y).filter (fun z => decide (z ≠ (x, y)))).Nodup :=
    (wozbCands_nodup cfg.Ax cfg.Ay cfg.Bx cfg.By (width - 1) (height - 1) x y).filter _
  have htfL : ((wozbCands cfg.Ax cfg.Ay cfg.Bx cfg.By (width - 1) (height - 1)
      x y).filter (fun z => decide (z ≠ (x, y)))).toFinset
      = (winF cfg.Ax cfg.Ay (width - 1) (height - 1) (x, y)).erase (x, y) := by
    apply Finset.ext
    intro q
    rw [List.mem_toFinset, List.mem_filter, Finset.mem_erase]
    rw [hBx, hBy, mem_wozbCands_zero hAx hAy hx0 hx1 hy0 hy1]
    rw [decide_eq_true_eq]
    tauto
  have hrs : (BD.zero.sumsb (0, 0) : ℝ)
      + (((wozbCands cfg.Ax cfg.Ay cfg.Bx cfg.By (width - 1) (height - 1) x y).filter
          (fun z => decide (z ≠ (x, y)))).map
        (fun q => (f q : ℝ) * wP cfg f (width - 1) (height - 1) (x, y) q)).sum
      = refSum cfg f (width - 1) (height - 1) (x, y) := by
    show (0 : ℝ) + _ = _
    rw [zero_add, refSum, ← htfL, List.sum_toFinset _ hnodupL]
  have hrw : (BD.zero.weightsb (0, 0) : ℝ)
      + (((wozbCands cfg.Ax cfg.Ay cfg.Bx cfg.By (width - 1) (height - 1) x y).filter
          (fun z => decide (z ≠ (x, y)))).map
        (wP cfg f (width - 1) (height - 1) (x, y))).sum
      = refWeight cfg f (width - 1) (height - 1) (x, y) := by
    show (0 : ℝ) + _ = _
    rw [zero_add, refWeight, ← htfL, List.sum_toFinset _ hnodupL]
  have hrm : (((wozbCands cfg.Ax cfg.Ay cfg.Bx cfg.By (width - 1) (height - 1) x y).filter
      (fun z => decide (z ≠ (x, y)))).map
        (wP cfg f (width - 1) (height - 1) (x, y))).foldl max BD.zero.wmax
      = refWmax cfg f (width - 1) (height - 1) (x, y) := by
    show _ = refWmax cfg f (width - 1) (height - 1) (x, y)
    rw [show BD.zero.wmax = (0 : ℝ) from rfl,
      list_foldmax_toFinset _ hnodupL _ (fun q _ => (wP_pos ..).le), htfL, refWmax]
  simp only [hBx, hBy] at hb1 hb2 hb3 hrs hrw hrm
  unfold wozbTile
  simp only [hBx, hBy]
  have hyTr : min (2 * (0 : ℤ) + 1) (height - y + 0) = 1 := by omega
  have hxTr : min (2 * (0 : ℤ) + 1) (width - x + 0) = 1 := by omega
  rw [hyTr, hxTr]
  have hoffs : ((intRange 0 ((1 : ℤ) - 1)).flatMap
      (fun j => (intRange 0 ((1 : ℤ) - 1)).map (fun k => (k, j))))
      = [((0 : ℤ), (0 : ℤ))] := by
    rw [show (1 : ℤ) - 1 = 0 from rfl, intRange_eq_cons (le_refl 0),
      intRange_eq_nil (by omega)]
    rfl
  rw [hoffs, List.foldl_cons, List.foldl_nil]
  dsimp only
  have hcell : (x - 0 + (0 : ℤ), y - 0 + (0 : ℤ)) = (x, y) := by
    rw [Prod.mk.injEq]
    omega
  have hkey : ((0 : ℤ) - 0, (0 : ℤ) - 0) = ((0 : ℤ), (0 : ℤ)) := by
    rw [Prod.mk.injEq]
    omega
  rw [hcell, hkey, hb1, hb2, hb3, hrs, hrw, hrm]
  rfl

/-! ### Claim C3: block mode with zero block radii matches pixel mode -/

/-- C3: with Bx = By = 0 the block variant `GetFrameWOZB` — which tiles per
pixel, enumerates every non-self candidate once without the causal-half
symmetric accumulation, and adds the tile-wide `wmax` self term — produces
exactly the same output as the pixel variant `GetFrameWOZ`. -/
theorem block_zero_matches_pixel (cfg : Cfg) (f : Pic) (width height : ℤ)
    (hW : 0 < width) (hH : 0 < height) (hAx : 0 ≤ cfg.Ax) (hAy : 0 ≤ cfg.Ay)
    (hBx : cfg.Bx = 0) (hBy : cfg.By = 0) :
    ∀ p ∈ dom (width - 1) (height - 1),
      GetFrameWOZB cfg f width height p = GetFrameWOZ cfg f width height p := by
  intro p hp
  rw [woz_eq_ref cfg f width height hW hH hAx hAy p hp]
  unfold GetFrameWOZB
  rw [hBx, hBy, tileList_zero, tileList_zero]
  have hcongr : ∀ (s : Pic), ∀ a ∈ (intRange 0 (height - 1)).flatMap
      (fun y => (intRange 0 (width - 1)).map (fun x => (x, y))),
      wozbTile cfg f width height s a
        = updO s a (refOut cfg f (width - 1) (height - 1) a) := by
    intro s a ha
    have hadom : a ∈ dom (width - 1) (height - 1) := mem_pixelsRM.mp ha
    rw [mem_dom] at hadom
    obtain ⟨ax, ay⟩ := a
    exact wozbTile_zero cfg f width height hBx hBy hAx hAy ax ay
      hadom.1 hadom.2.1 hadom.2.2.1 hadom.2.2.2 s
  rw [foldl_congr_mem _ _ _ hcongr]
  rw [foldl_updO]
  have hmem : p ∈ (intRange 0 (height - 1)).flatMap
      (fun y => (intRange 0 (width - 1)).map (fun x => (x, y))) := mem_pixelsRM.mpr hp
  rw [if_pos hmem]

theorem block_zero_matches_pixel_witness :
    (0 : ℤ) < 2 ∧ GetFrameWOZB cfgZ fW 2 1 (0, 0) = GetFrameWOZ cfgZ fW 2 1 (0, 0) := by
  refine ⟨by norm_num, ?_⟩
  exact block_zero_matches_pixel cfgZ fW 2 1 (by norm_num) (by norm_num)
    (by norm_num [cfgZ]) (by norm_num [cfgZ]) (by norm_num [cfgZ]) (by norm_num [cfgZ])
    (0, 0) (by decide)

/-! ### The temporal-pixel pass `GetFrameWZ` (lines 225-367) -/

/-- Replace the slot at physical position i. -/
def updSlot (c : Cache) (i : ℤ) (g : Slot → Slot) : Cache :=
  { c with slots := fun j => if j = i then g (c.slots i) else c.slots j }

theorem updSlot_same (c : Cache) (i : ℤ) (g : Slot → Slot) :
    (updSlot c i g).slots i = g (c.slots i) := by
  simp [updSlot]

theorem updSlot_other (c : Cache) (i j : ℤ) (g : Slot → Slot) (h : j ≠ i) :
    (updSlot c i g).slots j = c.slots j := by
  simp [updSlot, h]

@[simp] theorem updSlot_start (c : Cache) (i : ℤ) (g : Slot → Slot) :
    (updSlot c i g).start_pos = c.start_pos := rfl

@[simp] theorem updSlot_size (c : Cache) (i : ℤ) (g : Slot → Slot) :
    (updSlot c i g).size = c.size := rfl

@[simp] theorem getCachePos_updSlot (c : Cache) (i : ℤ) (g : Slot → Slot) (m : ℤ) :
    getCachePos (updSlot c i g) m = getCachePos c m := rfl

theorem getCachePos_bounds (c : Cache) (hsz : 0 < c.size) (t : ℤ) :
    0 ≤ getCachePos c t ∧ getCachePos c t < c.size := by
  unfold getCachePos
  exact ⟨Int.emod_nonneg _ (by omega), Int.emod_lt_of_pos _ hsz⟩

theorem getCachePos_inj (c : Cache) (hs0 : 0 ≤ c.start_pos) (hs1 : c.start_pos < c.size)
    {z1 z2 : ℤ} (h1 : 0 ≤ z1) (h2 : z1 < c.size) (h3 : 0 ≤ z2) (h4 : z2 < c.size)
    (he : getCachePos c z1 = getCachePos c z2) : z1 = z2 := by
  unfold getCachePos at he
  have h0 : (z1 - z2) % c.size = 0 := by
    have h := Int.emod_eq_emod_iff_emod_sub_eq_zero.mp he
    have h2 : c.start_pos + z1 - (c.start_pos + z2) = z1 - z2 := by ring
    rwa [h2] at h
  have hd : (c.size : ℤ) ∣ (z1 - z2) := Int.dvd_of_emod_eq_zero h0
  by_contra hne
  have habs : 0 < |z1 - z2| := abs_pos.mpr (sub_ne_zero.mpr hne)
  have hle : (c.size : ℤ) ≤ |z1 - z2| := Int.le_of_dvd habs ((dvd_abs _ _).mpr hd)
  rcases abs_cases (z1 - z2) with ⟨he1, _⟩ | ⟨he1, _⟩ <;> omega

/-- The cache refill of `GetFrameWZ` (lines 238-248): for each window index,
if the slot at its logical position holds a different frame number, replace it
with the freshly fetched frame `clip (mapn i)`, record `fnum = i` (`setFNum`),
and zero its accumulators and flags (`clearDS`, lines 845-856). -/
def cacheFill (clip : ℤ → Pic) (numFrames Az n : ℤ) (c : Cache) : Cache :=
  (intRange (n - Az) (n + Az)).foldl (fun c i =>
    let pos := getCachePos c (i - n + Az)
    if (c.slots pos).fnum = i then c
    else updSlot c pos (fun _ =>
      { fnum := i, data := clip (mapn numFrames i), ds := SD.zero, dsa := fun _ => 0 })) c

/-- Candidate cells of slot z for pixel (x, y) in `GetFrameWZ` (lines 301,
305-315): rows from `y` when z is the center slot, else from `max(y-Ay, 0)`;
columns from `x+1` on the center row of the center slot, else `max(x-Ax, 0)`. -/
def wzCands (Ax Ay Az wm1 hm1 x y z : ℤ) : List (ℤ × ℤ) :=
  (intRange (if z = Az then y else max (y - Ay) 0) (min (y + Ay) hm1)).flatMap (fun u =>
    (intRange (if u = y ∧ z = Az then x + 1 else max (x - Ax) 0) (min (x + Ax) wm1)).map
      (fun v => (v, u)))

/-- The full clipped window as a candidate list (the z ≠ Az case). -/
def winList (Ax Ay wm1 hm1 x y : ℤ) : List (ℤ × ℤ) :=
  (intRange (max (y - Ay) 0) (min (y + Ay) hm1)).flatMap (fun u =>
    (intRange (max (x - Ax) 0) (min (x + Ax) wm1)).map (fun v => (v, u)))

theorem wzCands_center (Ax Ay Az wm1 hm1 x y : ℤ) :
    wzCands Ax Ay Az wm1 hm1 x y Az = wozCands Ax Ay wm1 hm1 x y := by
  unfold wzCands wozCands
  simp only [eq_self_iff_true, and_true, if_true]

theorem wzCands_cross (Ax Ay Az wm1 hm1 x y z : ℤ) (hz : z ≠ Az) :
    wzCands Ax Ay Az wm1 hm1 x y z = winList Ax Ay wm1 hm1 x y := by
  unfold wzCands winList
  rw [if_neg hz]
  have h : ∀ u : ℤ, (if u = y ∧ z = Az then x + 1 else max (x - Ax) 0)
      = max (x - Ax) 0 := by
    intro u
    exact if_neg (fun hc => hz hc.2)
  simp only [h]

theorem mem_winList {Ax Ay wm1 hm1 x y : ℤ} {q : ℤ × ℤ} :
    q ∈ winList Ax Ay wm1 hm1 x y ↔ q ∈ winF Ax Ay wm1 hm1 (x, y) := by
  obtain ⟨qx, qy⟩ := q
  unfold winList
  rw [List.mem_flatMap, mem_winF]
  simp only [List.mem_map, mem_intRange, Prod.mk.injEq]
  constructor
  · rintro ⟨u, hu, v, hv, he1, he2⟩
    subst he1
    subst he2
    omega
  · rintro ⟨h1, h2⟩
    exact ⟨qy, by omega, qx, by omega, rfl, rfl⟩

theorem winList_nodup (Ax Ay wm1 hm1 x y : ℤ) : (winList Ax Ay wm1 hm1 x y).Nodup := by
  unfold winList
  rw [List.nodup_flatMap]
  constructor
  · intro u _
    refine List.Nodup.map_on ?_ (intRange_nodup _ _)
    intro a _ b _ h
    rw [Prod.mk.injEq] at h
    exact h.1
  · refine List.Pairwise.imp ?_ (List.Pairwise.imp (fun h => h) (intRange_nodup _ _))
    intro u1 u2 hne
    intro a ha1 ha2
    rw [List.mem_map] at ha1 ha2
    obtain ⟨v1, _, rfl⟩ := ha1
    obtain ⟨v2, _, he⟩ := ha2
    rw [Prod.mk.injEq] at he
    exact hne he.2.symm

/-- One candidate of the temporal-pixel scan (lines 315-348): compute the
pair weight between the source patch at (x, y) and the slot-z patch at (v, u);
always update the center accumulator at (x, y) (dweight, dsum, dwmax); then,
unless `cdsa[Azdm1 - z] == 1`, update slot z's accumulator at (v, u). -/
noncomputable def wzCandStep (cfg : Cfg) (wm1 hm1 : ℤ) (p : ℤ × ℤ) (z : ℤ)
    (c : Cache) (q : ℤ × ℤ) : Cache :=
  let cp := getCachePos c cfg.Az
  let zp := getCachePos c z
  let w := pairWeight cfg ((c.slots zp).data) ((c.slots cp).data) wm1 hm1 p.1 p.2 q.2 q.1
  let c1 := updSlot c cp (fun s =>
    { s with ds :=
      ⟨upd s.ds.sums p (s.ds.sums p + ((c.slots zp).data q : ℝ) * w),
        upd s.ds.weights p (s.ds.weights p + w),
        upd s.ds.wmaxs p (if s.ds.wmaxs p < w then w else s.ds.wmaxs p)⟩ })
  if (c1.slots zp).dsa (2 * cfg.Az - z) = 1 then c1
  else
    updSlot c1 zp (fun s =>
      { s with ds :=
        ⟨upd s.ds.sums q (s.ds.sums q + ((c.slots cp).data p : ℝ) * w),
          upd s.ds.weights q (s.ds.weights q + w),
          upd s.ds.wmaxs q (if s.ds.wmaxs q < w then w else s.ds.wmaxs q)⟩ })

/-- One temporal slot of one pixel (lines 297-350): skip the slot entirely if
`ddsa[z] == 1`, otherwise set `ddsa[z] = 2` and scan its candidates. -/
noncomputable def wzZStep (cfg : Cfg) (wm1 hm1 : ℤ) (p : ℤ × ℤ)
    (c : Cache) (z : ℤ) : Cache :=
  let cp := getCachePos c cfg.Az
  if (c.slots cp).dsa z = 1 then c
  else
    let c1 := updSlot c cp (fun s => { s with dsa := updZ s.dsa z 2 })
    (wzCands cfg.Ax cfg.Ay cfg.Az wm1 hm1 p.1 p.2 z).foldl
      (wzCandStep cfg wm1 hm1 p z) c1

/-- One pixel of `GetFrameWZ` (lines 289-355): the z loop over
`[startz, stopz]`, then the self term and the output write (lines 351-354). -/
noncomputable def wzPixel (cfg : Cfg) (numFrames wm1 hm1 n : ℤ)
    (st : Cache × Pic) (p : ℤ × ℤ) : Cache × Pic :=
  let c := (intRange (startzOf cfg.Az n) (stopzOf cfg.Az numFrames n)).foldl
    (wzZStep cfg wm1 hm1 p) st.1
  let cp := getCachePos c cfg.Az
  let wm := selfW ((c.slots cp).ds.wmaxs p)
  let c2 := updSlot c cp (fun s =>
    { s with ds :=
      ⟨upd s.ds.sums p (s.ds.sums p + ((c.slots cp).data p : ℝ) * wm),
        upd s.ds.weights p (s.ds.weights p + wm),
        s.ds.wmaxs⟩ })
  (c2, updO st.2 p (clamp255
    ((c2.slots cp).ds.sums p / (c2.slots cp).ds.weights p)))

/-- The end-of-frame marking (lines 360-365): for every logical index i with
`ddsa[i] == 2`, set `ddsa[i] = 1` and slot i's `dsa[size-1-i] = 1`. -/
def wzMark (Az : ℤ) (c : Cache) : Cache :=
  (intRange 0 (c.size - 1)).foldl (fun c i =>
    let cp := getCachePos c Az
    if (c.slots cp).dsa i = 2 then
      let c1 := updSlot c cp (fun s => { s with dsa := updZ s.dsa i 1 })
      updSlot c1 (getCachePos c1 i) (fun s =>
        { s with dsa := updZ s.dsa (c.size - 1 - i) 1 })
    else c) c

/-- `GetFrameWZ` on one plane: realign the cache, refill the window, run the
pixel loop with the cached accumulators, then mark resolved pairs. -/
noncomputable def GetFrameWZ (cfg : Cfg) (clip : ℤ → Pic) (numFrames : ℤ)
    (width height : ℤ) (n : ℤ) (c0 : Cache) : Cache × Pic :=
  let c1 := resetCacheStart c0 (n - cfg.Az) (n + cfg.Az)
  let c2 := cacheFill clip numFrames cfg.Az n c1
  let st := (pixelsRM (width - 1) (height - 1)).foldl
    (wzPixel cfg numFrames (width - 1) (height - 1) n) (c2, fun _ => 0)
  (wzMark cfg.Az st.1, st.2)

/-! ### Denotation of the temporal candidate scan -/

theorem getCachePos_congr {c1 c2 : Cache} (h1 : c1.start_pos = c2.start_pos)
    (h2 : c1.size = c2.size) (m : ℤ) : getCachePos c1 m = getCachePos c2 m := by
  unfold getCachePos
  rw [h1, h2]

theorem updSlot_updSlot (c : Cache) (i : ℤ) (g1 g2 : Slot → Slot) :
    updSlot (updSlot c i g1) i g2 = updSlot c i (fun s => g2 (g1 s)) := by
  unfold updSlot
  simp only [Cache.mk.injEq, true_and]
  funext j
  by_cases h : j = i
  · subst h
    simp
  · simp [h]

theorem updSlot_id (c : Cache) (i : ℤ) : updSlot c i (fun s => s) = c := by
  cases c with
  | mk sz sp sl =>
    unfold updSlot
    simp only [Cache.mk.injEq, true_and]
    funext j
    by_cases h : j = i
    · subst h
      simp
    · simp [h]

/-- The temporal pair weight of candidate cell q (in frame F) against center
cell p (in frame C). -/
noncomputable def wZ (cfg : Cfg) (F C : Pic) (wm1 hm1 : ℤ) (p q : ℤ × ℤ) : ℝ :=
  pairWeight cfg F C wm1 hm1 p.1 p.2 q.2 q.1

theorem wZ_pos (cfg : Cfg) (F C : Pic) (wm1 hm1 : ℤ) (p q : ℤ × ℤ) :
    0 < wZ cfg F C wm1 hm1 p q :=
  pairWeight_pos ..

theorem wZ_self (cfg : Cfg) (f : Pic) (wm1 hm1 : ℤ) (p q : ℤ × ℤ) :
    wZ cfg f f wm1 hm1 p q = wP cfg f wm1 hm1 p q := rfl

/-- The cross-frame contribution of one whole slot scan to the center cell:
total weight over the full clipped window. -/
noncomputable def crossW (cfg : Cfg) (F C : Pic) (wm1 hm1 : ℤ) (p : ℤ × ℤ) : ℝ :=
  ∑ q ∈ winF cfg.Ax cfg.Ay wm1 hm1 p, wZ cfg F C wm1 hm1 p q

/-- Cross-frame contribution: weighted sum of slot-frame values. -/
noncomputable def crossS (cfg : Cfg) (F C : Pic) (wm1 hm1 : ℤ) (p : ℤ × ℤ) : ℝ :=
  ∑ q ∈ winF cfg.Ax cfg.Ay wm1 hm1 p, (F q : ℝ) * wZ cfg F C wm1 hm1 p q

/-- Cross-frame contribution: maximum candidate weight. -/
noncomputable def crossM (cfg : Cfg) (F C : Pic) (wm1 hm1 : ℤ) (p : ℤ × ℤ) : ℝ :=
  (winF cfg.Ax cfg.Ay wm1 hm1 p).fold max 0 (wZ cfg F C wm1 hm1 p)

/-- A center-slot candidate step (z = Az) is exactly a `wozScanStep` on the
center slot's accumulator: the d-side updates the center cell, the c-side gate
index is `2Az − Az = Az`, whose flag was just set to 2, so the mirror update
always fires into the candidate's cell of the same accumulator. -/
theorem wzCandStep_center (cfg : Cfg) (wm1 hm1 : ℤ) (p q : ℤ × ℤ) (c : Cache)
    (hgate : (c.slots (getCachePos c cfg.Az)).dsa cfg.Az ≠ 1) (hpq : p ≠ q) :
    wzCandStep cfg wm1 hm1 p cfg.Az c q
      = updSlot c (getCachePos c cfg.Az) (fun s =>
          { s with ds :=
              wozScanStep cfg ((c.slots (getCachePos c cfg.Az)).data) wm1 hm1 p s.ds q }) := by
  have hqp : q ≠ p := Ne.symm hpq
  simp only [wzCandStep]
  rw [show 2 * cfg.Az - cfg.Az = cfg.Az from by ring]
  rw [updSlot_same]
  dsimp only
  rw [if_neg hgate, updSlot_updSlot]
  congr 1
  funext s
  unfold wozScanStep
  dsimp only
  simp only [Slot.mk.injEq, true_and, and_true, SD.mk.injEq]
  refine ⟨?_, ?_, ?_⟩ <;>
  · funext r
    by_cases hrp : r = p
    · subst hrp
      simp [upd, hpq, hqp]
    · by_cases hrq : r = q
      · subst hrq
        simp [upd, hpq, hqp, hrp]
      · simp [upd, hrp, hrq]

/-- The whole center-slot candidate scan of one pixel is the spatial pass's
`wozScanStep` folded over the center slot's accumulator. -/
theorem wz_center_fold (cfg : Cfg) (wm1 hm1 : ℤ) (p : ℤ × ℤ) :
    ∀ (L : List (ℤ × ℤ)), p ∉ L → ∀ (c : Cache),
      (c.slots (getCachePos c cfg.Az)).dsa cfg.Az ≠ 1 →
      L.foldl (wzCandStep cfg wm1 hm1 p cfg.Az) c
        = updSlot c (getCachePos c cfg.Az) (fun s =>
            { s with ds :=
                (L.foldl (wozScanStep cfg ((c.slots (getCachePos c cfg.Az)).data) wm1 hm1 p)
                  s.ds) }) := by
  intro L
  induction L with
  | nil =>
    intro _ c _
    simp only [List.foldl_nil]
    exact (updSlot_id c _).symm
  | cons q t ih =>
    intro hp c hgate
    have hpq : p ≠ q := fun h => hp (h ▸ List.mem_cons_self q t)
    have hpt : p ∉ t := fun h => hp (List.mem_cons_of_mem q h)
    rw [List.foldl_cons, wzCandStep_center cfg wm1 hm1 p q c hgate hpq]
    set C := (c.slots (getCachePos c cfg.Az)).data with hCd
    set c1 := updSlot c (getCachePos c cfg.Az) (fun s =>
      { s with ds := wozScanStep cfg C wm1 hm1 p s.ds q }) with hc1
    have hpos : getCachePos c1 cfg.Az = getCachePos c cfg.Az := rfl
    have hdsa : (c1.slots (getCachePos c cfg.Az)).dsa
        = (c.slots (getCachePos c cfg.Az)).dsa := by
      rw [hc1, updSlot_same]
    have hdata : (c1.slots (getCachePos c cfg.Az)).data = C := by
      rw [hc1, updSlot_same]
    have hgate1 : (c1.slots (getCachePos c1 cfg.Az)).dsa cfg.Az ≠ 1 := by
      rw [hpos, hdsa]
      exact hgate
    rw [ih hpt c1 hgate1, hpos, hdata, hc1, updSlot_updSlot]
    rfl

/-- Slot-swap commutation for updates at distinct physical positions. -/
theorem updSlot_comm (c : Cache) (i j : ℤ) (gi gj : Slot → Slot) (h : i ≠ j) :
    updSlot (updSlot c i gi) j gj = updSlot (updSlot c j gj) i gi := by
  have hji : j ≠ i := Ne.symm h
  unfold updSlot
  simp only [Cache.mk.injEq, true_and]
  funext k
  by_cases hki : k = i
  · subst hki
    simp [h, hji]
  · by_cases hkj : k = j
    · subst hkj
      simp [h, hji, hki]
    · simp [hki, hkj]

/-- The d-side of one temporal candidate (lines 339-341): the center cell's
(sum, weight, wmax) absorb the candidate's weight and slot-frame value. -/
noncomputable def dStep (cfg : Cfg) (F C : Pic) (wm1 hm1 : ℤ) (p q : ℤ × ℤ) (s : SD) : SD :=
  ⟨upd s.sums p (s.sums p + (F q : ℝ) * wZ cfg F C wm1 hm1 p q),
   upd s.weights p (s.weights p + wZ cfg F C wm1 hm1 p q),
   upd s.wmaxs p (if s.wmaxs p < wZ cfg F C wm1 hm1 p q then wZ cfg F C wm1 hm1 p q
     else s.wmaxs p)⟩

/-- The c-side of one temporal candidate (lines 344-346): slot z's cell q
absorbs the same weight with the source pixel's value. -/
noncomputable def cStep (cfg : Cfg) (F C : Pic) (wm1 hm1 : ℤ) (p q : ℤ × ℤ) (s : SD) : SD :=
  ⟨upd s.sums q (s.sums q + (C p : ℝ) * wZ cfg F C wm1 hm1 p q),
   upd s.weights q (s.weights q + wZ cfg F C wm1 hm1 p q),
   upd s.wmaxs q (if s.wmaxs q < wZ cfg F C wm1 hm1 p q then wZ cfg F C wm1 hm1 p q
     else s.wmaxs q)⟩

/-- One cross-slot candidate step (slot position distinct from the center):
d-side into the center slot, and, unless the mirror flag says consumed,
c-side into slot z. -/
theorem wzCandStep_cross_eq (cfg : Cfg) (wm1 hm1 : ℤ) (p q : ℤ × ℤ) (z : ℤ)
    (F C : Pic) (g : ℤ) (c : Cache)
    (hne : getCachePos c z ≠ getCachePos c cfg.Az)
    (hF : (c.slots (getCachePos c z)).data = F)
    (hC : (c.slots (getCachePos c cfg.Az)).data = C)
    (hg : (c.slots (getCachePos c z)).dsa (2 * cfg.Az - z) = g) :
    wzCandStep cfg wm1 hm1 p z c q
      = if g = 1 then
          updSlot c (getCachePos c cfg.Az) (fun s =>
            { s with ds := dStep cfg F C wm1 hm1 p q s.ds })
        else
          updSlot (updSlot c (getCachePos c cfg.Az) (fun s =>
            { s with ds := dStep cfg F C wm1 hm1 p q s.ds }))
            (getCachePos c z) (fun s => { s with ds := cStep cfg F C wm1 hm1 p q s.ds }) := by
  simp only [wzCandStep]
  rw [updSlot_other c _ _ _ hne, hg, hF, hC]
  by_cases hg1 : g = 1
  · rw [if_pos hg1, if_pos hg1]
    rfl
  · rw [if_neg hg1, if_neg hg1]
    congr 1

/-- The whole cross-slot candidate scan of one pixel, as independent folds of
`dStep` over the center slot and (gate permitting) `cStep` over slot z. -/
theorem wz_cross_fold (cfg : Cfg) (wm1 hm1 : ℤ) (p : ℤ × ℤ) (z : ℤ) (F C : Pic) (g : ℤ) :
    ∀ (L : List (ℤ × ℤ)), ∀ (c : Cache),
      getCachePos c z ≠ getCachePos c cfg.Az →
      (c.slots (getCachePos c z)).data = F →
      (c.slots (getCachePos c cfg.Az)).data = C →
      (c.slots (getCachePos c z)).dsa (2 * cfg.Az - z) = g →
      L.foldl (wzCandStep cfg wm1 hm1 p z) c
        = updSlot (updSlot c (getCachePos c cfg.Az) (fun s =>
            { s with ds := (L.foldl (fun d r => dStep cfg F C wm1 hm1 p r d) s.ds) }))
            (getCachePos c z) (fun s =>
            { s with ds := (if g = 1 then s.ds
              else L.foldl (fun d r => cStep cfg F C wm1 hm1 p r d) s.ds) }) := by
  intro L
  induction L with
  | nil =>
    intro c _ _ _ _
    have heta : (fun (s : Slot) => { s with ds := s.ds }) = (fun s => s) :=
      funext fun s => rfl
    simp only [List.foldl_nil, ite_self]
    rw [heta, updSlot_id, updSlot_id]
  | cons q t ih =>
    intro c hne hF hC hg
    rw [List.foldl_cons, wzCandStep_cross_eq cfg wm1 hm1 p q z F C g c hne hF hC hg]
    by_cases hg1 : g = 1
    · rw [if_pos hg1]
      set c1 := updSlot c (getCachePos c cfg.Az) (fun s =>
        { s with ds := dStep cfg F C wm1 hm1 p q s.ds }) with hc1
      have hz1 : getCachePos c1 z = getCachePos c z := rfl
      have ha1 : getCachePos c1 cfg.Az = getCachePos c cfg.Az := rfl
      have hne1 : getCachePos c1 z ≠ getCachePos c1 cfg.Az := hne
      have hF1 : (c1.slots (getCachePos c1 z)).data = F := by
        rw [hz1, hc1, updSlot_other c _ _ _ hne]
        exact hF
      have hC1 : (c1.slots (getCachePos c1 cfg.Az)).data = C := by
        rw [ha1, hc1, updSlot_same]
        exact hC
      have hg2 : (c1.slots (getCachePos c1 z)).dsa (2 * cfg.Az - z) = g := by
        rw [hz1, hc1, updSlot_other c _ _ _ hne]
        exact hg
      rw [ih c1 hne1 hF1 hC1 hg2, hz1, ha1]
      have hif : (fun (s : Slot) => { s with ds :=
          (if g = 1 then s.ds else t.foldl (fun d r => cStep cfg F C wm1 hm1 p r d) s.ds) })
          = (fun (s : Slot) => s) := by
        funext s
        rw [if_pos hg1]
      have hif2 : (fun (s : Slot) => { s with ds :=
          (if g = 1 then s.ds
            else (q :: t).foldl (fun d r => cStep cfg F C wm1 hm1 p r d) s.ds) })
          = (fun (s : Slot) => s) := by
        funext s
        rw [if_pos hg1]
      rw [hif, hif2, updSlot_id, updSlot_id, hc1, updSlot_updSlot]
      rfl
    · rw [if_neg hg1]
      set c1 := updSlot (updSlot c (getCachePos c cfg.Az) (fun s =>
        { s with ds := dStep cfg F C wm1 hm1 p q s.ds }))
        (getCachePos c z) (fun s => { s with ds := cStep cfg F C wm1 hm1 p q s.ds }) with hc1
      have hz1 : getCachePos c1 z = getCachePos c z := rfl
      have ha1 : getCachePos c1 cfg.Az = getCachePos c cfg.Az := rfl
      have hne1 : getCachePos c1 z ≠ getCachePos c1 cfg.Az := hne
      have hF1 : (c1.slots (getCachePos c1 z)).data = F := by
        rw [hz1, hc1, updSlot_same]
        rw [updSlot_other c _ _ _ hne]
        exact hF
      have hC1 : (c1.slots (getCachePos c1 cfg.Az)).data = C := by
        rw [ha1, hc1, updSlot_other _ _ _ _ (Ne.symm hne), updSlot_same]
        exact hC
      have hg2 : (c1.slots (getCachePos c1 z)).dsa (2 * cfg.Az - z) = g := by
        rw [hz1, hc1, updSlot_same]
        rw [updSlot_other c _ _ _ hne]
        exact hg
      rw [ih c1 hne1 hF1 hC1 hg2, hz1, ha1, hc1]
      have hif : (fun (s : Slot) => { s with ds :=
          (if g = 1 then s.ds else t.foldl (fun d r => cStep cfg F C wm1 hm1 p r d) s.ds) })
          = (fun (s : Slot) =>
            { s with ds := (t.foldl (fun d r => cStep cfg F C wm1 hm1 p r d) s.ds) }) := by
        funext s
        rw [if_neg hg1]
      have hif2 : (fun (s : Slot) => { s with ds :=
          (if g = 1 then s.ds
            else (q :: t).foldl (fun d r => cStep cfg F C wm1 hm1 p r d) s.ds) })
          = (fun (s : Slot) =>
            { s with ds := ((q :: t).foldl (fun d r => cStep cfg F C wm1 hm1 p r d) s.ds) }) := by
        funext s
        rw [if_neg hg1]
      rw [hif, hif2]
      rw [updSlot_comm _ _ _ _ _ hne, updSlot_updSlot, updSlot_updSlot]
      rfl

/-- Denotation of the d-side fold: only the center cell accumulates, once per
candidate. -/
theorem dStep_den (cfg : Cfg) (F C : Pic) (wm1 hm1 : ℤ) (p : ℤ × ℤ) :
    ∀ (L : List (ℤ × ℤ)) (s : SD),
      (L.foldl (fun d r => dStep cfg F C wm1 hm1 p r d) s).weights p
        = s.weights p + (L.map (wZ cfg F C wm1 hm1 p)).sum ∧
      (L.foldl (fun d r => dStep cfg F C wm1 hm1 p r d) s).sums p
        = s.sums p + (L.map (fun q => (F q : ℝ) * wZ cfg F C wm1 hm1 p q)).sum ∧
      (L.foldl (fun d r => dStep cfg F C wm1 hm1 p r d) s).wmaxs p
        = (L.map (wZ cfg F C wm1 hm1 p)).foldl max (s.wmaxs p) ∧
      (∀ r, r ≠ p →
        (L.foldl (fun d r2 => dStep cfg F C wm1 hm1 p r2 d) s).weights r = s.weights r ∧
        (L.foldl (fun d r2 => dStep cfg F C wm1 hm1 p r2 d) s).sums r = s.sums r ∧
        (L.foldl (fun d r2 => dStep cfg F C wm1 hm1 p r2 d) s).wmaxs r = s.wmaxs r) := by
  intro L
  induction L with
  | nil =>
    intro s
    exact ⟨by simp, by simp, by simp, fun r _ => ⟨rfl, rfl, rfl⟩⟩
  | cons q t ih =>
    intro s
    obtain ⟨i1, i2, i3, i4⟩ := ih (dStep cfg F C wm1 hm1 p q s)
    have e1 : (dStep cfg F C wm1 hm1 p q s).weights p
        = s.weights p + wZ cfg F C wm1 hm1 p q := by
      simp [dStep]
    have e2 : (dStep cfg F C wm1 hm1 p q s).sums p
        = s.sums p + (F q : ℝ) * wZ cfg F C wm1 hm1 p q := by
      simp [dStep]
    have e3 : (dStep cfg F C wm1 hm1 p q s).wmaxs p
        = max (s.wmaxs p) (wZ cfg F C wm1 hm1 p q) := by
      simp only [dStep]
      rw [upd_same]
      exact maxUpd_eq _ _
    refine ⟨?_, ?_, ?_, ?_⟩
    · rw [List.foldl_cons, i1, e1, List.map_cons, List.sum_cons]
      ring
    · rw [List.foldl_cons, i2, e2, List.map_cons, List.sum_cons]
      ring
    · rw [List.foldl_cons, i3, e3, List.map_cons, List.foldl_cons]
    · intro r hr
      obtain ⟨j1, j2, j3⟩ := i4 r hr
      rw [List.foldl_cons]
      refine ⟨j1.trans ?_, j2.trans ?_, j3.trans ?_⟩ <;>
      · simp [dStep, upd, hr]

/-- Denotation of the c-side fold: each candidate cell accumulates exactly
once, everything else is untouched. -/
theorem cStep_den (cfg : Cfg) (F C : Pic) (wm1 hm1 : ℤ) (p : ℤ × ℤ) :
    ∀ (L : List (ℤ × ℤ)), L.Nodup → ∀ (s : SD),
      (∀ r, r ∉ L →
        (L.foldl (fun d q => cStep cfg F C wm1 hm1 p q d) s).weights r = s.weights r ∧
        (L.foldl (fun d q => cStep cfg F C wm1 hm1 p q d) s).sums r = s.sums r ∧
        (L.foldl (fun d q => cStep cfg F C wm1 hm1 p q d) s).wmaxs r = s.wmaxs r) ∧
      (∀ r, r ∈ L →
        (L.foldl (fun d q => cStep cfg F C wm1 hm1 p q d) s).weights r
          = s.weights r + wZ cfg F C wm1 hm1 p r ∧
        (L.foldl (fun d q => cStep cfg F C wm1 hm1 p q d) s).sums r
          = s.sums r + (C p : ℝ) * wZ cfg F C wm1 hm1 p r ∧
        (L.foldl (fun d q => cStep cfg F C wm1 hm1 p q d) s).wmaxs r
          = max (s.wmaxs r) (wZ cfg F C wm1 hm1 p r)) := by
  intro L
  induction L with
  | nil =>
    intro _ s
    exact ⟨fun r _ => ⟨rfl, rfl, rfl⟩, fun r hr => absurd hr (List.not_mem_nil r)⟩
  | cons q t ih =>
    intro hnd s
    rw [List.nodup_cons] at hnd
    obtain ⟨hqt, hndt⟩ := hnd
    obtain ⟨i1, i2⟩ := ih hndt (cStep cfg F C wm1 hm1 p q s)
    constructor
    · intro r hr
      have hrq : r ≠ q := fun h => hr (h ▸ List.mem_cons_self q t)
      have hrt : r ∉ t := fun h => hr (List.mem_cons_of_mem q h)
      obtain ⟨j1, j2, j3⟩ := i1 r hrt
      rw [List.foldl_cons]
      refine ⟨j1.trans ?_, j2.trans ?_, j3.trans ?_⟩ <;>
      · simp [cStep, upd, hrq]
    · intro r hr
      rw [List.foldl_cons]
      rcases List.mem_cons.mp hr with rfl | hrt
      · obtain ⟨j1, j2, j3⟩ := i1 r hqt
        have e3 : (cStep cfg F C wm1 hm1 p r s).wmaxs r
            = max (s.wmaxs r) (wZ cfg F C wm1 hm1 p r) := by
          simp only [cStep]
          rw [upd_same]
          exact maxUpd_eq _ _
        refine ⟨j1.trans ?_, j2.trans ?_, j3.trans e3⟩ <;>
        · simp [cStep]
      · have hrq : r ≠ q := fun h => hqt (h ▸ hrt)
        obtain ⟨j1, j2, j3⟩ := i2 r hrt
        have k1 : (cStep cfg F C wm1 hm1 p q s).weights r = s.weights r := by
          simp [cStep, upd, hrq]
        have k2 : (cStep cfg F C wm1 hm1 p q s).sums r = s.sums r := by
          simp [cStep, upd, hrq]
        have k3 : (cStep cfg F C wm1 hm1 p q s).wmaxs r = s.wmaxs r := by
          simp [cStep, upd, hrq]
        rw [j1, j2, j3, k1, k2, k3]
        exact ⟨rfl, rfl, rfl⟩

/-! ### The per-pixel z loop of `GetFrameWZ` -/

/-- Total weight contributed to the center cell p by temporal slot z of
cache a: the causal half for the center slot, the full window otherwise. -/
noncomputable def zTermW (cfg : Cfg) (wm1 hm1 : ℤ) (a : Cache) (p : ℤ × ℤ) (z : ℤ) : ℝ :=
  if z = cfg.Az then
    ∑ q ∈ causalSet cfg.Ax cfg.Ay wm1 hm1 p,
      wP cfg ((a.slots (getCachePos a cfg.Az)).data) wm1 hm1 p q
  else
    crossW cfg ((a.slots (getCachePos a z)).data)
      ((a.slots (getCachePos a cfg.Az)).data) wm1 hm1 p

/-- Weighted sum contributed to the center cell p by temporal slot z. -/
noncomputable def zTermS (cfg : Cfg) (wm1 hm1 : ℤ) (a : Cache) (p : ℤ × ℤ) (z : ℤ) : ℝ :=
  if z = cfg.Az then
    ∑ q ∈ causalSet cfg.Ax cfg.Ay wm1 hm1 p,
      (((a.slots (getCachePos a cfg.Az)).data q : ℝ)
        * wP cfg ((a.slots (getCachePos a cfg.Az)).data) wm1 hm1 p q)
  else
    crossS cfg ((a.slots (getCachePos a z)).data)
      ((a.slots (getCachePos a cfg.Az)).data) wm1 hm1 p

/-- Maximum weight contributed to the center cell p by temporal slot z. -/
noncomputable def zTermM (cfg : Cfg) (wm1 hm1 : ℤ) (a : Cache) (p : ℤ × ℤ) (z : ℤ) : ℝ :=
  if z = cfg.Az then
    (causalSet cfg.Ax cfg.Ay wm1 hm1 p).fold max 0
      (wP cfg ((a.slots (getCachePos a cfg.Az)).data) wm1 hm1 p)
  else
    crossM cfg ((a.slots (getCachePos a z)).data)
      ((a.slots (getCachePos a cfg.Az)).data) wm1 hm1 p

/-- The slots already scanned and not skipped when the z loop has reached m. -/
def activeIn (cfg : Cfg) (a : Cache) (startz m : ℤ) : Finset ℤ :=
  (Finset.Icc startz (m - 1)).filter
    (fun z2 => (a.slots (getCachePos a cfg.Az)).dsa z2 ≠ 1)

/-- State of the per-pixel z loop after the slots in `[startz, m)` have been
scanned, relative to the cache `a` at the start of the pixel: frame numbers,
planes and non-center flags are untouched; scanned non-skipped flags read 2;
the center cell p has accumulated one term per scanned slot; the center slot's
causal cells carry the mirror of the center scan; and open cross slots carry
one mirror contribution at every cell of p's window. -/
def ZInv (cfg : Cfg) (wm1 hm1 : ℤ) (p : ℤ × ℤ) (startz : ℤ) (a : Cache)
    (m : ℤ) (c : Cache) : Prop :=
  c.start_pos = a.start_pos ∧ c.size = a.size ∧
  (∀ i, (c.slots i).fnum = (a.slots i).fnum ∧ (c.slots i).data = (a.slots i).data) ∧
  (∀ i, i ≠ getCachePos a cfg.Az → (c.slots i).dsa = (a.slots i).dsa) ∧
  (∀ z2, (c.slots (getCachePos a cfg.Az)).dsa z2
    = if startz ≤ z2 ∧ z2 < m ∧ (a.slots (getCachePos a cfg.Az)).dsa z2 ≠ 1 then 2
      else (a.slots (getCachePos a cfg.Az)).dsa z2) ∧
  ((c.slots (getCachePos a cfg.Az)).ds.weights p
    = (a.slots (getCachePos a cfg.Az)).ds.weights p
      + ∑ z2 ∈ activeIn cfg a startz m, zTermW cfg wm1 hm1 a p z2) ∧
  ((c.slots (getCachePos a cfg.Az)).ds.sums p
    = (a.slots (getCachePos a cfg.Az)).ds.sums p
      + ∑ z2 ∈ activeIn cfg a startz m, zTermS cfg wm1 hm1 a p z2) ∧
  ((c.slots (getCachePos a cfg.Az)).ds.wmaxs p
    = max ((a.slots (getCachePos a cfg.Az)).ds.wmaxs p)
        ((activeIn cfg a startz m).fold max 0 (zTermM cfg wm1 hm1 a p))) ∧
  (∀ r, r ≠ p →
    ((c.slots (getCachePos a cfg.Az)).ds.weights r
      = (a.slots (getCachePos a cfg.Az)).ds.weights r
        + (if cfg.Az ∈ activeIn cfg a startz m ∧ r ∈ causalSet cfg.Ax cfg.Ay wm1 hm1 p
          then wP cfg ((a.slots (getCachePos a cfg.Az)).data) wm1 hm1 p r else 0)) ∧
    ((c.slots (getCachePos a cfg.Az)).ds.sums r
      = (a.slots (getCachePos a cfg.Az)).ds.sums r
        + (if cfg.Az ∈ activeIn cfg a startz m ∧ r ∈ causalSet cfg.Ax cfg.Ay wm1 hm1 p
          then ((a.slots (getCachePos a cfg.Az)).data p : ℝ)
            * wP cfg ((a.slots (getCachePos a cfg.Az)).data) wm1 hm1 p r else 0)) ∧
    ((c.slots (getCachePos a cfg.Az)).ds.wmaxs r
      = if cfg.Az ∈ activeIn cfg a startz m ∧ r ∈ causalSet cfg.Ax cfg.Ay wm1 hm1 p
        then max ((a.slots (getCachePos a cfg.Az)).ds.wmaxs r)
          (wP cfg ((a.slots (getCachePos a cfg.Az)).data) wm1 hm1 p r)
        else (a.slots (getCachePos a cfg.Az)).ds.wmaxs r)) ∧
  (∀ z2, 0 ≤ z2 → z2 < a.size → z2 ≠ cfg.Az → ∀ q,
    ((c.slots (getCachePos a z2)).ds.weights q
      = (a.slots (getCachePos a z2)).ds.weights q
        + (if z2 ∈ activeIn cfg a startz m
            ∧ (a.slots (getCachePos a z2)).dsa (2 * cfg.Az - z2) ≠ 1
            ∧ q ∈ winF cfg.Ax cfg.Ay wm1 hm1 p
          then wZ cfg ((a.slots (getCachePos a z2)).data)
            ((a.slots (getCachePos a cfg.Az)).data) wm1 hm1 p q else 0)) ∧
    ((c.slots (getCachePos a z2)).ds.sums q
      = (a.slots (getCachePos a z2)).ds.sums q
        + (if z2 ∈ activeIn cfg a startz m
            ∧ (a.slots (getCachePos a z2)).dsa (2 * cfg.Az - z2) ≠ 1
            ∧ q ∈ winF cfg.Ax cfg.Ay wm1 hm1 p
          then ((a.slots (getCachePos a cfg.Az)).data p : ℝ)
            * wZ cfg ((a.slots (getCachePos a z2)).data)
              ((a.slots (getCachePos a cfg.Az)).data) wm1 hm1 p q else 0)) ∧
    ((c.slots (getCachePos a z2)).ds.wmaxs q
      = if z2 ∈ activeIn cfg a startz m
            ∧ (a.slots (getCachePos a z2)).dsa (2 * cfg.Az - z2) ≠ 1
            ∧ q ∈ winF cfg.Ax cfg.Ay wm1 hm1 p
        then max ((a.slots (getCachePos a z2)).ds.wmaxs q)
          (wZ cfg ((a.slots (getCachePos a z2)).data)
            ((a.slots (getCachePos a cfg.Az)).data) wm1 hm1 p q)
        else (a.slots (getCachePos a z2)).ds.wmaxs q)) ∧
  (∀ i, i < 0 ∨ a.size ≤ i → c.slots i = a.slots i)

theorem mem_activeIn {cfg : Cfg} {a : Cache} {startz m z2 : ℤ} :
    z2 ∈ activeIn cfg a startz m
      ↔ (startz ≤ z2 ∧ z2 ≤ m - 1
          ∧ (a.slots (getCachePos a cfg.Az)).dsa z2 ≠ 1) := by
  unfold activeIn
  rw [Finset.mem_filter, Finset.mem_Icc]
  tauto

theorem activeIn_empty (cfg : Cfg) (a : Cache) (startz : ℤ) :
    activeIn cfg a startz startz = ∅ := by
  apply Finset.eq_empty_of_forall_not_mem
  intro z2 hz
  rw [mem_activeIn] at hz
  omega

theorem ZInv_init (cfg : Cfg) (wm1 hm1 : ℤ) (p : ℤ × ℤ) (startz : ℤ) (a : Cache)
    (hnn : 0 ≤ (a.slots (getCachePos a cfg.Az)).ds.wmaxs p) :
    ZInv cfg wm1 hm1 p startz a startz a := by
  unfold ZInv
  rw [activeIn_empty]
  refine ⟨rfl, rfl, fun i => ⟨rfl, rfl⟩, fun i _ => rfl, ?_, ?_, ?_, ?_, ?_, ?_,
    fun i _ => rfl⟩
  · intro z2
    rw [if_neg (by omega)]
  · simp
  · simp
  · simp only [Finset.fold_empty]
    exact (max_eq_left hnn).symm
  · intro r _
    simp
  · intro z2 _ _ _ q
    simp

theorem activeIn_succ_mem {cfg : Cfg} {a : Cache} {startz m : ℤ} (hm : startz ≤ m)
    (hd : (a.slots (getCachePos a cfg.Az)).dsa m ≠ 1) :
    activeIn cfg a startz (m + 1) = insert m (activeIn cfg a startz m) := by
  apply Finset.ext
  intro z2
  rw [Finset.mem_insert, mem_activeIn, mem_activeIn]
  constructor
  · rintro ⟨u1, u2, u3⟩
    by_cases hz2 : z2 = m
    · exact Or.inl hz2
    · exact Or.inr ⟨u1, by omega, u3⟩
  · rintro (rfl | ⟨u1, u2, u3⟩)
    · exact ⟨hm, by omega, hd⟩
    · exact ⟨u1, by omega, u3⟩

theorem activeIn_succ_skip {cfg : Cfg} {a : Cache} {startz m : ℤ}
    (hd : (a.slots (getCachePos a cfg.Az)).dsa m = 1) :
    activeIn cfg a startz (m + 1) = activeIn cfg a startz m := by
  apply Finset.ext
  intro z2
  rw [mem_activeIn, mem_activeIn]
  constructor
  · rintro ⟨u1, u2, u3⟩
    have hz2 : z2 ≠ m := fun h => u3 (h ▸ hd)
    exact ⟨u1, by omega, u3⟩
  · rintro ⟨u1, u2, u3⟩
    exact ⟨u1, by omega, u3⟩

theorem not_mem_activeIn_self {cfg : Cfg} {a : Cache} {startz m : ℤ} :
    m ∉ activeIn cfg a startz m := by
  rw [mem_activeIn]
  omega

/-- Advancing the z loop over a skipped slot (`ddsa[z] == 1`, line 299). -/
theorem ZInv_step_skip (cfg : Cfg) (wm1 hm1 : ℤ) (x y : ℤ) (startz : ℤ) (a : Cache)
    (m : ℤ) (c : Cache)
    (hskip : (a.slots (getCachePos a cfg.Az)).dsa m = 1)
    (hInv : ZInv cfg wm1 hm1 (x, y) startz a m c) :
    ZInv cfg wm1 hm1 (x, y) startz a (m + 1) (wzZStep cfg wm1 hm1 (x, y) c m) := by
  obtain ⟨h1, h2, h3, h4, h5, h6, h7, h8, h9, h10, h11⟩ := hInv
  have hflag : (c.slots (getCachePos c cfg.Az)).dsa m
      = (a.slots (getCachePos a cfg.Az)).dsa m := by
    rw [getCachePos_congr h1 h2, h5 m, if_neg (by omega)]
  have hres : wzZStep cfg wm1 hm1 (x, y) c m = c := by
    simp only [wzZStep]
    rw [if_pos (hflag.trans hskip)]
  rw [hres]
  unfold ZInv
  rw [activeIn_succ_skip hskip]
  refine ⟨h1, h2, h3, h4, ?_, h6, h7, h8, h9, ?_, h11⟩
  · intro z2
    rw [h5 z2]
    by_cases hz2 : z2 = m
    · subst hz2
      rw [if_neg (by omega), if_neg (fun hcon => hcon.2.2 hskip)]
    · have hiff : (startz ≤ z2 ∧ z2 < m + 1
          ∧ (a.slots (getCachePos a cfg.Az)).dsa z2 ≠ 1)
          ↔ (startz ≤ z2 ∧ z2 < m
          ∧ (a.slots (getCachePos a cfg.Az)).dsa z2 ≠ 1) := by
        constructor <;> rintro ⟨u1, u2, u3⟩ <;> exact ⟨u1, by omega, u3⟩
      rw [if_congr hiff rfl rfl]
  · intro z2 hz0 hz1 hzA q
    exact h10 z2 hz0 hz1 hzA q

theorem max3_swap (a b c : ℝ) : max (max a b) c = max a (max c b) := by
  rw [max_assoc, max_comm b c]

theorem winList_toFinset (Ax Ay wm1 hm1 x y : ℤ) :
    (winList Ax Ay wm1 hm1 x y).toFinset = winF Ax Ay wm1 hm1 (x, y) := by
  apply Finset.ext
  intro q
  rw [List.mem_toFinset, mem_winList]

/-- Advancing the z loop over the center slot (z = Az, not skipped): the scan
is the spatial causal scan with symmetric accumulation into the center slot,
and `ddsa[Az]` is set to 2. -/
theorem ZInv_step_center (cfg : Cfg) (wm1 hm1 : ℤ) (x y : ℤ) (startz : ℤ) (a : Cache)
    (hAx : 0 ≤ cfg.Ax) (hAy : 0 ≤ cfg.Ay)
    (hx0 : 0 ≤ x) (hx1 : x ≤ wm1) (hy0 : 0 ≤ y) (hy1 : y ≤ hm1)
    (hs0 : 0 ≤ a.start_pos) (hs1 : a.start_pos < a.size)
    (hAz0 : 0 ≤ cfg.Az) (hAz1 : cfg.Az < a.size)
    (hnnp : 0 ≤ (a.slots (getCachePos a cfg.Az)).ds.wmaxs (x, y))
    (startm : startz ≤ cfg.Az)
    (hskip : (a.slots (getCachePos a cfg.Az)).dsa cfg.Az ≠ 1)
    (c : Cache)
    (hInv : ZInv cfg wm1 hm1 (x, y) startz a cfg.Az c) :
    ZInv cfg wm1 hm1 (x, y) startz a (cfg.Az + 1) (wzZStep cfg wm1 hm1 (x, y) c cfg.Az) := by
  obtain ⟨h1, h2, h3, h4, h5, h6, h7, h8, h9, h10, h11⟩ := hInv
  have hposc : ∀ t, getCachePos c t = getCachePos a t := fun t => getCachePos_congr h1 h2 t
  have hflag : (c.slots (getCachePos c cfg.Az)).dsa cfg.Az
      = (a.slots (getCachePos a cfg.Az)).dsa cfg.Az := by
    rw [hposc, h5 cfg.Az, if_neg (by omega)]
  have hcskip : ¬ (c.slots (getCachePos c cfg.Az)).dsa cfg.Az = 1 :=
    fun h => hskip (hflag.symm.trans h)
  have hself := self_not_mem_wozCands hAx hAy hx0 hx1 hy0 hy1
  have hnodup := wozCands_nodup cfg.Ax cfg.Ay wm1 hm1 x y
  have hres1 : wzZStep cfg wm1 hm1 (x, y) c cfg.Az
      = (wozCands cfg.Ax cfg.Ay wm1 hm1 x y).foldl (wzCandStep cfg wm1 hm1 (x, y) cfg.Az)
          (updSlot c (getCachePos c cfg.Az) (fun s =>
            { s with dsa := updZ s.dsa cfg.Az 2 })) := by
    simp only [wzZStep]
    rw [if_neg hcskip, wzCands_center]
  have hres2 : wzZStep cfg wm1 hm1 (x, y) c cfg.Az
      = updSlot c (getCachePos a cfg.Az) (fun s =>
          { s with
            ds := ((wozCands cfg.Ax cfg.Ay wm1 hm1 x y).foldl
              (wozScanStep cfg ((a.slots (getCachePos a cfg.Az)).data) wm1 hm1 (x, y))
              s.ds),
            dsa := updZ s.dsa cfg.Az 2 }) := by
    rw [hres1, hposc cfg.Az]
    rw [wz_center_fold cfg wm1 hm1 (x, y) _ hself
      (updSlot c (getCachePos a cfg.Az) (fun s => { s with dsa := updZ s.dsa cfg.Az 2 }))
      (by
        rw [getCachePos_updSlot, hposc cfg.Az, updSlot_same]
        dsimp only
        rw [updZ_same]
        norm_num)]
    rw [getCachePos_updSlot, hposc cfg.Az, updSlot_same]
    dsimp only
    rw [(h3 (getCachePos a cfg.Az)).2]
    rw [updSlot_updSlot]
  rw [hres2]
  obtain ⟨d1, d2, d3, d4, d5⟩ :=
    woz_scan_den cfg ((a.slots (getCachePos a cfg.Az)).data) wm1 hm1 (x, y)
      (wozCands cfg.Ax cfg.Ay wm1 hm1 x y) hself hnodup ((c.slots (getCachePos a cfg.Az)).ds)
  have htf := @wozCands_toFinset cfg.Ax cfg.Ay wm1 hm1 x y hAx hAy hx0 hx1 hy0 hy1
  have hLiff : ∀ q : ℤ × ℤ, q ∈ wozCands cfg.Ax cfg.Ay wm1 hm1 x y ↔
      q ∈ causalSet cfg.Ax cfg.Ay wm1 hm1 (x, y) := by
    intro q
    rw [mem_wozCands hAx hAy hx0 hx1 hy0 hy1, mem_causalSet]
  have hact := @activeIn_succ_mem cfg a startz cfg.Az startm hskip
  have hAznotm := @not_mem_activeIn_self cfg a startz cfg.Az
  have hwnn : ∀ v ∈ (wozCands cfg.Ax cfg.Ay wm1 hm1 x y).map
      (wP cfg ((a.slots (getCachePos a cfg.Az)).data) wm1 hm1 (x, y)), (0 : ℝ) ≤ v := by
    intro v hv
    rw [List.mem_map] at hv
    obtain ⟨q, _, rfl⟩ := hv
    exact (wP_pos ..).le
  unfold ZInv
  refine ⟨h1, h2, ?_, ?_, ?_, ?_, ?_, ?_, ?_, ?_, ?_⟩
  · intro i
    by_cases hi : i = getCachePos a cfg.Az
    · subst hi
      rw [updSlot_same]
      exact h3 _
    · rw [updSlot_other _ _ _ _ hi]
      exact h3 i
  · intro i hi
    rw [updSlot_other _ _ _ _ hi]
    exact h4 i hi
  · intro z2
    rw [updSlot_same]
    dsimp only
    by_cases hz2 : z2 = cfg.Az
    · subst hz2
      rw [updZ_same, if_pos ⟨startm, by omega, hskip⟩]
    · rw [updZ_other _ _ _ _ hz2, h5 z2]
      have hiff : (startz ≤ z2 ∧ z2 < cfg.Az + 1
          ∧ (a.slots (getCachePos a cfg.Az)).dsa z2 ≠ 1)
          ↔ (startz ≤ z2 ∧ z2 < cfg.Az
          ∧ (a.slots (getCachePos a cfg.Az)).dsa z2 ≠ 1) := by
        constructor <;> rintro ⟨u1, u2, u3⟩ <;> exact ⟨u1, by omega, u3⟩
      rw [if_congr hiff rfl rfl]
  · rw [updSlot_same]
    dsimp only
    have hWt : ((wozCands cfg.Ax cfg.Ay wm1 hm1 x y).map
        (wP cfg ((a.slots (getCachePos a cfg.Az)).data) wm1 hm1 (x, y))).sum
        = zTermW cfg wm1 hm1 a (x, y) cfg.Az := by
      simp only [zTermW]
      rw [← htf, List.sum_toFinset _ hnodup, if_pos trivial]
    rw [d1, hWt, h6, hact, Finset.sum_insert hAznotm]
    ring
  · rw [updSlot_same]
    dsimp only
    have hSt : ((wozCands cfg.Ax cfg.Ay wm1 hm1 x y).map
        (fun q => (((a.slots (getCachePos a cfg.Az)).data q : ℝ))
          * wP cfg ((a.slots (getCachePos a cfg.Az)).data) wm1 hm1 (x, y) q)).sum
        = zTermS cfg wm1 hm1 a (x, y) cfg.Az := by
      simp only [zTermS]
      rw [← htf, List.sum_toFinset _ hnodup, if_pos trivial]
    rw [d2, hSt, h7, hact, Finset.sum_insert hAznotm]
    ring
  · rw [updSlot_same]
    dsimp only
    have hb0 : (0 : ℝ) ≤ (c.slots (getCachePos a cfg.Az)).ds.wmaxs (x, y) := by
      rw [h8]
      exact le_max_of_le_left hnnp
    have hMt : ((wozCands cfg.Ax cfg.Ay wm1 hm1 x y).map
        (wP cfg ((a.slots (getCachePos a cfg.Az)).data) wm1 hm1 (x, y))).foldl max 0
        = zTermM cfg wm1 hm1 a (x, y) cfg.Az := by
      rw [list_foldmax_toFinset _ hnodup _ (fun q _ => (wP_pos ..).le), htf]
      simp only [zTermM]
      rw [if_pos trivial]
    rw [d3, foldl_max_shift _ _ hb0 hwnn, hMt, h8, hact,
      Finset.fold_insert hAznotm, max3_swap]
  · intro r hr
    rw [updSlot_same]
    dsimp only
    obtain ⟨n1, n2, n3⟩ := h9 r hr
    rw [if_neg (fun hcon => hAznotm hcon.1)] at n1 n2
    rw [if_neg (fun hcon => hAznotm hcon.1)] at n3
    have hrp : r ≠ (x, y) := hr
    have hAzmem : cfg.Az ∈ activeIn cfg a startz (cfg.Az + 1) := by
      rw [hact]
      exact Finset.mem_insert_self _ _
    by_cases hrc : r ∈ causalSet cfg.Ax cfg.Ay wm1 hm1 (x, y)
    · have hrL : r ∈ wozCands cfg.Ax cfg.Ay wm1 hm1 x y := (hLiff r).mpr hrc
      obtain ⟨e1, e2, e3⟩ := d5 r hrp hrL
      refine ⟨?_, ?_, ?_⟩
      · rw [e1, n1, if_pos ⟨hAzmem, hrc⟩]
        ring
      · rw [e2, n2, if_pos ⟨hAzmem, hrc⟩]
        ring
      · rw [e3, n3, if_pos ⟨hAzmem, hrc⟩]
    · have hrL : r ∉ wozCands cfg.Ax cfg.Ay wm1 hm1 x y := fun h => hrc ((hLiff r).mp h)
      obtain ⟨e1, e2, e3⟩ := d4 r hrp hrL
      refine ⟨?_, ?_, ?_⟩
      · rw [e1, n1, if_neg (fun hcon => hrc hcon.2)]
      · rw [e2, n2, if_neg (fun hcon => hrc hcon.2)]
      · rw [e3, n3, if_neg (fun hcon => hrc hcon.2)]
  · intro z2 hz20 hz21 hz2A q
    have hzpos : getCachePos a z2 ≠ getCachePos a cfg.Az := by
      intro h
      exact hz2A (getCachePos_inj a hs0 hs1 hz20 hz21 hAz0 hAz1 h)
    rw [updSlot_other _ _ _ _ hzpos]
    have hz2iff : z2 ∈ activeIn cfg a startz (cfg.Az + 1)
        ↔ z2 ∈ activeIn cfg a startz cfg.Az := by
      rw [hact, Finset.mem_insert]
      exact or_iff_right hz2A
    obtain ⟨n1, n2, n3⟩ := h10 z2 hz20 hz21 hz2A q
    refine ⟨?_, ?_, ?_⟩
    · rw [n1, if_congr (and_congr hz2iff Iff.rfl) rfl rfl]
    · rw [n2, if_congr (and_congr hz2iff Iff.rfl) rfl rfl]
    · rw [n3, if_congr (and_congr hz2iff Iff.rfl) rfl rfl]
  · intro i hi
    have hbnds := getCachePos_bounds a (by omega) cfg.Az
    rw [updSlot_other _ _ _ _ (by omega)]
    exact h11 i hi

/-- Advancing the z loop over a cross slot (z ≠ Az, not skipped): the full
window is scanned, the d side accumulates into the center cell, and the c side
fires into slot z's cells unless the mirror flag says consumed. -/
theorem ZInv_step_cross (cfg : Cfg) (wm1 hm1 : ℤ) (x y : ℤ) (startz : ℤ) (a : Cache)
    (hs0 : 0 ≤ a.start_pos) (hs1 : a.start_pos < a.size)
    (hAz0 : 0 ≤ cfg.Az) (hAz1 : cfg.Az < a.size)
    (hnnp : 0 ≤ (a.slots (getCachePos a cfg.Az)).ds.wmaxs (x, y))
    (m : ℤ) (hm0 : 0 ≤ m) (hm1z : m < a.size) (hmA : m ≠ cfg.Az)
    (hstm : startz ≤ m)
    (hskip : (a.slots (getCachePos a cfg.Az)).dsa m ≠ 1)
    (c : Cache)
    (hInv : ZInv cfg wm1 hm1 (x, y) startz a m c) :
    ZInv cfg wm1 hm1 (x, y) startz a (m + 1) (wzZStep cfg wm1 hm1 (x, y) c m) := by
  obtain ⟨h1, h2, h3, h4, h5, h6, h7, h8, h9, h10, h11⟩ := hInv
  have hposc : ∀ t, getCachePos c t = getCachePos a t := fun t => getCachePos_congr h1 h2 t
  have hflag : (c.slots (getCachePos c cfg.Az)).dsa m
      = (a.slots (getCachePos a cfg.Az)).dsa m := by
    rw [hposc, h5 m, if_neg (by omega)]
  have hcskip : ¬ (c.slots (getCachePos c cfg.Az)).dsa m = 1 :=
    fun h => hskip (hflag.symm.trans h)
  have hneA : getCachePos a m ≠ getCachePos a cfg.Az :=
    fun h => hmA (getCachePos_inj a hs0 hs1 hm0 hm1z hAz0 hAz1 h)
  have hnodupL := winList_nodup cfg.Ax cfg.Ay wm1 hm1 x y
  have hres1 : wzZStep cfg wm1 hm1 (x, y) c m
      = (winList cfg.Ax cfg.Ay wm1 hm1 x y).foldl (wzCandStep cfg wm1 hm1 (x, y) m)
          (updSlot c (getCachePos c cfg.Az) (fun s =>
            { s with dsa := updZ s.dsa m 2 })) := by
    simp only [wzZStep]
    rw [if_neg hcskip, wzCands_cross _ _ _ _ _ _ _ _ hmA]
  have he1 : getCachePos (updSlot c (getCachePos a cfg.Az) (fun s =>
      { s with dsa := updZ s.dsa m 2 })) m = getCachePos a m := by
    rw [getCachePos_updSlot, hposc m]
  have he2 : getCachePos (updSlot c (getCachePos a cfg.Az) (fun s =>
      { s with dsa := updZ s.dsa m 2 })) cfg.Az = getCachePos a cfg.Az := by
    rw [getCachePos_updSlot, hposc cfg.Az]
  have hne1 : getCachePos (updSlot c (getCachePos a cfg.Az) (fun s =>
      { s with dsa := updZ s.dsa m 2 })) m
      ≠ getCachePos (updSlot c (getCachePos a cfg.Az) (fun s =>
      { s with dsa := updZ s.dsa m 2 })) cfg.Az := by
    rw [he1, he2]
    exact hneA
  have hF1 : ((updSlot c (getCachePos a cfg.Az) (fun s =>
      { s with dsa := updZ s.dsa m 2 })).slots
        (getCachePos (updSlot c (getCachePos a cfg.Az) (fun s =>
          { s with dsa := updZ s.dsa m 2 })) m)).data
      = (a.slots (getCachePos a m)).data := by
    rw [he1, updSlot_other _ _ _ _ hneA]
    exact (h3 _).2
  have hC1 : ((updSlot c (getCachePos a cfg.Az) (fun s =>
      { s with dsa := updZ s.dsa m 2 })).slots
        (getCachePos (updSlot c (getCachePos a cfg.Az) (fun s =>
          { s with dsa := updZ s.dsa m 2 })) cfg.Az)).data
      = (a.slots (getCachePos a cfg.Az)).data := by
    rw [he2, updSlot_same]
    exact (h3 _).2
  have hg1 : ((updSlot c (getCachePos a cfg.Az) (fun s =>
      { s with dsa := updZ s.dsa m 2 })).slots
        (getCachePos (updSlot c (getCachePos a cfg.Az) (fun s =>
          { s with dsa := updZ s.dsa m 2 })) m)).dsa (2 * cfg.Az - m)
      = (a.slots (getCachePos a m)).dsa (2 * cfg.Az - m) := by
    rw [he1, updSlot_other _ _ _ _ hneA]
    rw [h4 _ hneA]
  have hres2 : wzZStep cfg wm1 hm1 (x, y) c m
      = updSlot (updSlot c (getCachePos a cfg.Az) (fun s =>
          { s with
            ds := ((winList cfg.Ax cfg.Ay wm1 hm1 x y).foldl
              (fun d r => dStep cfg ((a.slots (getCachePos a m)).data)
                ((a.slots (getCachePos a cfg.Az)).data) wm1 hm1 (x, y) r d) s.ds),
            dsa := updZ s.dsa m 2 }))
          (getCachePos a m) (fun s =>
          { s with ds := (if (a.slots (getCachePos a m)).dsa (2 * cfg.Az - m) = 1 then s.ds
            else (winList cfg.Ax cfg.Ay wm1 hm1 x y).foldl
              (fun d r => cStep cfg ((a.slots (getCachePos a m)).data)
                ((a.slots (getCachePos a cfg.Az)).data) wm1 hm1 (x, y) r d) s.ds) }) := by
    rw [hres1, hposc cfg.Az]
    rw [wz_cross_fold cfg wm1 hm1 (x, y) m
      ((a.slots (getCachePos a m)).data) ((a.slots (getCachePos a cfg.Az)).data)
      ((a.slots (getCachePos a m)).dsa (2 * cfg.Az - m))
      (winList cfg.Ax cfg.Ay wm1 hm1 x y)
      (updSlot c (getCachePos a cfg.Az) (fun s => { s with dsa := updZ s.dsa m 2 }))
      hne1 hF1 hC1 hg1]
    rw [he1, he2, updSlot_updSlot]
  rw [hres2]
  obtain ⟨p1, p2, p3, p4⟩ := dStep_den cfg ((a.slots (getCachePos a m)).data)
    ((a.slots (getCachePos a cfg.Az)).data) wm1 hm1 (x, y)
    (winList cfg.Ax cfg.Ay wm1 hm1 x y) ((c.slots (getCachePos a cfg.Az)).ds)
  have hact := @activeIn_succ_mem cfg a startz m hstm hskip
  have hmnotm := @not_mem_activeIn_self cfg a startz m
  have hWt : ((winList cfg.Ax cfg.Ay wm1 hm1 x y).map
      (wZ cfg ((a.slots (getCachePos a m)).data)
        ((a.slots (getCachePos a cfg.Az)).data) wm1 hm1 (x, y))).sum
      = zTermW cfg wm1 hm1 a (x, y) m := by
    simp only [zTermW, crossW]
    rw [if_neg hmA, ← winList_toFinset, List.sum_toFinset _ hnodupL]
  have hSt : ((winList cfg.Ax cfg.Ay wm1 hm1 x y).map
      (fun q => (((a.slots (getCachePos a m)).data q : ℝ))
        * wZ cfg ((a.slots (getCachePos a m)).data)
          ((a.slots (getCachePos a cfg.Az)).data) wm1 hm1 (x, y) q)).sum
      = zTermS cfg wm1 hm1 a (x, y) m := by
    simp only [zTermS, crossS]
    rw [if_neg hmA, ← winList_toFinset, List.sum_toFinset _ hnodupL]
  have hMt : ((winList cfg.Ax cfg.Ay wm1 hm1 x y).map
      (wZ cfg ((a.slots (getCachePos a m)).data)
        ((a.slots (getCachePos a cfg.Az)).data) wm1 hm1 (x, y))).foldl max 0
      = zTermM cfg wm1 hm1 a (x, y) m := by
    rw [list_foldmax_toFinset _ hnodupL _ (fun q _ => (wZ_pos ..).le), winList_toFinset]
    simp only [zTermM, crossM]
    rw [if_neg hmA]
  have hwnnL : ∀ v ∈ (winList cfg.Ax cfg.Ay wm1 hm1 x y).map
      (wZ cfg ((a.slots (getCachePos a m)).data)
        ((a.slots (getCachePos a cfg.Az)).data) wm1 hm1 (x, y)), (0 : ℝ) ≤ v := by
    intro v hv
    rw [List.mem_map] at hv
    obtain ⟨q, _, rfl⟩ := hv
    exact (wZ_pos ..).le
  unfold ZInv
  refine ⟨h1, h2, ?_, ?_, ?_, ?_, ?_, ?_, ?_, ?_, ?_⟩
  · intro i
    by_cases hiZ : i = getCachePos a m
    · subst hiZ
      rw [updSlot_same, updSlot_other _ _ _ _ hneA]
      exact h3 _
    · rw [updSlot_other _ _ _ _ hiZ]
      by_cases hiA : i = getCachePos a cfg.Az
      · subst hiA
        rw [updSlot_same]
        exact h3 _
      · rw [updSlot_other _ _ _ _ hiA]
        exact h3 i
  · intro i hi
    by_cases hiZ : i = getCachePos a m
    · subst hiZ
      rw [updSlot_same, updSlot_other _ _ _ _ hneA]
      exact h4 _ hi
    · rw [updSlot_other _ _ _ _ hiZ, updSlot_other _ _ _ _ hi]
      exact h4 i hi
  · intro z2
    rw [updSlot_other _ _ _ _ (Ne.symm hneA), updSlot_same]
    dsimp only
    by_cases hz2 : z2 = m
    · subst hz2
      rw [updZ_same, if_pos ⟨hstm, by omega, hskip⟩]
    · rw [updZ_other _ _ _ _ hz2, h5 z2]
      have hiff : (startz ≤ z2 ∧ z2 < m + 1
          ∧ (a.slots (getCachePos a cfg.Az)).dsa z2 ≠ 1)
          ↔ (startz ≤ z2 ∧ z2 < m
          ∧ (a.slots (getCachePos a cfg.Az)).dsa z2 ≠ 1) := by
        constructor <;> rintro ⟨u1, u2, u3⟩ <;> exact ⟨u1, by omega, u3⟩
      rw [if_congr hiff rfl rfl]
  · rw [updSlot_other _ _ _ _ (Ne.symm hneA), updSlot_same]
    dsimp only
    rw [p1, hWt, h6, hact, Finset.sum_insert hmnotm]
    ring
  · rw [updSlot_other _ _ _ _ (Ne.symm hneA), updSlot_same]
    dsimp only
    rw [p2, hSt, h7, hact, Finset.sum_insert hmnotm]
    ring
  · rw [updSlot_other _ _ _ _ (Ne.symm hneA), updSlot_same]
    dsimp only
    have hb0 : (0 : ℝ) ≤ (c.slots (getCachePos a cfg.Az)).ds.wmaxs (x, y) := by
      rw [h8]
      exact le_max_of_le_left hnnp
    rw [p3, foldl_max_shift _ _ hb0 hwnnL, hMt, h8, hact,
      Finset.fold_insert hmnotm, max3_swap]
  · intro r hr
    rw [updSlot_other _ _ _ _ (Ne.symm hneA), updSlot_same]
    dsimp only
    obtain ⟨e1, e2, e3⟩ := p4 r hr
    obtain ⟨n1, n2, n3⟩ := h9 r hr
    have hAziff : (cfg.Az ∈ activeIn cfg a startz (m + 1)
        ∧ r ∈ causalSet cfg.Ax cfg.Ay wm1 hm1 (x, y))
        ↔ (cfg.Az ∈ activeIn cfg a startz m
        ∧ r ∈ causalSet cfg.Ax cfg.Ay wm1 hm1 (x, y)) := by
      refine and_congr ?_ Iff.rfl
      rw [hact, Finset.mem_insert]
      exact or_iff_right (fun h => hmA h.symm)
    refine ⟨?_, ?_, ?_⟩
    · rw [e1, n1, if_congr hAziff rfl rfl]
    · rw [e2, n2, if_congr hAziff rfl rfl]
    · rw [e3, n3, if_congr hAziff rfl rfl]
  · intro z2 hz20 hz21 hz2A q
    by_cases hz2m : z2 = m
    · subst hz2m
      rw [updSlot_same, updSlot_other _ _ _ _ hneA]
      dsimp only
      obtain ⟨n1, n2, n3⟩ := h10 z2 hz20 hz21 hz2A q
      rw [if_neg (fun hcon => hmnotm hcon.1)] at n1 n2
      rw [if_neg (fun hcon => hmnotm hcon.1)] at n3
      have hz2mem : z2 ∈ activeIn cfg a startz (z2 + 1) := by
        rw [hact]
        exact Finset.mem_insert_self _ _
      by_cases hg : (a.slots (getCachePos a z2)).dsa (2 * cfg.Az - z2) = 1
      · rw [if_pos hg]
        refine ⟨?_, ?_, ?_⟩
        · rw [n1, if_neg (fun hcon => hcon.2.1 hg)]
        · rw [n2, if_neg (fun hcon => hcon.2.1 hg)]
        · rw [n3, if_neg (fun hcon => hcon.2.1 hg)]
      · rw [if_neg hg]
        obtain ⟨q1, q2⟩ := cStep_den cfg ((a.slots (getCachePos a z2)).data)
          ((a.slots (getCachePos a cfg.Az)).data) wm1 hm1 (x, y)
          (winList cfg.Ax cfg.Ay wm1 hm1 x y) hnodupL ((c.slots (getCachePos a z2)).ds)
        by_cases hqw : q ∈ winF cfg.Ax cfg.Ay wm1 hm1 (x, y)
        · have hqL : q ∈ winList cfg.Ax cfg.Ay wm1 hm1 x y := mem_winList.mpr hqw
          obtain ⟨e1, e2, e3⟩ := q2 q hqL
          refine ⟨?_, ?_, ?_⟩
          · rw [e1, n1, if_pos ⟨hz2mem, hg, hqw⟩]
            ring
          · rw [e2, n2, if_pos ⟨hz2mem, hg, hqw⟩]
            ring
          · rw [e3, n3, if_pos ⟨hz2mem, hg, hqw⟩]
        · have hqL : q ∉ winList cfg.Ax cfg.Ay wm1 hm1 x y :=
            fun h => hqw (mem_winList.mp h)
          obtain ⟨e1, e2, e3⟩ := q1 q hqL
          refine ⟨?_, ?_, ?_⟩
          · rw [e1, n1, if_neg (fun hcon => hqw hcon.2.2)]
          · rw [e2, n2, if_neg (fun hcon => hqw hcon.2.2)]
          · rw [e3, n3, if_neg (fun hcon => hqw hcon.2.2)]
    · have hzpos : getCachePos a z2 ≠ getCachePos a m := by
        intro h
        exact hz2m (getCachePos_inj a hs0 hs1 hz20 hz21 hm0 hm1z h)
      have hzposA : getCachePos a z2 ≠ getCachePos a cfg.Az := by
        intro h
        exact hz2A (getCachePos_inj a hs0 hs1 hz20 hz21 hAz0 hAz1 h)
      rw [updSlot_other _ _ _ _ hzpos, updSlot_other _ _ _ _ hzposA]
      obtain ⟨n1, n2, n3⟩ := h10 z2 hz20 hz21 hz2A q
      have hz2iff : z2 ∈ activeIn cfg a startz (m + 1)
          ↔ z2 ∈ activeIn cfg a startz m := by
        rw [hact, Finset.mem_insert]
        exact or_iff_right hz2m
      refine ⟨?_, ?_, ?_⟩
      · rw [n1, if_congr (and_congr hz2iff Iff.rfl) rfl rfl]
      · rw [n2, if_congr (and_congr hz2iff Iff.rfl) rfl rfl]
      · rw [n3, if_congr (and_congr hz2iff Iff.rfl) rfl rfl]
  · intro i hi
    have hb1 := getCachePos_bounds a (by omega) cfg.Az
    have hb2 := getCachePos_bounds a (by omega) m
    rw [updSlot_other _ _ _ _ (by omega), updSlot_other _ _ _ _ (by omega)]
    exact h11 i hi

/-- The whole z loop of one pixel. -/
theorem zloop_den (cfg : Cfg) (wm1 hm1 : ℤ) (x y : ℤ) (startz stopz : ℤ) (a : Cache)
    (hAx : 0 ≤ cfg.Ax) (hAy : 0 ≤ cfg.Ay)
    (hx0 : 0 ≤ x) (hx1 : x ≤ wm1) (hy0 : 0 ≤ y) (hy1 : y ≤ hm1)
    (hs0 : 0 ≤ a.start_pos) (hs1 : a.start_pos < a.size)
    (hAz0 : 0 ≤ cfg.Az) (hAz1 : cfg.Az < a.size)
    (hz0 : 0 ≤ startz) (hz1 : stopz < a.size) (hzz : startz ≤ stopz + 1)
    (hnnp : 0 ≤ (a.slots (getCachePos a cfg.Az)).ds.wmaxs (x, y)) :
    ZInv cfg wm1 hm1 (x, y) startz a (stopz + 1)
      ((intRange startz stopz).foldl (wzZStep cfg wm1 hm1 (x, y)) a) := by
  refine intRange_foldl_inv _ (fun m c => ZInv cfg wm1 hm1 (x, y) startz a m c)
    startz stopz hzz ?_ a (ZInv_init cfg wm1 hm1 (x, y) startz a hnnp)
  intro m c hm0 hm1z hInv
  by_cases hskip : (a.slots (getCachePos a cfg.Az)).dsa m = 1
  · exact ZInv_step_skip cfg wm1 hm1 x y startz a m c hskip hInv
  · by_cases hmA : m = cfg.Az
    · subst hmA
      exact ZInv_step_center cfg wm1 hm1 x y startz a hAx hAy hx0 hx1 hy0 hy1
        hs0 hs1 hAz0 hAz1 hnnp hm0 hskip c hInv
    · exact ZInv_step_cross cfg wm1 hm1 x y startz a hs0 hs1 hAz0 hAz1 hnnp
        m (by omega) (by omega) hmA hm0 hskip c hInv

/-! ### The row-major sweep of `GetFrameWZ` -/

/-- The pixels of q's window already processed when the sweep cut is at `cut`
(mirror contributions received by cross-slot cell q so far). -/
def anteSet (Ax Ay wm1 hm1 : ℤ) (q cut : ℤ × ℤ) : Finset (ℤ × ℤ) :=
  (winF Ax Ay wm1 hm1 q).filter (fun r => before r cut)

theorem mem_anteSet {Ax Ay wm1 hm1 : ℤ} {q cut r : ℤ × ℤ} :
    r ∈ anteSet Ax Ay wm1 hm1 q cut ↔ r ∈ winF Ax Ay wm1 hm1 q ∧ before r cut :=
  Finset.mem_filter

/-- Total weight of slot z's full contribution to output pixel p: the
brute-force spatial reference for the center slot, the full-window cross term
otherwise. -/
noncomputable def zOutW (cfg : Cfg) (wm1 hm1 : ℤ) (b : Cache) (p : ℤ × ℤ) (z : ℤ) : ℝ :=
  if z = cfg.Az then refWeight cfg ((b.slots (getCachePos b cfg.Az)).data) wm1 hm1 p
  else crossW cfg ((b.slots (getCachePos b z)).data)
    ((b.slots (getCachePos b cfg.Az)).data) wm1 hm1 p

/-- Weighted-sum form of `zOutW`. -/
noncomputable def zOutS (cfg : Cfg) (wm1 hm1 : ℤ) (b : Cache) (p : ℤ × ℤ) (z : ℤ) : ℝ :=
  if z = cfg.Az then refSum cfg ((b.slots (getCachePos b cfg.Az)).data) wm1 hm1 p
  else crossS cfg ((b.slots (getCachePos b z)).data)
    ((b.slots (getCachePos b cfg.Az)).data) wm1 hm1 p

/-- Maximum-weight form of `zOutW`. -/
noncomputable def zOutM (cfg : Cfg) (wm1 hm1 : ℤ) (b : Cache) (p : ℤ × ℤ) (z : ℤ) : ℝ :=
  if z = cfg.Az then refWmax cfg ((b.slots (getCachePos b cfg.Az)).data) wm1 hm1 p
  else crossM cfg ((b.slots (getCachePos b z)).data)
    ((b.slots (getCachePos b cfg.Az)).data) wm1 hm1 p

/-- The output value of pixel p of one `GetFrameWZ` pixel loop whose entry
cache is b: the center slot's carried-over accumulator cell, plus one full
term per non-skipped slot in `[startz, stopz]`, plus the `selfW` self term,
normalized, rounded and clamped. -/
noncomputable def wzOut (cfg : Cfg) (wm1 hm1 startz stopz : ℤ) (b : Cache)
    (p : ℤ × ℤ) : ℤ :=
  clamp255
    ((((b.slots (getCachePos b cfg.Az)).ds.sums p
        + ∑ z ∈ activeIn cfg b startz (stopz + 1), zOutS cfg wm1 hm1 b p z)
      + ((b.slots (getCachePos b cfg.Az)).data p : ℝ)
        * selfW (max ((b.slots (getCachePos b cfg.Az)).ds.wmaxs p)
            ((activeIn cfg b startz (stopz + 1)).fold max 0 (zOutM cfg wm1 hm1 b p))))
      / (((b.slots (getCachePos b cfg.Az)).ds.weights p
        + ∑ z ∈ activeIn cfg b startz (stopz + 1), zOutW cfg wm1 hm1 b p z)
      + selfW (max ((b.slots (getCachePos b cfg.Az)).ds.wmaxs p)
            ((activeIn cfg b startz (stopz + 1)).fold max 0 (zOutM cfg wm1 hm1 b p)))))

/-- The row-major sweep invariant of the `GetFrameWZ` pixel loop, relative to
the entry cache b: processed pixels carry their final output; the center
slot's unprocessed cells carry the entry value plus the processed half of
their symmetric spatial contributions; open cross slots carry one mirror
contribution per processed window pixel; flags of scanned slots read 2. -/
def WzInv (cfg : Cfg) (wm1 hm1 startz stopz : ℤ) (b : Cache) (cut : ℤ × ℤ)
    (st : Cache × Pic) : Prop :=
  (∀ r, 0 ≤ (st.1.slots (getCachePos b cfg.Az)).ds.wmaxs r) ∧
  (∀ i, i < 0 ∨ b.size ≤ i → st.1.slots i = b.slots i) ∧
  (st.1.start_pos = b.start_pos ∧ st.1.size = b.size) ∧
  (∀ i, (st.1.slots i).fnum = (b.slots i).fnum ∧ (st.1.slots i).data = (b.slots i).data) ∧
  (∀ i, i ≠ getCachePos b cfg.Az → (st.1.slots i).dsa = (b.slots i).dsa) ∧
  (∀ z, (st.1.slots (getCachePos b cfg.Az)).dsa z
    = if startz ≤ z ∧ z ≤ stopz ∧ (b.slots (getCachePos b cfg.Az)).dsa z ≠ 1
        ∧ before (0, 0) cut then 2
      else (b.slots (getCachePos b cfg.Az)).dsa z) ∧
  (∀ r ∈ dom wm1 hm1, ¬ before r cut →
    ((st.1.slots (getCachePos b cfg.Az)).ds.weights r
      = (b.slots (getCachePos b cfg.Az)).ds.weights r
        + (if startz ≤ cfg.Az ∧ cfg.Az ≤ stopz
            ∧ (b.slots (getCachePos b cfg.Az)).dsa cfg.Az ≠ 1
          then ∑ q ∈ halfSet cfg.Ax cfg.Ay wm1 hm1 r cut,
            wP cfg ((b.slots (getCachePos b cfg.Az)).data) wm1 hm1 r q else 0)) ∧
    ((st.1.slots (getCachePos b cfg.Az)).ds.sums r
      = (b.slots (getCachePos b cfg.Az)).ds.sums r
        + (if startz ≤ cfg.Az ∧ cfg.Az ≤ stopz
            ∧ (b.slots (getCachePos b cfg.Az)).dsa cfg.Az ≠ 1
          then ∑ q ∈ halfSet cfg.Ax cfg.Ay wm1 hm1 r cut,
            (((b.slots (getCachePos b cfg.Az)).data q : ℝ)
              * wP cfg ((b.slots (getCachePos b cfg.Az)).data) wm1 hm1 r q) else 0)) ∧
    ((st.1.slots (getCachePos b cfg.Az)).ds.wmaxs r
      = if startz ≤ cfg.Az ∧ cfg.Az ≤ stopz
            ∧ (b.slots (getCachePos b cfg.Az)).dsa cfg.Az ≠ 1
        then max ((b.slots (getCachePos b cfg.Az)).ds.wmaxs r)
          ((halfSet cfg.Ax cfg.Ay wm1 hm1 r cut).fold max 0
            (wP cfg ((b.slots (getCachePos b cfg.Az)).data) wm1 hm1 r))
        else (b.slots (getCachePos b cfg.Az)).ds.wmaxs r)) ∧
  (∀ z, 0 ≤ z → z < b.size → z ≠ cfg.Az → ∀ q,
    ((st.1.slots (getCachePos b z)).ds.weights q
      = (b.slots (getCachePos b z)).ds.weights q
        + (if startz ≤ z ∧ z ≤ stopz ∧ (b.slots (getCachePos b cfg.Az)).dsa z ≠ 1
            ∧ (b.slots (getCachePos b z)).dsa (2 * cfg.Az - z) ≠ 1 ∧ q ∈ dom wm1 hm1
          then ∑ r ∈ anteSet cfg.Ax cfg.Ay wm1 hm1 q cut,
            wZ cfg ((b.slots (getCachePos b z)).data)
              ((b.slots (getCachePos b cfg.Az)).data) wm1 hm1 r q else 0)) ∧
    ((st.1.slots (getCachePos b z)).ds.sums q
      = (b.slots (getCachePos b z)).ds.sums q
        + (if startz ≤ z ∧ z ≤ stopz ∧ (b.slots (getCachePos b cfg.Az)).dsa z ≠ 1
            ∧ (b.slots (getCachePos b z)).dsa (2 * cfg.Az - z) ≠ 1 ∧ q ∈ dom wm1 hm1
          then ∑ r ∈ anteSet cfg.Ax cfg.Ay wm1 hm1 q cut,
            (((b.slots (getCachePos b cfg.Az)).data r : ℝ)
              * wZ cfg ((b.slots (getCachePos b z)).data)
                ((b.slots (getCachePos b cfg.Az)).data) wm1 hm1 r q) else 0)) ∧
    ((st.1.slots (getCachePos b z)).ds.wmaxs q
      = if startz ≤ z ∧ z ≤ stopz ∧ (b.slots (getCachePos b cfg.Az)).dsa z ≠ 1
            ∧ (b.slots (getCachePos b z)).dsa (2 * cfg.Az - z) ≠ 1 ∧ q ∈ dom wm1 hm1
        then max ((b.slots (getCachePos b z)).ds.wmaxs q)
          ((anteSet cfg.Ax cfg.Ay wm1 hm1 q cut).fold max 0
            (fun r => wZ cfg ((b.slots (getCachePos b z)).data)
              ((b.slots (getCachePos b cfg.Az)).data) wm1 hm1 r q))
        else (b.slots (getCachePos b z)).ds.wmaxs q)) ∧
  (∀ r ∈ dom wm1 hm1, before r cut →
    st.2 r = wzOut cfg wm1 hm1 startz stopz b r) ∧
  (∀ r, ¬ (r ∈ dom wm1 hm1 ∧ before r cut) → st.2 r = 0)

theorem anteSet_empty_cut {Ax Ay wm1 hm1 : ℤ} (q : ℤ × ℤ) (hAx : 0 ≤ Ax) (hAy : 0 ≤ Ay) :
    anteSet Ax Ay wm1 hm1 q (0, 0) = ∅ := by
  apply Finset.eq_empty_of_forall_not_mem
  intro r hr
  rw [mem_anteSet] at hr
  have hrd := winF_subset_dom hr.1
  rw [mem_dom] at hrd
  have hb := hr.2
  unfold before at hb
  dsimp only at hb
  omega

theorem WzInv_init (cfg : Cfg) (wm1 hm1 startz stopz : ℤ) (b : Cache)
    (hAx : 0 ≤ cfg.Ax) (hAy : 0 ≤ cfg.Ay)
    (hbnn : ∀ i r, 0 ≤ (b.slots i).ds.wmaxs r) :
    WzInv cfg wm1 hm1 startz stopz b (0, 0) (b, fun _ => 0) := by
  have hb00 : ∀ r : ℤ × ℤ, r ∈ dom wm1 hm1 → ¬ before r (0, 0) := by
    intro r hr hb
    rw [mem_dom] at hr
    unfold before at hb
    dsimp only at hb
    omega
  have hnb : ¬ before ((0 : ℤ), (0 : ℤ)) (0, 0) := before_irrefl _
  refine ⟨fun r => hbnn _ r, fun i _ => rfl, ⟨rfl, rfl⟩, fun i => ⟨rfl, rfl⟩,
    fun i _ => rfl, ?_, ?_, ?_, ?_, ?_⟩
  · intro z
    rw [if_neg (fun hcon => hnb hcon.2.2.2)]
  · intro r hr _
    have hhalf : halfSet cfg.Ax cfg.Ay wm1 hm1 r (0, 0) = ∅ := by
      apply Finset.eq_empty_of_forall_not_mem
      intro q hq
      have hqd := winF_subset_dom (Finset.mem_of_mem_erase (mem_halfSet.mp hq).1)
      exact hb00 q hqd (mem_halfSet.mp hq).2
    rw [hhalf]
    refine ⟨?_, ?_, ?_⟩
    · simp
    · simp
    · simp only [Finset.fold_empty]
      by_cases hAct : startz ≤ cfg.Az ∧ cfg.Az ≤ stopz
          ∧ (b.slots (getCachePos b cfg.Az)).dsa cfg.Az ≠ 1
      · rw [if_pos hAct, max_eq_left (hbnn _ r)]
      · rw [if_neg hAct]
  · intro z _ _ _ q
    rw [anteSet_empty_cut q hAx hAy]
    refine ⟨?_, ?_, ?_⟩
    · simp
    · simp
    · simp only [Finset.fold_empty]
      by_cases hAct : startz ≤ z ∧ z ≤ stopz
          ∧ (b.slots (getCachePos b cfg.Az)).dsa z ≠ 1
          ∧ (b.slots (getCachePos b z)).dsa (2 * cfg.Az - z) ≠ 1 ∧ q ∈ dom wm1 hm1
      · rw [if_pos hAct, max_eq_left (hbnn _ q)]
      · rw [if_neg hAct]
  · intro r hr hb
    exact absurd hb (hb00 r hr)
  · intro r _
    rfl

theorem max4_regroup (a b c d : ℝ) : max (max a b) (max c d) = max a (max (max b c) d) := by
  rw [max_assoc, max_assoc b c d]

/-- One pixel of the temporal sweep preserves the invariant. -/
theorem wz_pixel_step (cfg : Cfg) (wm1 hm1 startz stopz : ℤ) (b : Cache)
    (hAx : 0 ≤ cfg.Ax) (hAy : 0 ≤ cfg.Ay)
    (hbs0 : 0 ≤ b.start_pos) (hbs1 : b.start_pos < b.size)
    (hAz0 : 0 ≤ cfg.Az) (hAz1 : cfg.Az < b.size)
    (hz0 : 0 ≤ startz) (hz1 : stopz < b.size) (hzz : startz ≤ stopz + 1)
    (hbnn : ∀ i r, 0 ≤ (b.slots i).ds.wmaxs r)
    (numFrames n : ℤ)
    (hsz : startzOf cfg.Az n = startz) (hpz : stopzOf cfg.Az numFrames n = stopz)
    (x y : ℤ) (hx0 : 0 ≤ x) (hx1 : x ≤ wm1) (hy0 : 0 ≤ y) (hy1 : y ≤ hm1)
    (st : Cache × Pic) (hInv : WzInv cfg wm1 hm1 startz stopz b (x, y) st) :
    WzInv cfg wm1 hm1 startz stopz b (x + 1, y)
      (wzPixel cfg numFrames wm1 hm1 n st (x, y)) := by
  have hpdom : (x, y) ∈ dom wm1 hm1 := by
    rw [mem_dom]
    exact ⟨hx0, hx1, hy0, hy1⟩
  obtain ⟨hC0, hC0b, ⟨hC1s, hC1z⟩, hC2, hC3, hC4, hC5, hC6, hC7, hC8⟩ := hInv
  have hposa : ∀ t, getCachePos st.1 t = getCachePos b t :=
    fun t => getCachePos_congr hC1s hC1z t
  have hszb : 0 < b.size := by omega
  set A := (intRange startz stopz).foldl (wzZStep cfg wm1 hm1 (x, y)) st.1 with hA
  have hZ := zloop_den cfg wm1 hm1 x y startz stopz st.1 hAx hAy hx0 hx1 hy0 hy1
    (by omega) (by omega) hAz0 (by omega) hz0 (by omega) hzz
    (by rw [hposa cfg.Az]; exact hC0 (x, y))
  rw [← hA] at hZ
  obtain ⟨z1, z2, z3, z4, z5, z6, z7, z8, z9, z10, z11⟩ := hZ
  have hposA : ∀ t, getCachePos A t = getCachePos b t :=
    fun t => getCachePos_congr (z1.trans hC1s) (z2.trans hC1z) t
  have hdataA : ∀ i, (A.slots i).data = (b.slots i).data :=
    fun i => ((z3 i).2).trans ((hC2 i).2)
  have hfnumA : ∀ i, (A.slots i).fnum = (b.slots i).fnum :=
    fun i => ((z3 i).1).trans ((hC2 i).1)
  have hiff1 : ∀ z, startz ≤ z → z ≤ stopz →
      ((st.1.slots (getCachePos st.1 cfg.Az)).dsa z ≠ 1
        ↔ (b.slots (getCachePos b cfg.Az)).dsa z ≠ 1) := by
    intro z u1 u2
    rw [hposa cfg.Az, hC4 z]
    by_cases hcond : startz ≤ z ∧ z ≤ stopz
        ∧ (b.slots (getCachePos b cfg.Az)).dsa z ≠ 1 ∧ before (0, 0) (x, y)
    · rw [if_pos hcond]
      constructor
      · intro _
        exact hcond.2.2.1
      · intro _
        norm_num
    · rw [if_neg hcond]
  have hActEq : activeIn cfg st.1 startz (stopz + 1)
      = activeIn cfg b startz (stopz + 1) := by
    unfold activeIn
    apply Finset.filter_congr
    intro z hz
    rw [Finset.mem_Icc] at hz
    exact hiff1 z hz.1 (by omega)
  have hmemActB : ∀ z, z ∈ activeIn cfg b startz (stopz + 1)
      ↔ (startz ≤ z ∧ z ≤ stopz
        ∧ (b.slots (getCachePos b cfg.Az)).dsa z ≠ 1) := by
    intro z
    rw [mem_activeIn]
    constructor <;> rintro ⟨u1, u2, u3⟩ <;> exact ⟨u1, by omega, u3⟩
  have hTermW : ∀ z, zTermW cfg wm1 hm1 st.1 (x, y) z = zTermW cfg wm1 hm1 b (x, y) z := by
    intro z
    unfold zTermW
    rw [hposa cfg.Az, hposa z, (hC2 (getCachePos b cfg.Az)).2, (hC2 (getCachePos b z)).2]
  have hTermS : ∀ z, zTermS cfg wm1 hm1 st.1 (x, y) z = zTermS cfg wm1 hm1 b (x, y) z := by
    intro z
    unfold zTermS
    rw [hposa cfg.Az, hposa z, (hC2 (getCachePos b cfg.Az)).2, (hC2 (getCachePos b z)).2]
  have hTermM : ∀ z, zTermM cfg wm1 hm1 st.1 (x, y) z = zTermM cfg wm1 hm1 b (x, y) z := by
    intro z
    unfold zTermM
    rw [hposa cfg.Az, hposa z, (hC2 (getCachePos b cfg.Az)).2, (hC2 (getCachePos b z)).2]
  obtain ⟨c5w, c5s, c5m⟩ := hC5 (x, y) hpdom (before_irrefl (x, y))
  -- the three center-cell totals of pixel p at the end of its z loop
  have hval_w : (A.slots (getCachePos b cfg.Az)).ds.weights (x, y)
      = (b.slots (getCachePos b cfg.Az)).ds.weights (x, y)
        + ∑ z ∈ activeIn cfg b startz (stopz + 1), zOutW cfg wm1 hm1 b (x, y) z := by
    rw [hposa cfg.Az] at z6
    rw [z6, hActEq, Finset.sum_congr rfl (fun z _ => hTermW z), c5w]
    by_cases hAzAct : startz ≤ cfg.Az ∧ cfg.Az ≤ stopz
        ∧ (b.slots (getCachePos b cfg.Az)).dsa cfg.Az ≠ 1
    · rw [if_pos hAzAct]
      have hAzmem : cfg.Az ∈ activeIn cfg b startz (stopz + 1) :=
        (hmemActB cfg.Az).mpr hAzAct
      rw [← Finset.add_sum_erase _ _ hAzmem, ← Finset.add_sum_erase _ _ hAzmem]
      have herase : ∀ z ∈ (activeIn cfg b startz (stopz + 1)).erase cfg.Az,
          zTermW cfg wm1 hm1 b (x, y) z = zOutW cfg wm1 hm1 b (x, y) z := by
        intro z hz
        have hzA := Finset.ne_of_mem_erase hz
        unfold zTermW zOutW
        rw [if_neg hzA, if_neg hzA]
      rw [Finset.sum_congr rfl herase]
      have hcaus : zTermW cfg wm1 hm1 b (x, y) cfg.Az
          = ∑ q ∈ causalSet cfg.Ax cfg.Ay wm1 hm1 (x, y),
              wP cfg ((b.slots (getCachePos b cfg.Az)).data) wm1 hm1 (x, y) q := by
        simp only [zTermW]
        rw [if_pos trivial]
      have href : zOutW cfg wm1 hm1 b (x, y) cfg.Az
          = (∑ q ∈ halfSet cfg.Ax cfg.Ay wm1 hm1 (x, y) (x, y),
              wP cfg ((b.slots (getCachePos b cfg.Az)).data) wm1 hm1 (x, y) q)
            + ∑ q ∈ causalSet cfg.Ax cfg.Ay wm1 hm1 (x, y),
              wP cfg ((b.slots (getCachePos b cfg.Az)).data) wm1 hm1 (x, y) q := by
        simp only [zOutW]
        rw [if_pos trivial, refWeight, erase_eq_half_union_causal,
          Finset.sum_union (half_causal_disjoint cfg.Ax cfg.Ay wm1 hm1 (x, y))]
      rw [hcaus, href]
      ring
    · rw [if_neg hAzAct]
      have hnoAz : ∀ z ∈ activeIn cfg b startz (stopz + 1),
          zTermW cfg wm1 hm1 b (x, y) z = zOutW cfg wm1 hm1 b (x, y) z := by
        intro z hz
        have hzA : z ≠ cfg.Az := by
          intro h
          subst h
          exact hAzAct ((hmemActB _).mp hz)
        unfold zTermW zOutW
        rw [if_neg hzA, if_neg hzA]
      rw [Finset.sum_congr rfl hnoAz]
      ring
  have hval_s : (A.slots (getCachePos b cfg.Az)).ds.sums (x, y)
      = (b.slots (getCachePos b cfg.Az)).ds.sums (x, y)
        + ∑ z ∈ activeIn cfg b startz (stopz + 1), zOutS cfg wm1 hm1 b (x, y) z := by
    rw [hposa cfg.Az] at z7
    rw [z7, hActEq, Finset.sum_congr rfl (fun z _ => hTermS z), c5s]
    by_cases hAzAct : startz ≤ cfg.Az ∧ cfg.Az ≤ stopz
        ∧ (b.slots (getCachePos b cfg.Az)).dsa cfg.Az ≠ 1
    · rw [if_pos hAzAct]
      have hAzmem : cfg.Az ∈ activeIn cfg b startz (stopz + 1) :=
        (hmemActB cfg.Az).mpr hAzAct
      rw [← Finset.add_sum_erase _ _ hAzmem, ← Finset.add_sum_erase _ _ hAzmem]
      have herase : ∀ z ∈ (activeIn cfg b startz (stopz + 1)).erase cfg.Az,
          zTermS cfg wm1 hm1 b (x, y) z = zOutS cfg wm1 hm1 b (x, y) z := by
        intro z hz
        have hzA := Finset.ne_of_mem_erase hz
        unfold zTermS zOutS
        rw [if_neg hzA, if_neg hzA]
      rw [Finset.sum_congr rfl herase]
      have hcaus : zTermS cfg wm1 hm1 b (x, y) cfg.Az
          = ∑ q ∈ causalSet cfg.Ax cfg.Ay wm1 hm1 (x, y),
              (((b.slots (getCachePos b cfg.Az)).data q : ℝ)
                * wP cfg ((b.slots (getCachePos b cfg.Az)).data) wm1 hm1 (x, y) q) := by
        simp only [zTermS]
        rw [if_pos trivial]
      have href : zOutS cfg wm1 hm1 b (x, y) cfg.Az
          = (∑ q ∈ halfSet cfg.Ax cfg.Ay wm1 hm1 (x, y) (x, y),
              (((b.slots (getCachePos b cfg.Az)).data q : ℝ)
                * wP cfg ((b.slots (getCachePos b cfg.Az)).data) wm1 hm1 (x, y) q))
            + ∑ q ∈ causalSet cfg.Ax cfg.Ay wm1 hm1 (x, y),
              (((b.slots (getCachePos b cfg.Az)).data q : ℝ)
                * wP cfg ((b.slots (getCachePos b cfg.Az)).data) wm1 hm1 (x, y) q) := by
        simp only [zOutS]
        rw [if_pos trivial, refSum, erase_eq_half_union_causal,
          Finset.sum_union (half_causal_disjoint cfg.Ax cfg.Ay wm1 hm1 (x, y))]
      rw [hcaus, href]
      ring
    · rw [if_neg hAzAct]
      have hnoAz : ∀ z ∈ activeIn cfg b startz (stopz + 1),
          zTermS cfg wm1 hm1 b (x, y) z = zOutS cfg wm1 hm1 b (x, y) z := by
        intro z hz
        have hzA : z ≠ cfg.Az := by
          intro h
          subst h
          exact hAzAct ((hmemActB _).mp hz)
        unfold zTermS zOutS
        rw [if_neg hzA, if_neg hzA]
      rw [Finset.sum_congr rfl hnoAz]
      ring
  have hval_m : (A.slots (getCachePos b cfg.Az)).ds.wmaxs (x, y)
      = max ((b.slots (getCachePos b cfg.Az)).ds.wmaxs (x, y))
          ((activeIn cfg b startz (stopz + 1)).fold max 0 (zOutM cfg wm1 hm1 b (x, y))) := by
    rw [hposa cfg.Az] at z8
    rw [z8, hActEq, Finset.fold_congr (fun z _ => hTermM z), c5m]
    by_cases hAzAct : startz ≤ cfg.Az ∧ cfg.Az ≤ stopz
        ∧ (b.slots (getCachePos b cfg.Az)).dsa cfg.Az ≠ 1
    · rw [if_pos hAzAct]
      have hAzmem : cfg.Az ∈ activeIn cfg b startz (stopz + 1) :=
        (hmemActB cfg.Az).mpr hAzAct
      rw [← Finset.insert_erase hAzmem, Finset.fold_insert (Finset.not_mem_erase _ _),
        Finset.fold_insert (Finset.not_mem_erase _ _)]
      have herase : ((activeIn cfg b startz (stopz + 1)).erase cfg.Az).fold max 0
            (zTermM cfg wm1 hm1 b (x, y))
          = ((activeIn cfg b startz (stopz + 1)).erase cfg.Az).fold max 0
            (zOutM cfg wm1 hm1 b (x, y)) := by
        apply Finset.fold_congr
        intro z hz
        have hzA := Finset.ne_of_mem_erase hz
        unfold zTermM zOutM
        rw [if_neg hzA, if_neg hzA]
      rw [herase]
      have hcaus : zTermM cfg wm1 hm1 b (x, y) cfg.Az
          = (causalSet cfg.Ax cfg.Ay wm1 hm1 (x, y)).fold max 0
              (wP cfg ((b.slots (getCachePos b cfg.Az)).data) wm1 hm1 (x, y)) := by
        simp only [zTermM]
        rw [if_pos trivial]
      have href : zOutM cfg wm1 hm1 b (x, y) cfg.Az
          = max ((halfSet cfg.Ax cfg.Ay wm1 hm1 (x, y) (x, y)).fold max 0
              (wP cfg ((b.slots (getCachePos b cfg.Az)).data) wm1 hm1 (x, y)))
            ((causalSet cfg.Ax cfg.Ay wm1 hm1 (x, y)).fold max 0
              (wP cfg ((b.slots (getCachePos b cfg.Az)).data) wm1 hm1 (x, y))) := by
        simp only [zOutM]
        rw [if_pos trivial, refWmax, erase_eq_half_union_causal,
          foldmax_union_disjoint _ _ _ (half_causal_disjoint cfg.Ax cfg.Ay wm1 hm1 (x, y))]
      rw [hcaus, href, max4_regroup]
    · rw [if_neg hAzAct]
      have hnoAz : (activeIn cfg b startz (stopz + 1)).fold max 0
            (zTermM cfg wm1 hm1 b (x, y))
          = (activeIn cfg b startz (stopz + 1)).fold max 0
            (zOutM cfg wm1 hm1 b (x, y)) := by
        apply Finset.fold_congr
        intro z hz
        have hzA : z ≠ cfg.Az := by
          intro h
          subst h
          exact hAzAct ((hmemActB _).mp hz)
        unfold zTermM zOutM
        rw [if_neg hzA, if_neg hzA]
      rw [hnoAz]
  -- the pixel in explicit form
  have hpix : wzPixel cfg numFrames wm1 hm1 n st (x, y)
      = (updSlot A (getCachePos b cfg.Az) (fun s =>
          { s with ds :=
            ⟨upd s.ds.sums (x, y) (s.ds.sums (x, y)
                + ((A.slots (getCachePos b cfg.Az)).data (x, y) : ℝ)
                  * selfW ((A.slots (getCachePos b cfg.Az)).ds.wmaxs (x, y))),
              upd s.ds.weights (x, y) (s.ds.weights (x, y)
                + selfW ((A.slots (getCachePos b cfg.Az)).ds.wmaxs (x, y))),
              s.ds.wmaxs⟩ }),
        updO st.2 (x, y) (clamp255
          (((A.slots (getCachePos b cfg.Az)).ds.sums (x, y)
              + ((A.slots (getCachePos b cfg.Az)).data (x, y) : ℝ)
                * selfW ((A.slots (getCachePos b cfg.Az)).ds.wmaxs (x, y)))
            / ((A.slots (getCachePos b cfg.Az)).ds.weights (x, y)
              + selfW ((A.slots (getCachePos b cfg.Az)).ds.wmaxs (x, y)))))) := by
    simp only [wzPixel]
    rw [hsz, hpz, ← hA, hposA cfg.Az]
    rw [updSlot_same]
    dsimp only
    rw [upd_same, upd_same]
  have hout_p : clamp255
      (((A.slots (getCachePos b cfg.Az)).ds.sums (x, y)
          + ((A.slots (getCachePos b cfg.Az)).data (x, y) : ℝ)
            * selfW ((A.slots (getCachePos b cfg.Az)).ds.wmaxs (x, y)))
        / ((A.slots (getCachePos b cfg.Az)).ds.weights (x, y)
          + selfW ((A.slots (getCachePos b cfg.Az)).ds.wmaxs (x, y))))
      = wzOut cfg wm1 hm1 startz stopz b (x, y) := by
    rw [hval_s, hval_w, hval_m, hdataA (getCachePos b cfg.Az)]
    rfl
  have hb00succ : before ((0 : ℤ), (0 : ℤ)) (x + 1, y) := by
    unfold before
    dsimp only
    omega
  rw [hpix]
  unfold WzInv
  refine ⟨?_, ?_, ⟨?_, ?_⟩, ?_, ?_, ?_, ?_, ?_, ?_, ?_⟩
  · -- center wmax stays nonnegative
    intro r
    rw [updSlot_same]
    dsimp only
    by_cases hrp : r = (x, y)
    · subst hrp
      rw [hval_m]
      exact le_max_of_le_left (hbnn _ _)
    · obtain ⟨_, _, m3⟩ := z9 r hrp
      rw [hposa cfg.Az] at m3
      rw [m3]
      have h0 := hC0 r
      split_ifs
      · exact le_max_of_le_left h0
      · exact h0
  · -- slots out of the ring untouched
    intro i hi
    have hbnd := getCachePos_bounds b hszb cfg.Az
    rw [updSlot_other _ _ _ _ (by omega)]
    exact (z11 i (by omega)).trans (hC0b i hi)
  · exact z1.trans hC1s
  · exact z2.trans hC1z
  · -- frame numbers and planes untouched
    intro i
    by_cases hiA : i = getCachePos b cfg.Az
    · subst hiA
      rw [updSlot_same]
      exact ⟨hfnumA _, hdataA _⟩
    · rw [updSlot_other _ _ _ _ hiA]
      exact ⟨hfnumA i, hdataA i⟩
  · -- non-center flags untouched
    intro i hi
    rw [updSlot_other _ _ _ _ hi]
    have h4i := z4 i (by rw [hposa cfg.Az]; exact hi)
    exact h4i.trans (hC3 i hi)
  · -- center flags
    intro z
    rw [updSlot_same]
    dsimp only
    rw [hposa cfg.Az] at z5
    rw [z5 z]
    by_cases hrange : startz ≤ z ∧ z ≤ stopz
    · by_cases heD : (b.slots (getCachePos b cfg.Az)).dsa z = 1
      · have heDa : (st.1.slots (getCachePos b cfg.Az)).dsa z = 1 := by
          rw [hC4 z, if_neg (fun hcon => hcon.2.2.1 heD)]
          exact heD
        rw [if_neg (fun hcon => hcon.2.2 heDa), heDa,
          if_neg (fun hcon => hcon.2.2.1 heD)]
        exact heD.symm
      · have heDa : (st.1.slots (getCachePos b cfg.Az)).dsa z ≠ 1 := by
          rw [← hposa cfg.Az]
          exact (hiff1 z hrange.1 hrange.2).mpr heD
        rw [if_pos ⟨hrange.1, by omega, heDa⟩,
          if_pos ⟨hrange.1, hrange.2, heD, hb00succ⟩]
    · rw [if_neg (fun hcon => hrange ⟨hcon.1, by omega⟩),
        if_neg (fun hcon => hrange ⟨hcon.1, hcon.2.1⟩),
        hC4 z, if_neg (fun hcon => hrange ⟨hcon.1, hcon.2.1⟩)]
  · -- unprocessed center cells
    intro r hr hbnew
    have hb1 : ¬ before r (x, y) := fun h => hbnew ((before_cutSucc r x y).mpr (Or.inl h))
    have hrp : r ≠ (x, y) := fun h => hbnew ((before_cutSucc r x y).mpr (Or.inr h))
    rw [updSlot_same]
    dsimp only
    rw [upd_other _ _ _ _ hrp, upd_other _ _ _ _ hrp]
    obtain ⟨m1, m2, m3⟩ := z9 r hrp
    rw [hposa cfg.Az, (hC2 (getCachePos b cfg.Az)).2, hActEq] at m1 m2 m3
    obtain ⟨n1, n2, n3⟩ := hC5 r hr hb1
    by_cases hAzAct : startz ≤ cfg.Az ∧ cfg.Az ≤ stopz
        ∧ (b.slots (getCachePos b cfg.Az)).dsa cfg.Az ≠ 1
    · have hAzmem : cfg.Az ∈ activeIn cfg b startz (stopz + 1) :=
        (hmemActB cfg.Az).mpr hAzAct
      rw [if_pos hAzAct] at n1 n2 n3
      by_cases hrc : r ∈ causalSet cfg.Ax cfg.Ay wm1 hm1 (x, y)
      · rw [if_pos ⟨hAzmem, hrc⟩] at m1 m2 m3
        have hpwin : (x, y) ∈ (winF cfg.Ax cfg.Ay wm1 hm1 r).erase r := by
          rw [Finset.mem_erase]
          refine ⟨Ne.symm hrp, ?_⟩
          rw [@mem_winF_comm cfg.Ax cfg.Ay wm1 hm1 r (x, y) hr hpdom]
          exact Finset.mem_of_mem_erase (mem_causalSet.mp hrc).1
        have hpnothalf : (x, y) ∉ halfSet cfg.Ax cfg.Ay wm1 hm1 r (x, y) :=
          fun h => before_irrefl (x, y) (mem_halfSet.mp h).2
        have hins : halfSet cfg.Ax cfg.Ay wm1 hm1 r (x + 1, y)
            = insert (x, y) (halfSet cfg.Ax cfg.Ay wm1 hm1 r (x, y)) := by
          apply Finset.ext
          intro q
          rw [Finset.mem_insert, mem_halfSet, mem_halfSet, before_cutSucc]
          constructor
          · rintro ⟨hq1, hq2 | hq3⟩
            · exact Or.inr ⟨hq1, hq2⟩
            · exact Or.inl hq3
          · rintro (rfl | ⟨hq1, hq2⟩)
            · exact ⟨hpwin, Or.inr rfl⟩
            · exact ⟨hq1, Or.inl hq2⟩
        refine ⟨?_, ?_, ?_⟩
        · rw [m1, n1, if_pos hAzAct, hins, Finset.sum_insert hpnothalf,
            wP_symm cfg _ wm1 hm1 (x, y) r]
          ring
        · rw [m2, n2, if_pos hAzAct, hins, Finset.sum_insert hpnothalf,
            wP_symm cfg _ wm1 hm1 (x, y) r]
          ring
        · rw [m3, n3, if_pos hAzAct, hins, Finset.fold_insert hpnothalf,
            wP_symm cfg _ wm1 hm1 (x, y) r, max3_swap]
      · rw [if_neg (fun hcon => hrc hcon.2)] at m1 m2 m3
        have hbpr : before (x, y) r := by
          rcases before_trichotomy (x, y) r with h | h | h
          · exact h
          · exact absurd h.symm hrp
          · exact absurd h hb1
        have hpnotwin : (x, y) ∉ (winF cfg.Ax cfg.Ay wm1 hm1 r).erase r := by
          intro h
          apply hrc
          rw [mem_causalSet]
          refine ⟨?_, hbpr⟩
          rw [Finset.mem_erase]
          refine ⟨hrp, ?_⟩
          rw [@mem_winF_comm cfg.Ax cfg.Ay wm1 hm1 (x, y) r hpdom hr]
          exact Finset.mem_of_mem_erase h
        have hsame : halfSet cfg.Ax cfg.Ay wm1 hm1 r (x + 1, y)
            = halfSet cfg.Ax cfg.Ay wm1 hm1 r (x, y) := by
          apply Finset.ext
          intro q
          rw [mem_halfSet, mem_halfSet, before_cutSucc]
          constructor
          · rintro ⟨hq1, hq2 | rfl⟩
            · exact ⟨hq1, hq2⟩
            · exact absurd hq1 hpnotwin
          · rintro ⟨hq1, hq2⟩
            exact ⟨hq1, Or.inl hq2⟩
        refine ⟨?_, ?_, ?_⟩
        · rw [m1, n1, if_pos hAzAct, hsame]
          ring
        · rw [m2, n2, if_pos hAzAct, hsame]
          ring
        · rw [m3, n3, if_pos hAzAct, hsame]
    · have hnotmem : cfg.Az ∉ activeIn cfg b startz (stopz + 1) :=
        fun h => hAzAct ((hmemActB cfg.Az).mp h)
      rw [if_neg (fun hcon => hnotmem hcon.1)] at m1 m2 m3
      rw [if_neg hAzAct] at n1 n2 n3
      refine ⟨?_, ?_, ?_⟩
      · rw [m1, n1, if_neg hAzAct]
        ring
      · rw [m2, n2, if_neg hAzAct]
        ring
      · rw [m3, n3, if_neg hAzAct]
  · -- cross-slot cells
    intro z hza hzb hzA q
    have hneb : getCachePos b z ≠ getCachePos b cfg.Az :=
      fun h => hzA (getCachePos_inj b hbs0 hbs1 hza hzb hAz0 hAz1 h)
    rw [updSlot_other _ _ _ _ hneb]
    obtain ⟨m1, m2, m3⟩ := z10 z hza (by omega) hzA q
    rw [hposa z, hposa cfg.Az, (hC2 (getCachePos b z)).2,
      (hC2 (getCachePos b cfg.Az)).2, hActEq, hC3 _ hneb] at m1 m2 m3
    obtain ⟨n1, n2, n3⟩ := hC6 z hza hzb hzA q
    by_cases hzAct : startz ≤ z ∧ z ≤ stopz
        ∧ (b.slots (getCachePos b cfg.Az)).dsa z ≠ 1
        ∧ (b.slots (getCachePos b z)).dsa (2 * cfg.Az - z) ≠ 1
    · have hzmem : z ∈ activeIn cfg b startz (stopz + 1) :=
        (hmemActB z).mpr ⟨hzAct.1, hzAct.2.1, hzAct.2.2.1⟩
      by_cases hqdom : q ∈ dom wm1 hm1
      · rw [if_pos ⟨hzAct.1, hzAct.2.1, hzAct.2.2.1, hzAct.2.2.2, hqdom⟩] at n1 n2 n3
        by_cases hqw : q ∈ winF cfg.Ax cfg.Ay wm1 hm1 (x, y)
        · rw [if_pos ⟨hzmem, hzAct.2.2.2, hqw⟩] at m1 m2 m3
          have hpwinq : (x, y) ∈ winF cfg.Ax cfg.Ay wm1 hm1 q :=
            (@mem_winF_comm cfg.Ax cfg.Ay wm1 hm1 (x, y) q hpdom hqdom).mp hqw
          have hpnotante : (x, y) ∉ anteSet cfg.Ax cfg.Ay wm1 hm1 q (x, y) :=
            fun h => before_irrefl (x, y) (mem_anteSet.mp h).2
          have hinsA : anteSet cfg.Ax cfg.Ay wm1 hm1 q (x + 1, y)
              = insert (x, y) (anteSet cfg.Ax cfg.Ay wm1 hm1 q (x, y)) := by
            apply Finset.ext
            intro r2
            rw [Finset.mem_insert, mem_anteSet, mem_anteSet, before_cutSucc]
            constructor
            · rintro ⟨hq1, hq2 | hq3⟩
              · exact Or.inr ⟨hq1, hq2⟩
              · exact Or.inl hq3
            · rintro (rfl | ⟨hq1, hq2⟩)
              · exact ⟨hpwinq, Or.inr rfl⟩
              · exact ⟨hq1, Or.inl hq2⟩
          refine ⟨?_, ?_, ?_⟩
          · rw [m1, n1, if_pos ⟨hzAct.1, hzAct.2.1, hzAct.2.2.1, hzAct.2.2.2, hqdom⟩,
              hinsA, Finset.sum_insert hpnotante]
            ring
          · rw [m2, n2, if_pos ⟨hzAct.1, hzAct.2.1, hzAct.2.2.1, hzAct.2.2.2, hqdom⟩,
              hinsA, Finset.sum_insert hpnotante]
            ring
          · rw [m3, n3, if_pos ⟨hzAct.1, hzAct.2.1, hzAct.2.2.1, hzAct.2.2.2, hqdom⟩,
              hinsA, Finset.fold_insert hpnotante, max3_swap]
        · rw [if_neg (fun hcon => hqw hcon.2.2)] at m1 m2 m3
          have hpnot : (x, y) ∉ winF cfg.Ax cfg.Ay wm1 hm1 q := fun h =>
            hqw ((@mem_winF_comm cfg.Ax cfg.Ay wm1 hm1 (x, y) q hpdom hqdom).mpr h)
          have hsameA : anteSet cfg.Ax cfg.Ay wm1 hm1 q (x + 1, y)
              = anteSet cfg.Ax cfg.Ay wm1 hm1 q (x, y) := by
            apply Finset.ext
            intro r2
            rw [mem_anteSet, mem_anteSet, before_cutSucc]
            constructor
            · rintro ⟨hq1, hq2 | rfl⟩
              · exact ⟨hq1, hq2⟩
              · exact absurd hq1 hpnot
            · rintro ⟨hq1, hq2⟩
              exact ⟨hq1, Or.inl hq2⟩
          refine ⟨?_, ?_, ?_⟩
          · rw [m1, n1, if_pos ⟨hzAct.1, hzAct.2.1, hzAct.2.2.1, hzAct.2.2.2, hqdom⟩,
              hsameA]
            ring
          · rw [m2, n2, if_pos ⟨hzAct.1, hzAct.2.1, hzAct.2.2.1, hzAct.2.2.2, hqdom⟩,
              hsameA]
            ring
          · rw [m3, n3, if_pos ⟨hzAct.1, hzAct.2.1, hzAct.2.2.1, hzAct.2.2.2, hqdom⟩,
              hsameA]
      · have hqnw : q ∉ winF cfg.Ax cfg.Ay wm1 hm1 (x, y) :=
          fun h => hqdom (winF_subset_dom h)
        rw [if_neg (fun hcon => hqnw hcon.2.2)] at m1 m2 m3
        rw [if_neg (fun hcon => hqdom hcon.2.2.2.2)] at n1 n2 n3
        refine ⟨?_, ?_, ?_⟩
        · rw [m1, n1, if_neg (fun hcon => hqdom hcon.2.2.2.2)]
          ring
        · rw [m2, n2, if_neg (fun hcon => hqdom hcon.2.2.2.2)]
          ring
        · rw [m3, n3, if_neg (fun hcon => hqdom hcon.2.2.2.2)]
    · have hnm : ¬ (z ∈ activeIn cfg b startz (stopz + 1)
          ∧ (b.slots (getCachePos b z)).dsa (2 * cfg.Az - z) ≠ 1
          ∧ q ∈ winF cfg.Ax cfg.Ay wm1 hm1 (x, y)) := by
        rintro ⟨hm1c, hm2c, _⟩
        obtain ⟨u1, u2, u3⟩ := (hmemActB z).mp hm1c
        exact hzAct ⟨u1, u2, u3, hm2c⟩
      rw [if_neg hnm] at m1 m2 m3
      have hnn2 : ¬ (startz ≤ z ∧ z ≤ stopz
          ∧ (b.slots (getCachePos b cfg.Az)).dsa z ≠ 1
          ∧ (b.slots (getCachePos b z)).dsa (2 * cfg.Az - z) ≠ 1
          ∧ q ∈ dom wm1 hm1) :=
        fun hcon => hzAct ⟨hcon.1, hcon.2.1, hcon.2.2.1, hcon.2.2.2.1⟩
      rw [if_neg hnn2] at n1 n2 n3
      refine ⟨?_, ?_, ?_⟩
      · rw [m1, n1, if_neg hnn2]
        ring
      · rw [m2, n2, if_neg hnn2]
        ring
      · rw [m3, n3, if_neg hnn2]
  · -- processed pixels carry their final output
    intro r hr hb2
    dsimp only
    rcases (before_cutSucc r x y).mp hb2 with hb3 | rfl
    · have hrp : r ≠ (x, y) := fun h => before_irrefl (x, y) (h ▸ hb3)
      rw [updO_other _ _ _ _ hrp]
      exact hC7 r hr hb3
    · rw [updO_same]
      exact hout_p
  · -- everything else still zero
    intro r hcon
    dsimp only
    have hrp : r ≠ (x, y) := by
      intro h
      subst h
      exact hcon ⟨hpdom, (before_cutSucc (x, y) x y).mpr (Or.inr rfl)⟩
    rw [updO_other _ _ _ _ hrp]
    apply hC8
    intro hcon2
    exact hcon ⟨hcon2.1, (before_cutSucc r x y).mpr (Or.inl hcon2.2)⟩

/-- The sweep invariant only depends on the cut through which in-frame pixels
lie before it. -/
theorem WzInv_cut_congr (cfg : Cfg) (wm1 hm1 startz stopz : ℤ) (b : Cache)
    (c c' : ℤ × ℤ) (st : Cache × Pic)
    (h00 : ((0 : ℤ), (0 : ℤ)) ∈ dom wm1 hm1)
    (hcc : ∀ q ∈ dom wm1 hm1, before q c ↔ before q c')
    (h : WzInv cfg wm1 hm1 startz stopz b c st) :
    WzInv cfg wm1 hm1 startz stopz b c' st := by
  have hhalf : ∀ r, halfSet cfg.Ax cfg.Ay wm1 hm1 r c
      = halfSet cfg.Ax cfg.Ay wm1 hm1 r c' := by
    intro r
    unfold halfSet
    apply Finset.filter_congr
    intro q hq
    exact hcc q (winF_subset_dom (Finset.mem_of_mem_erase hq))
  have hante : ∀ q, anteSet cfg.Ax cfg.Ay wm1 hm1 q c
      = anteSet cfg.Ax cfg.Ay wm1 hm1 q c' := by
    intro q
    unfold anteSet
    apply Finset.filter_congr
    intro r hr
    exact hcc r (winF_subset_dom hr)
  obtain ⟨h1, h2, h3, h4, h5, h6, h7, h8, h9, h10⟩ := h
  refine ⟨h1, h2, h3, h4, h5, ?_, ?_, ?_, ?_, ?_⟩
  · intro z
    rw [h6 z, if_congr (and_congr Iff.rfl (and_congr Iff.rfl
      (and_congr Iff.rfl (hcc (0, 0) h00)))) rfl rfl]
  · intro r hr hb
    obtain ⟨k1, k2, k3⟩ := h7 r hr (fun hb2 => hb ((hcc r hr).mp hb2))
    rw [← hhalf r]
    exact ⟨k1, k2, k3⟩
  · intro z hz0 hz1 hzA q
    obtain ⟨k1, k2, k3⟩ := h8 z hz0 hz1 hzA q
    rw [← hante q]
    exact ⟨k1, k2, k3⟩
  · intro r hr hb
    exact h9 r hr ((hcc r hr).mpr hb)
  · intro r hcon
    exact h10 r (fun hcon2 => hcon ⟨hcon2.1, (hcc r hcon2.1).mp hcon2.2⟩)

/-- The whole pixel loop of one `GetFrameWZ` call establishes the sweep
invariant at the final cut. -/
theorem wz_run (cfg : Cfg) (numFrames n wm1 hm1 : ℤ) (b : Cache)
    (hW : 0 ≤ wm1) (hH : 0 ≤ hm1) (hAx : 0 ≤ cfg.Ax) (hAy : 0 ≤ cfg.Ay)
    (hbs0 : 0 ≤ b.start_pos) (hbs1 : b.start_pos < b.size)
    (hAz0 : 0 ≤ cfg.Az) (hAz1 : cfg.Az < b.size)
    (hz0 : 0 ≤ startzOf cfg.Az n)
    (hz1 : stopzOf cfg.Az numFrames n < b.size)
    (hzz : startzOf cfg.Az n ≤ stopzOf cfg.Az numFrames n + 1)
    (hbnn : ∀ i r, 0 ≤ (b.slots i).ds.wmaxs r) :
    WzInv cfg wm1 hm1 (startzOf cfg.Az n) (stopzOf cfg.Az numFrames n) b
      (0, hm1 + 1)
      ((pixelsRM wm1 hm1).foldl (wzPixel cfg numFrames wm1 hm1 n)
        (b, fun _ => 0)) := by
  have h00 : ((0 : ℤ), (0 : ℤ)) ∈ dom wm1 hm1 := by
    rw [mem_dom]
    omega
  unfold pixelsRM
  rw [foldl_flatMap]
  refine intRange_foldl_inv _
    (fun yv st => WzInv cfg wm1 hm1 (startzOf cfg.Az n)
      (stopzOf cfg.Az numFrames n) b (0, yv) st) 0 hm1
    (by omega) ?_ _
    (WzInv_init cfg wm1 hm1 (startzOf cfg.Az n) (stopzOf cfg.Az numFrames n)
      b hAx hAy hbnn)
  intro yv st hy0 hy1 hInv
  rw [List.foldl_map]
  refine WzInv_cut_congr cfg wm1 hm1 _ _ b (wm1 + 1, yv) (0, yv + 1) _ h00
    (fun q hq => before_cutRow hq yv) ?_
  refine intRange_foldl_inv _
    (fun xv st => WzInv cfg wm1 hm1 (startzOf cfg.Az n)
      (stopzOf cfg.Az numFrames n) b (xv, yv) st) 0 wm1
    (by omega) ?_ st hInv
  intro i s hi0 hi1 h
  exact wz_pixel_step cfg wm1 hm1 (startzOf cfg.Az n)
    (stopzOf cfg.Az numFrames n) b hAx hAy hbs0 hbs1 hAz0 hAz1 hz0 hz1 hzz
    hbnn numFrames n rfl rfl i yv hi0 hi1 hy0 hy1 s h

/-! ### The end-of-frame marking -/

/-- One step of the marking loop, named for evaluation. -/
def markStep (Az : ℤ) (c : Cache) (i : ℤ) : Cache :=
  let cp := getCachePos c Az
  if (c.slots cp).dsa i = 2 then
    let c1 := updSlot c cp (fun s => { s with dsa := updZ s.dsa i 1 })
    updSlot c1 (getCachePos c1 i) (fun s =>
      { s with dsa := updZ s.dsa (c.size - 1 - i) 1 })
  else c

theorem wzMark_eq_fold (Az : ℤ) (c : Cache) :
    wzMark Az c = (intRange 0 (c.size - 1)).foldl (markStep Az) c := rfl

/-- A fold whose steps only rewrite flag arrays preserves geometry, frame
numbers, planes and accumulators. -/
theorem foldl_keep {α : Type*} (g : Cache → α → Cache)
    (hg : ∀ c a, (g c a).start_pos = c.start_pos ∧ (g c a).size = c.size
      ∧ ∀ i, ((g c a).slots i).fnum = (c.slots i).fnum
        ∧ ((g c a).slots i).data = (c.slots i).data
        ∧ ((g c a).slots i).ds = (c.slots i).ds) :
    ∀ (l : List α) (c : Cache),
      (l.foldl g c).start_pos = c.start_pos ∧ (l.foldl g c).size = c.size
      ∧ ∀ i, ((l.foldl g c).slots i).fnum = (c.slots i).fnum
        ∧ ((l.foldl g c).slots i).data = (c.slots i).data
        ∧ ((l.foldl g c).slots i).ds = (c.slots i).ds := by
  intro l
  induction l with
  | nil => exact fun c => ⟨rfl, rfl, fun i => ⟨rfl, rfl, rfl⟩⟩
  | cons a t ih =>
    intro c
    obtain ⟨k1, k2, k3⟩ := ih (g c a)
    obtain ⟨j1, j2, j3⟩ := hg c a
    rw [List.foldl_cons]
    refine ⟨k1.trans j1, k2.trans j2, fun i => ?_⟩
    obtain ⟨m1, m2, m3⟩ := k3 i
    obtain ⟨n1, n2, n3⟩ := j3 i
    exact ⟨m1.trans n1, m2.trans n2, m3.trans n3⟩

theorem markStep_keep (Az : ℤ) (c : Cache) (i : ℤ) :
    (markStep Az c i).start_pos = c.start_pos ∧ (markStep Az c i).size = c.size
    ∧ ∀ j, ((markStep Az c i).slots j).fnum = (c.slots j).fnum
      ∧ ((markStep Az c i).slots j).data = (c.slots j).data
      ∧ ((markStep Az c i).slots j).ds = (c.slots j).ds := by
  unfold markStep
  by_cases h : (c.slots (getCachePos c Az)).dsa i = 2
  · rw [if_pos h]
    refine ⟨rfl, rfl, fun j => ?_⟩
    set c1 := updSlot c (getCachePos c Az) (fun s => { s with dsa := updZ s.dsa i 1 })
      with hc1
    have hcell : ∀ k, ((updSlot c1 (getCachePos c1 i) (fun s =>
        { s with dsa := updZ s.dsa (c.size - 1 - i) 1 })).slots k).fnum
          = (c1.slots k).fnum
        ∧ ((updSlot c1 (getCachePos c1 i) (fun s =>
            { s with dsa := updZ s.dsa (c.size - 1 - i) 1 })).slots k).data
          = (c1.slots k).data
        ∧ ((updSlot c1 (getCachePos c1 i) (fun s =>
            { s with dsa := updZ s.dsa (c.size - 1 - i) 1 })).slots k).ds
          = (c1.slots k).ds := by
      intro k
      by_cases hk : k = getCachePos c1 i
      · subst hk
        rw [updSlot_same]
        exact ⟨rfl, rfl, rfl⟩
      · rw [updSlot_other _ _ _ _ hk]
        exact ⟨rfl, rfl, rfl⟩
    have hcell1 : ∀ k, ((c1.slots k)).fnum = (c.slots k).fnum
        ∧ (c1.slots k).data = (c.slots k).data
        ∧ (c1.slots k).ds = (c.slots k).ds := by
      intro k
      rw [hc1]
      by_cases hk : k = getCachePos c Az
      · subst hk
        rw [updSlot_same]
        exact ⟨rfl, rfl, rfl⟩
      · rw [updSlot_other _ _ _ _ hk]
        exact ⟨rfl, rfl, rfl⟩
    obtain ⟨a1, a2, a3⟩ := hcell j
    obtain ⟨b1, b2, b3⟩ := hcell1 j
    exact ⟨a1.trans b1, a2.trans b2, a3.trans b3⟩
  · rw [if_neg h]
    exact ⟨rfl, rfl, fun j => ⟨rfl, rfl, rfl⟩⟩

/-- `wzMark` only rewrites flag arrays. -/
theorem wzMark_keep (Az : ℤ) (c : Cache) :
    (wzMark Az c).start_pos = c.start_pos ∧ (wzMark Az c).size = c.size
    ∧ ∀ i, ((wzMark Az c).slots i).fnum = (c.slots i).fnum
      ∧ ((wzMark Az c).slots i).data = (c.slots i).data
      ∧ ((wzMark Az c).slots i).ds = (c.slots i).ds := by
  rw [wzMark_eq_fold]
  exact foldl_keep (markStep Az) (markStep_keep Az) _ c

theorem intRange_three (a : ℤ) : intRange a (a + 2) = [a, a + 1, a + 2] := by
  have h2 : a + 1 + 1 = a + 2 := by ring
  rw [intRange_eq_cons (by omega), intRange_eq_cons (by omega), h2,
    intRange_eq_cons (by omega), intRange_eq_nil (by omega)]

/-- After a full `Az = 1` frame whose center flags at 1 and 2 read 2, the
marking writes exactly one flag into physical slot 2: `dsa[0] = 1`. -/
theorem wzMark_slot2 (c : Cache) (hst : c.start_pos = 0) (hsz : c.size = 3)
    (hd1 : (c.slots 1).dsa 1 = 2) (hd2 : (c.slots 1).dsa 2 = 2) :
    ((wzMark 1 c).slots 2).dsa = updZ (c.slots 2).dsa 0 1 := by
  have hgc : ∀ d : Cache, d.start_pos = 0 → d.size = 3 → ∀ k, 0 ≤ k → k < 3 →
      getCachePos d k = k := by
    intro d h1 h2 k hk0 hk1
    unfold getCachePos
    rw [h1, h2]
    omega
  have hlist : intRange 0 (c.size - 1) = [0, 1, 2] := by
    rw [hsz]
    decide
  rw [wzMark_eq_fold, hlist]
  simp only [List.foldl_cons, List.foldl_nil]
  -- step i = 0: whether or not it fires, slot 2 and the center flags at 1, 2
  -- are untouched
  have h0 : (markStep 1 c 0).start_pos = 0 ∧ (markStep 1 c 0).size = 3
      ∧ (markStep 1 c 0).slots 2 = c.slots 2
      ∧ ((markStep 1 c 0).slots 1).dsa 1 = 2
      ∧ ((markStep 1 c 0).slots 1).dsa 2 = 2 := by
    unfold markStep
    rw [hgc c hst hsz 1 (by omega) (by omega)]
    by_cases hf : (c.slots 1).dsa 0 = 2
    · rw [if_pos hf]
      dsimp only
      have hpos2 : getCachePos (updSlot c 1 (fun s =>
          { s with dsa := updZ s.dsa 0 1 })) 0 = 0 := by
        rw [getCachePos_updSlot]
        exact hgc c hst hsz 0 (by omega) (by omega)
      rw [hpos2]
      refine ⟨hst, hsz, ?_, ?_, ?_⟩
      · rw [updSlot_other _ _ _ _ (by omega), updSlot_other _ _ _ _ (by omega)]
      · rw [updSlot_other _ _ _ _ (by omega), updSlot_same]
        show updZ (c.slots 1).dsa 0 1 1 = 2
        unfold updZ
        rw [if_neg (by omega)]
        exact hd1
      · rw [updSlot_other _ _ _ _ (by omega), updSlot_same]
        show updZ (c.slots 1).dsa 0 1 2 = 2
        unfold updZ
        rw [if_neg (by omega)]
        exact hd2
    · rw [if_neg hf]
      exact ⟨hst, hsz, rfl, hd1, hd2⟩
  obtain ⟨e0s, e0z, e0two, e0d1, e0d2⟩ := h0
  set d0 := markStep 1 c 0 with hd0v
  -- step i = 1 fires into the center slot only
  have h1 : (markStep 1 d0 1).start_pos = 0 ∧ (markStep 1 d0 1).size = 3
      ∧ (markStep 1 d0 1).slots 2 = c.slots 2
      ∧ ((markStep 1 d0 1).slots 1).dsa 2 = 2 := by
    unfold markStep
    rw [hgc d0 e0s e0z 1 (by omega) (by omega), if_pos e0d1]
    dsimp only
    have hpos2 : getCachePos (updSlot d0 1 (fun s =>
        { s with dsa := updZ s.dsa 1 1 })) 1 = 1 := by
      rw [getCachePos_updSlot]
      exact hgc d0 e0s e0z 1 (by omega) (by omega)
    rw [hpos2]
    refine ⟨e0s, e0z, ?_, ?_⟩
    · rw [updSlot_other _ _ _ _ (by omega), updSlot_other _ _ _ _ (by omega)]
      exact e0two
    · rw [updSlot_same, updSlot_same]
      show updZ (updZ (d0.slots 1).dsa 1 1) (d0.size - 1 - 1) 1 2 = 2
      unfold updZ
      rw [e0z]
      rw [if_neg (by omega), if_neg (by omega)]
      exact e0d2
  obtain ⟨e1s, e1z, e1two, e1d2⟩ := h1
  set d1 := markStep 1 d0 1 with hd1v
  -- step i = 2 fires and writes slot 2's flag 0
  unfold markStep
  rw [hgc d1 e1s e1z 1 (by omega) (by omega), if_pos e1d2]
  dsimp only
  have hpos2 : getCachePos (updSlot d1 1 (fun s =>
      { s with dsa := updZ s.dsa 2 1 })) 2 = 2 := by
    rw [getCachePos_updSlot]
    exact hgc d1 e1s e1z 2 (by omega) (by omega)
  rw [hpos2, updSlot_same]
  show updZ ((updSlot d1 1 (fun s => { s with dsa := updZ s.dsa 2 1 })).slots 2).dsa
    (d1.size - 1 - 2) 1 = updZ (c.slots 2).dsa 0 1
  rw [updSlot_other _ _ _ _ (by omega), e1two, e1z]
  norm_num

/-! ### Concrete realignment and refill evaluations -/

theorem rcsScan_none (c : Cache) (first last : ℤ)
    (h : ∀ j i, first ≤ j → j ≤ last → 0 ≤ i → i ≤ c.size - 1 →
      (c.slots i).fnum ≠ j) :
    rcsScan c first last = none := by
  unfold rcsScan
  rw [List.find?_eq_none]
  rintro ⟨j, i⟩ hmem
  rw [List.mem_flatMap] at hmem
  obtain ⟨j2, hj2, hmem2⟩ := hmem
  rw [List.mem_map] at hmem2
  obtain ⟨i2, hi2, he⟩ := hmem2
  rw [mem_intRange] at hj2 hi2
  rw [Prod.mk.injEq] at he
  obtain ⟨he1, he2⟩ := he
  subst he1
  subst he2
  simp only [beq_iff_eq]
  exact h j2 i2 hj2.1 hj2.2 hi2.1 hi2.2

theorem resetCacheStart_none (c : Cache) (first last : ℤ)
    (h : rcsScan c first last = none) : resetCacheStart c first last = c := by
  unfold resetCacheStart
  rw [h]

/-- The realignment scan of the second sequential call finds frame `n` in
physical slot 1. -/
theorem rcsScan_reuse (c : Cache) (n : ℤ) (hsz : c.size = 3)
    (h0 : (c.slots 0).fnum = n - 1) (h1 : (c.slots 1).fnum = n) :
    rcsScan c n (n + 2) = some (n, 1) := by
  unfold rcsScan
  have hl2 : intRange 0 (c.size - 1) = [0, 1, 2] := by
    rw [hsz]
    decide
  rw [hl2, intRange_three n]
  simp only [List.flatMap_cons, List.flatMap_nil, List.map_cons, List.map_nil,
    List.append_nil, List.cons_append, List.nil_append]
  rw [List.find?_cons_of_neg _ (by
      simp only [beq_iff_eq]
      rw [h0]
      omega),
    List.find?_cons_of_pos _ (by
      simp only [beq_iff_eq]
      exact h1)]

/-- The realignment of the second sequential call rotates the ring by one. -/
theorem resetCacheStart_some (c : Cache) (f l j i : ℤ)
    (h : rcsScan c f l = some (j, i)) :
    resetCacheStart c f l = { c with start_pos :=
      if i - j + f < 0 then i - j + f + c.size
      else if c.size ≤ i - j + f then i - j + f - c.size else i - j + f } := by
  unfold resetCacheStart
  rw [h]

theorem resetCacheStart_reuse (c : Cache) (n : ℤ) (hsz : c.size = 3)
    (h0 : (c.slots 0).fnum = n - 1) (h1 : (c.slots 1).fnum = n) :
    resetCacheStart c n (n + 2) = { c with start_pos := 1 } := by
  rw [resetCacheStart_some c n (n + 2) n 1 (rcsScan_reuse c n hsz h0 h1)]
  have hs : (1 : ℤ) - n + n = 1 := by ring
  rw [hs, hsz, if_neg (by omega), if_neg (by omega)]

/-- Filling a window of three when no slot already holds its frame replaces
all three slots. -/
theorem cacheFill_eval3 (clip : ℤ → Pic) (numFrames n : ℤ) (c : Cache)
    (hst : c.start_pos = 0) (hsz : c.size = 3)
    (h0 : (c.slots 0).fnum ≠ n - 1) (h1 : (c.slots 1).fnum ≠ n)
    (h2 : (c.slots 2).fnum ≠ n + 1) :
    cacheFill clip numFrames 1 n c
      = updSlot (updSlot (updSlot c
          0 (fun _ => ⟨n - 1, clip (mapn numFrames (n - 1)), SD.zero, fun _ => 0⟩))
          1 (fun _ => ⟨n, clip (mapn numFrames n), SD.zero, fun _ => 0⟩))
          2 (fun _ => ⟨n + 1, clip (mapn numFrames (n + 1)), SD.zero, fun _ => 0⟩) := by
  have hgc : ∀ d : Cache, d.start_pos = 0 → d.size = 3 → ∀ k, 0 ≤ k → k < 3 →
      getCachePos d k = k := by
    intro d hd1 hd2 k hk0 hk1
    unfold getCachePos
    rw [hd1, hd2]
    omega
  unfold cacheFill
  have hr : intRange (n - 1) (n + 1) = [n - 1, n, n + 1] := by
    have e1 : n - 1 + 1 = n := by ring
    have e2 : n - 1 + 2 = n + 1 := by ring
    rw [show n + 1 = n - 1 + 2 by ring, intRange_three (n - 1), e1, e2]
  rw [hr]
  simp only [List.foldl_cons, List.foldl_nil]
  have ei0 : n - 1 - n + 1 = 0 := by ring
  have ei1 : n - n + 1 = 1 := by ring
  have ei2 : n + 1 - n + 1 = 2 := by ring
  set g0 : Slot → Slot :=
    fun _ => ⟨n - 1, clip (mapn numFrames (n - 1)), SD.zero, fun _ => 0⟩ with hg0
  set g1 : Slot → Slot :=
    fun _ => ⟨n, clip (mapn numFrames n), SD.zero, fun _ => 0⟩ with hg1
  set g2 : Slot → Slot :=
    fun _ => ⟨n + 1, clip (mapn numFrames (n + 1)), SD.zero, fun _ => 0⟩ with hg2
  rw [ei0, ei1, ei2, hgc c hst hsz 0 (by omega) (by omega), if_neg h0]
  rw [hgc (updSlot c 0 g0) hst hsz 1 (by omega) (by omega)]
  have hcond2 : ¬ ((updSlot c 0 g0).slots 1).fnum = n := by
    rw [updSlot_other _ _ _ _ (by omega)]
    exact h1
  rw [if_neg hcond2]
  rw [hgc (updSlot (updSlot c 0 g0) 1 g1) hst hsz 2 (by omega) (by omega)]
  have hcond3 : ¬ ((updSlot (updSlot c 0 g0) 1 g1).slots 2).fnum = n + 1 := by
    rw [updSlot_other _ _ _ _ (by omega), updSlot_other _ _ _ _ (by omega)]
    exact h2
  rw [if_neg hcond3]

/-- Refilling after the one-step realignment touches only physical slot 0,
which receives the incoming frame `n + 2`. -/
theorem cacheFill_reuse (clip : ℤ → Pic) (numFrames n : ℤ) (c : Cache)
    (hst : c.start_pos = 1) (hsz : c.size = 3)
    (h1 : (c.slots 1).fnum = n) (h2 : (c.slots 2).fnum = n + 1)
    (h0 : (c.slots 0).fnum ≠ n + 2) :
    cacheFill clip numFrames 1 (n + 1) c
      = updSlot c 0 (fun _ =>
          ⟨n + 2, clip (mapn numFrames (n + 2)), SD.zero, fun _ => 0⟩) := by
  have hgc0 : getCachePos c 0 = 1 := by
    unfold getCachePos
    rw [hst, hsz]
    decide
  have hgc1 : getCachePos c 1 = 2 := by
    unfold getCachePos
    rw [hst, hsz]
    decide
  have hgc2 : getCachePos c 2 = 0 := by
    unfold getCachePos
    rw [hst, hsz]
    decide
  unfold cacheFill
  have hr : intRange (n + 1 - 1) (n + 1 + 1) = [n, n + 1, n + 2] := by
    have e0 : n + 1 - 1 = n := by ring
    have e2 : n + 1 + 1 = n + 2 := by ring
    rw [e0, e2]
    exact intRange_three n
  rw [hr]
  simp only [List.foldl_cons, List.foldl_nil]
  have ei0 : n - (n + 1) + 1 = 0 := by ring
  have ei1 : n + 1 - (n + 1) + 1 = 1 := by ring
  have ei2 : n + 2 - (n + 1) + 1 = 2 := by ring
  rw [ei0, ei1, ei2, hgc0, if_pos h1, hgc1, if_pos h2, hgc2, if_neg h0]

/-! ### Transporting the carried accumulator to the scratch z = 0 term -/

theorem anteSet_full (Ax Ay wm1 hm1 : ℤ) (q : ℤ × ℤ) :
    anteSet Ax Ay wm1 hm1 q (0, hm1 + 1) = winF Ax Ay wm1 hm1 q := by
  unfold anteSet
  apply Finset.filter_true_of_mem
  intro r hr
  have hrd := winF_subset_dom hr
  rw [mem_dom] at hrd
  unfold before
  dsimp only
  omega

theorem Icc_zero_eq_insert (stopz : ℤ) (h : 0 ≤ stopz) :
    Finset.Icc (0 : ℤ) stopz = insert 0 (Finset.Icc 1 stopz) := by
  apply Finset.ext
  intro z
  rw [Finset.mem_insert, Finset.mem_Icc, Finset.mem_Icc]
  omega

theorem zero_not_mem_Icc_one (stopz : ℤ) : (0 : ℤ) ∉ Finset.Icc 1 stopz := by
  rw [Finset.mem_Icc]
  omega

/-- The heart of claim C1 at one pixel: a reused Az = 1 cache `bR` — rotated
start, frame n + 1 in the center carrying last call's mirror accumulator, its
z = 0 flag consumed — produces the same output value as a freshly filled
cache `bS`, because the carried cell is exactly the skipped z = 0 term. -/
theorem wzOut_transport (cfg : Cfg) (wm1 hm1 stopz : ℤ) (bR bS : Cache)
    (r : ℤ × ℤ)
    (hAz : cfg.Az = 1) (hstop1 : 1 ≤ stopz) (hstop2 : stopz ≤ 2)
    (hR0 : bR.start_pos = 1) (hRsz : bR.size = 3)
    (hS0 : bS.start_pos = 0) (hSsz : bS.size = 3)
    (hdC : (bR.slots 2).data = (bS.slots 1).data)
    (hd0 : (bR.slots 1).data = (bS.slots 0).data)
    (hd2 : (bR.slots 0).data = (bS.slots 2).data)
    (hw : (bR.slots 2).ds.weights r
        = ∑ q ∈ winF cfg.Ax cfg.Ay wm1 hm1 r,
            wZ cfg ((bR.slots 2).data) ((bR.slots 1).data) wm1 hm1 q r)
    (hs : (bR.slots 2).ds.sums r
        = ∑ q ∈ winF cfg.Ax cfg.Ay wm1 hm1 r,
            (((bR.slots 1).data q : ℝ)
              * wZ cfg ((bR.slots 2).data) ((bR.slots 1).data) wm1 hm1 q r))
    (hm : (bR.slots 2).ds.wmaxs r
        = max 0 ((winF cfg.Ax cfg.Ay wm1 hm1 r).fold max 0
            (fun q => wZ cfg ((bR.slots 2).data) ((bR.slots 1).data) wm1 hm1 q r)))
    (hAR : activeIn cfg bR 0 (stopz + 1) = Finset.Icc 1 stopz)
    (hAS : activeIn cfg bS 0 (stopz + 1) = Finset.Icc 0 stopz)
    (hzS : (bS.slots 1).ds = SD.zero) :
    wzOut cfg wm1 hm1 0 stopz bR r = wzOut cfg wm1 hm1 0 stopz bS r := by
  have hgR : getCachePos bR cfg.Az = 2 := by
    unfold getCachePos
    rw [hAz, hR0, hRsz]
    decide
  have hgR2 : getCachePos bR 2 = 0 := by
    unfold getCachePos
    rw [hR0, hRsz]
    decide
  have hgS : getCachePos bS cfg.Az = 1 := by
    unfold getCachePos
    rw [hAz, hS0, hSsz]
    decide
  have hgS0 : getCachePos bS 0 = 0 := by
    unfold getCachePos
    rw [hS0, hSsz]
    decide
  have hgS2 : getCachePos bS 2 = 2 := by
    unfold getCachePos
    rw [hS0, hSsz]
    decide
  have hterm : ∀ z ∈ Finset.Icc (1 : ℤ) stopz,
      zOutW cfg wm1 hm1 bR r z = zOutW cfg wm1 hm1 bS r z
      ∧ zOutS cfg wm1 hm1 bR r z = zOutS cfg wm1 hm1 bS r z
      ∧ zOutM cfg wm1 hm1 bR r z = zOutM cfg wm1 hm1 bS r z := by
    intro z hz
    rw [Finset.mem_Icc] at hz
    rcases (by omega : z = 1 ∨ z = 2) with rfl | rfl
    · have hc : (1 : ℤ) = cfg.Az := hAz.symm
      unfold zOutW zOutS zOutM
      simp only [if_pos hc]
      rw [hgR, hgS, hdC]
      exact ⟨rfl, rfl, rfl⟩
    · have hc : ¬ (2 : ℤ) = cfg.Az := by omega
      unfold zOutW zOutS zOutM
      simp only [if_neg hc]
      rw [hgR, hgR2, hgS, hgS2, hdC, hd2]
      exact ⟨rfl, rfl, rfl⟩
  have hz0c : ¬ (0 : ℤ) = cfg.Az := by omega
  have hz0W : (bR.slots 2).ds.weights r = zOutW cfg wm1 hm1 bS r 0 := by
    rw [hw]
    unfold zOutW
    rw [if_neg hz0c, hgS0, hgS]
    unfold crossW
    apply Finset.sum_congr rfl
    intro q hq
    rw [← hd0, ← hdC]
    unfold wZ
    exact pairWeight_symm cfg _ _ wm1 hm1 q.1 q.2 r.2 r.1
  have hz0S : (bR.slots 2).ds.sums r = zOutS cfg wm1 hm1 bS r 0 := by
    rw [hs]
    unfold zOutS
    rw [if_neg hz0c, hgS0, hgS]
    unfold crossS
    apply Finset.sum_congr rfl
    intro q hq
    rw [← hd0, ← hdC]
    unfold wZ
    rw [pairWeight_symm cfg _ _ wm1 hm1 q.1 q.2 r.2 r.1]
  have hz0M : (bR.slots 2).ds.wmaxs r = max 0 (zOutM cfg wm1 hm1 bS r 0) := by
    rw [hm]
    unfold zOutM
    rw [if_neg hz0c, hgS0, hgS]
    unfold crossM
    rw [← hd0, ← hdC]
    refine congrArg (max 0) (Finset.fold_congr ?_)
    intro q hq
    unfold wZ
    exact pairWeight_symm cfg _ _ wm1 hm1 q.1 q.2 r.2 r.1
  unfold wzOut
  rw [hgR, hgS, hAR, hAS, hzS]
  simp only [SD.zero]
  rw [Icc_zero_eq_insert stopz (by omega),
    Finset.sum_insert (zero_not_mem_Icc_one stopz),
    Finset.sum_insert (zero_not_mem_Icc_one stopz),
    Finset.fold_insert (zero_not_mem_Icc_one stopz)]
  rw [Finset.sum_congr rfl (fun z hz => (hterm z hz).1),
    Finset.sum_congr rfl (fun z hz => (hterm z hz).2.1),
    Finset.fold_congr (fun z hz => (hterm z hz).2.2)]
  rw [hz0W, hz0S, hz0M, hdC]
  congr 1
  rw [max_assoc]
  ring

/-! ### Claim C1: temporal-pixel cache reuse is output-transparent -/

/-- C1: with Az = 1, producing output frames n and then n + 1 sequentially
through the same engine slot (so frame n + 1's pass reuses the per-frame
accumulators and consumed flags populated while producing frame n) yields
output for frame n + 1 bit-identical to computing frame n + 1 from scratch
with a fresh cache (all accumulators zeroed, all consumed flags clear). -/
theorem temporal_cache_reuse (cfg : Cfg) (clip : ℤ → Pic)
    (numFrames width height n : ℤ)
    (hAz : cfg.Az = 1) (hAx : 0 ≤ cfg.Ax) (hAy : 0 ≤ cfg.Ay)
    (hW : 0 < width) (hH : 0 < height)
    (hn0 : 0 ≤ n) (hn1 : n + 1 ≤ numFrames - 1) :
    (GetFrameWZ cfg clip numFrames width height (n + 1)
        (GetFrameWZ cfg clip numFrames width height n
          (mkCache (2 * cfg.Az + 1))).1).2
      = (GetFrameWZ cfg clip numFrames width height (n + 1)
          (mkCache (2 * cfg.Az + 1))).2 := by
  have hmk : mkCache (2 * cfg.Az + 1) = ⟨3, 0, fun _ => freshSlot⟩ := by
    rw [hAz]
    unfold mkCache
    norm_num
  -- the first call realigns nothing and fills all three slots
  have hrsA : resetCacheStart (⟨3, 0, fun _ => freshSlot⟩ : Cache)
      (n - cfg.Az) (n + cfg.Az) = ⟨3, 0, fun _ => freshSlot⟩ := by
    apply resetCacheStart_none
    apply rcsScan_none
    intro j i hj1 hj2 hi1 hi2
    show (-20 : ℤ) ≠ j
    rw [hAz] at hj1
    omega
  set bA := updSlot (updSlot (updSlot (⟨3, 0, fun _ => freshSlot⟩ : Cache)
      0 (fun _ => ⟨n - 1, clip (mapn numFrames (n - 1)), SD.zero, fun _ => 0⟩))
      1 (fun _ => ⟨n, clip (mapn numFrames n), SD.zero, fun _ => 0⟩))
      2 (fun _ => ⟨n + 1, clip (mapn numFrames (n + 1)), SD.zero, fun _ => 0⟩)
    with hbA
  have hfillA : cacheFill clip numFrames cfg.Az n ⟨3, 0, fun _ => freshSlot⟩
      = bA := by
    rw [hAz, hbA]
    exact cacheFill_eval3 clip numFrames n _ rfl rfl
      (by show (-20 : ℤ) ≠ n - 1; omega)
      (by show (-20 : ℤ) ≠ n; omega)
      (by show (-20 : ℤ) ≠ n + 1; omega)
  have hbAst : bA.start_pos = 0 := rfl
  have hbAsz : bA.size = 3 := rfl
  have hgA : getCachePos bA cfg.Az = 1 := by
    unfold getCachePos
    rw [hAz, hbAst, hbAsz]
    decide
  have hgA2 : getCachePos bA 2 = 2 := by
    unfold getCachePos
    rw [hbAst, hbAsz]
    decide
  have hbA0f : (bA.slots 0).fnum = n - 1 := by
    rw [hbA, updSlot_other _ _ _ _ (by omega), updSlot_other _ _ _ _ (by omega),
      updSlot_same]
  have hbA1f : (bA.slots 1).fnum = n := by
    rw [hbA, updSlot_other _ _ _ _ (by omega), updSlot_same]
  have hbA2f : (bA.slots 2).fnum = n + 1 := by
    rw [hbA, updSlot_same]
  have hbA0d : (bA.slots 0).data = clip (mapn numFrames (n - 1)) := by
    rw [hbA, updSlot_other _ _ _ _ (by omega), updSlot_other _ _ _ _ (by omega),
      updSlot_same]
  have hbA1d : (bA.slots 1).data = clip (mapn numFrames n) := by
    rw [hbA, updSlot_other _ _ _ _ (by omega), updSlot_same]
  have hbA2d : (bA.slots 2).data = clip (mapn numFrames (n + 1)) := by
    rw [hbA, updSlot_same]
  have hbA1dsa : ∀ j, (bA.slots 1).dsa j = 0 := by
    intro j
    rw [hbA, updSlot_other _ _ _ _ (by omega), updSlot_same]
  have hbA2dsa : ∀ j, (bA.slots 2).dsa j = 0 := by
    intro j
    rw [hbA, updSlot_same]
  have hbA2w : ∀ r2, (bA.slots 2).ds.weights r2 = 0 := by
    intro r2
    rw [hbA, updSlot_same]
    rfl
  have hbA2s : ∀ r2, (bA.slots 2).ds.sums r2 = 0 := by
    intro r2
    rw [hbA, updSlot_same]
    rfl
  have hbA2m : ∀ r2, (bA.slots 2).ds.wmaxs r2 = 0 := by
    intro r2
    rw [hbA, updSlot_same]
    rfl
  have hstopA : stopzOf cfg.Az numFrames n = 2 := by
    unfold stopzOf
    omega
  have hbnnA : ∀ i r2, 0 ≤ (bA.slots i).ds.wmaxs r2 := by
    intro i r2
    rw [hbA]
    by_cases h2 : i = 2
    · subst h2
      rw [updSlot_same]
      exact le_refl 0
    · rw [updSlot_other _ _ _ _ h2]
      by_cases h1 : i = 1
      · subst h1
        rw [updSlot_same]
        exact le_refl 0
      · rw [updSlot_other _ _ _ _ h1]
        by_cases h0 : i = 0
        · subst h0
          rw [updSlot_same]
          exact le_refl 0
        · rw [updSlot_other _ _ _ _ h0]
          exact le_refl 0
  -- run the first frame's pixel loop
  set stA := (pixelsRM (width - 1) (height - 1)).foldl
      (wzPixel cfg numFrames (width - 1) (height - 1) n) (bA, fun _ => 0)
    with hstA
  have hrunA := wz_run cfg numFrames n (width - 1) (height - 1) bA
    (by omega) (by omega) hAx hAy
    hbAst.ge (by rw [hbAst, hbAsz]; omega)
    (by omega) (by rw [hbAsz]; omega)
    (by unfold startzOf; omega) (by rw [hbAsz]; unfold stopzOf; omega)
    (by unfold startzOf stopzOf; omega)
    hbnnA
  rw [← hstA] at hrunA
  obtain ⟨hA1, hA2, ⟨hA3s, hA3z⟩, hA4, hA5, hA6, hA7, hA8, hA9, hA10⟩ := hrunA
  have hGA : GetFrameWZ cfg clip numFrames width height n (mkCache (2 * cfg.Az + 1))
      = (wzMark cfg.Az stA.1, stA.2) := by
    simp only [GetFrameWZ]
    rw [hmk, hrsA, hfillA, ← hstA]
  -- the final flags of the first frame's center slot
  have hdsaA1 : (stA.1.slots 1).dsa 1 = 2 := by
    have h := hA6 1
    rw [hgA, hbA1dsa 1] at h
    rw [h, if_pos]
    refine ⟨by unfold startzOf; omega, by rw [hstopA]; omega, by omega, ?_⟩
    unfold before
    dsimp only
    omega
  have hdsaA2 : (stA.1.slots 1).dsa 2 = 2 := by
    have h := hA6 2
    rw [hgA, hbA1dsa 2] at h
    rw [h, if_pos]
    refine ⟨by unfold startzOf; omega, hstopA.ge, by omega, ?_⟩
    unfold before
    dsimp only
    omega
  have hA5two : (stA.1.slots 2).dsa = (bA.slots 2).dsa := by
    refine hA5 2 ?_
    rw [hgA]
    omega
  -- marking
  set cA := wzMark cfg.Az stA.1 with hcA
  have hkeep := wzMark_keep cfg.Az stA.1
  rw [← hcA] at hkeep
  have hcAst : cA.start_pos = 0 := hkeep.1.trans (hA3s.trans hbAst)
  have hcAsz : cA.size = 3 := hkeep.2.1.trans (hA3z.trans hbAsz)
  have hmark2 : (cA.slots 2).dsa = updZ ((stA.1.slots 2).dsa) 0 1 := by
    rw [hcA, hAz]
    exact wzMark_slot2 stA.1 (hA3s.trans hbAst) (hA3z.trans hbAsz) hdsaA1 hdsaA2
  have hfnum0 : (cA.slots 0).fnum = n - 1 :=
    (hkeep.2.2 0).1.trans ((hA4 0).1.trans hbA0f)
  have hfnum1 : (cA.slots 1).fnum = n :=
    (hkeep.2.2 1).1.trans ((hA4 1).1.trans hbA1f)
  have hfnum2 : (cA.slots 2).fnum = n + 1 :=
    (hkeep.2.2 2).1.trans ((hA4 2).1.trans hbA2f)
  have hGA1 : (GetFrameWZ cfg clip numFrames width height n
      (mkCache (2 * cfg.Az + 1))).1 = cA := by
    rw [hGA]
  rw [hGA1]
  -- the second call realigns by one and refreshes only slot 0
  set cA1 : Cache := { cA with start_pos := 1 } with hcA1
  have hrsB : resetCacheStart cA (n + 1 - cfg.Az) (n + 1 + cfg.Az) = cA1 := by
    rw [hAz]
    have e1 : n + 1 - 1 = n := by ring
    have e2 : n + 1 + 1 = n + 2 := by ring
    rw [e1, e2, hcA1]
    exact resetCacheStart_reuse cA n hcAsz hfnum0 hfnum1
  have hfillB : cacheFill clip numFrames cfg.Az (n + 1) cA1
      = updSlot cA1 0 (fun _ =>
          ⟨n + 2, clip (mapn numFrames (n + 2)), SD.zero, fun _ => 0⟩) := by
    rw [hAz]
    exact cacheFill_reuse clip numFrames n cA1 rfl hcAsz hfnum1 hfnum2
      (by rw [show (cA1.slots 0).fnum = (cA.slots 0).fnum from rfl, hfnum0]; omega)
  set bB := updSlot cA1 0 (fun _ =>
      ⟨n + 2, clip (mapn numFrames (n + 2)), SD.zero, fun _ => 0⟩) with hbB
  have hbBst : bB.start_pos = 1 := rfl
  have hbBsz : bB.size = 3 := hcAsz
  have hgB : getCachePos bB cfg.Az = 2 := by
    unfold getCachePos
    rw [hAz, hbBst, hbBsz]
    decide
  have hds2 : (bB.slots 2).ds = (stA.1.slots 2).ds := by
    rw [hbB, updSlot_other _ _ _ _ (by omega)]
    exact (hkeep.2.2 2).2.2
  have hds1 : (bB.slots 1).ds = (stA.1.slots 1).ds := by
    rw [hbB, updSlot_other _ _ _ _ (by omega)]
    exact (hkeep.2.2 1).2.2
  have hdata2 : (bB.slots 2).data = clip (mapn numFrames (n + 1)) := by
    rw [hbB, updSlot_other _ _ _ _ (by omega)]
    exact (hkeep.2.2 2).2.1.trans ((hA4 2).2.trans hbA2d)
  have hdata1 : (bB.slots 1).data = clip (mapn numFrames n) := by
    rw [hbB, updSlot_other _ _ _ _ (by omega)]
    exact (hkeep.2.2 1).2.1.trans ((hA4 1).2.trans hbA1d)
  have hdata0 : (bB.slots 0).data = clip (mapn numFrames (n + 2)) := by
    rw [hbB, updSlot_same]
  have hdsaB2 : ∀ j, (bB.slots 2).dsa j = if j = 0 then 1 else 0 := by
    intro j
    have hslots : bB.slots 2 = cA.slots 2 := by
      rw [hbB]
      exact updSlot_other _ _ _ _ (by omega)
    rw [hslots, hmark2]
    unfold updZ
    by_cases hj : j = 0
    · rw [if_pos hj, if_pos hj]
    · rw [if_neg hj, if_neg hj, hA5two, hbA2dsa j]
  have hbnnB : ∀ i r2, 0 ≤ (bB.slots i).ds.wmaxs r2 := by
    intro i r2
    rcases (by omega : i < 0 ∨ i = 0 ∨ i = 1 ∨ i = 2 ∨ 3 ≤ i)
      with hi | rfl | rfl | rfl | hi
    · have e4 : (bB.slots i).ds = (stA.1.slots i).ds := by
        rw [hbB, updSlot_other _ _ _ _ (by omega)]
        exact (hkeep.2.2 i).2.2
      rw [e4, congrArg Slot.ds (hA2 i (by rw [hbAsz]; omega))]
      rw [hbA, updSlot_other _ _ _ _ (by omega), updSlot_other _ _ _ _ (by omega),
        updSlot_other _ _ _ _ (by omega)]
      exact le_refl 0
    · rw [hbB, updSlot_same]
      exact le_refl 0
    · rw [hds1]
      have h := hA1 r2
      rw [hgA] at h
      exact h
    · obtain ⟨_, _, w3⟩ := hA8 2 (by omega) (by rw [hbAsz]; omega) (by omega) r2
      rw [hgA2, hbA2m r2] at w3
      rw [hds2, w3]
      split_ifs
      · exact le_max_left 0 _
      · exact le_refl 0
    · have e4 : (bB.slots i).ds = (stA.1.slots i).ds := by
        rw [hbB, updSlot_other _ _ _ _ (by omega)]
        exact (hkeep.2.2 i).2.2
      rw [e4, congrArg Slot.ds (hA2 i (by rw [hbAsz]; omega))]
      rw [hbA, updSlot_other _ _ _ _ (by omega), updSlot_other _ _ _ _ (by omega),
        updSlot_other _ _ _ _ (by omega)]
      exact le_refl 0
  -- run the second frame's pixel loop on the reused cache
  set stB := (pixelsRM (width - 1) (height - 1)).foldl
      (wzPixel cfg numFrames (width - 1) (height - 1) (n + 1)) (bB, fun _ => 0)
    with hstB
  have hrunB := wz_run cfg numFrames (n + 1) (width - 1) (height - 1) bB
    (by omega) (by omega) hAx hAy
    (by rw [hbBst]; omega) (by rw [hbBst, hbBsz]; omega)
    (by omega) (by rw [hbBsz]; omega)
    (by unfold startzOf; omega) (by rw [hbBsz]; unfold stopzOf; omega)
    (by unfold startzOf stopzOf; omega)
    hbnnB
  rw [← hstB] at hrunB
  obtain ⟨hB1, hB2, hB3, hB4, hB5, hB6, hB7, hB8, hB9, hB10⟩ := hrunB
  have hGB : GetFrameWZ cfg clip numFrames width height (n + 1) cA
      = (wzMark cfg.Az stB.1, stB.2) := by
    simp only [GetFrameWZ]
    rw [hrsB, hfillB, ← hstB]
  -- the scratch cache for frame n + 1
  have hrsS : resetCacheStart (⟨3, 0, fun _ => freshSlot⟩ : Cache)
      (n + 1 - cfg.Az) (n + 1 + cfg.Az) = ⟨3, 0, fun _ => freshSlot⟩ := by
    apply resetCacheStart_none
    apply rcsScan_none
    intro j i hj1 hj2 hi1 hi2
    show (-20 : ℤ) ≠ j
    rw [hAz] at hj1
    omega
  set bS := updSlot (updSlot (updSlot (⟨3, 0, fun _ => freshSlot⟩ : Cache)
      0 (fun _ => ⟨n, clip (mapn numFrames n), SD.zero, fun _ => 0⟩))
      1 (fun _ => ⟨n + 1, clip (mapn numFrames (n + 1)), SD.zero, fun _ => 0⟩))
      2 (fun _ => ⟨n + 2, clip (mapn numFrames (n + 2)), SD.zero, fun _ => 0⟩)
    with hbS
  have hfillS : cacheFill clip numFrames cfg.Az (n + 1) ⟨3, 0, fun _ => freshSlot⟩
      = bS := by
    rw [hAz]
    have e1 : n + 1 - 1 = n := by ring
    have e2 : n + 1 + 1 = n + 2 := by ring
    rw [cacheFill_eval3 clip numFrames (n + 1) _ rfl rfl
        (by show (-20 : ℤ) ≠ n + 1 - 1; omega)
        (by show (-20 : ℤ) ≠ n + 1; omega)
        (by show (-20 : ℤ) ≠ n + 1 + 1; omega),
      e1, e2, hbS]
  have hbSst : bS.start_pos = 0 := rfl
  have hbSsz : bS.size = 3 := rfl
  have hgS : getCachePos bS cfg.Az = 1 := by
    unfold getCachePos
    rw [hAz, hbSst, hbSsz]
    decide
  have hbSd0 : (bS.slots 0).data = clip (mapn numFrames n) := by
    rw [hbS, updSlot_other _ _ _ _ (by omega), updSlot_other _ _ _ _ (by omega),
      updSlot_same]
  have hbSd1 : (bS.slots 1).data = clip (mapn numFrames (n + 1)) := by
    rw [hbS, updSlot_other _ _ _ _ (by omega), updSlot_same]
  have hbSd2 : (bS.slots 2).data = clip (mapn numFrames (n + 2)) := by
    rw [hbS, updSlot_same]
  have hbS1dsa : ∀ j, (bS.slots 1).dsa j = 0 := by
    intro j
    rw [hbS, updSlot_other _ _ _ _ (by omega), updSlot_same]
  have hzSds : (bS.slots 1).ds = SD.zero := by
    rw [hbS, updSlot_other _ _ _ _ (by omega), updSlot_same]
  have hbnnS : ∀ i r2, 0 ≤ (bS.slots i).ds.wmaxs r2 := by
    intro i r2
    rw [hbS]
    by_cases h2 : i = 2
    · subst h2
      rw [updSlot_same]
      exact le_refl 0
    · rw [updSlot_other _ _ _ _ h2]
      by_cases h1 : i = 1
      · subst h1
        rw [updSlot_same]
        exact le_refl 0
      · rw [updSlot_other _ _ _ _ h1]
        by_cases h0 : i = 0
        · subst h0
          rw [updSlot_same]
          exact le_refl 0
        · rw [updSlot_other _ _ _ _ h0]
          exact le_refl 0
  set stS := (pixelsRM (width - 1) (height - 1)).foldl
      (wzPixel cfg numFrames (width - 1) (height - 1) (n + 1)) (bS, fun _ => 0)
    with hstS
  have hrunS := wz_run cfg numFrames (n + 1) (width - 1) (height - 1) bS
    (by omega) (by omega) hAx hAy
    hbSst.ge (by rw [hbSst, hbSsz]; omega)
    (by omega) (by rw [hbSsz]; omega)
    (by unfold startzOf; omega) (by rw [hbSsz]; unfold stopzOf; omega)
    (by unfold startzOf stopzOf; omega)
    hbnnS
  rw [← hstS] at hrunS
  obtain ⟨hS1, hS2, hS3, hS4, hS5, hS6, hS7, hS8, hS9, hS10⟩ := hrunS
  have hGS : GetFrameWZ cfg clip numFrames width height (n + 1)
      (mkCache (2 * cfg.Az + 1)) = (wzMark cfg.Az stS.1, stS.2) := by
    simp only [GetFrameWZ]
    rw [hmk, hrsS, hfillS, ← hstS]
  -- the carried accumulator of the reused center equals the scratch z = 0 term
  have hstartzB : startzOf cfg.Az (n + 1) = 0 := by
    unfold startzOf
    omega
  rw [hstartzB] at hB9 hS9
  have hsb1 : 1 ≤ stopzOf cfg.Az numFrames (n + 1) := by
    unfold stopzOf
    omega
  have hsb2 : stopzOf cfg.Az numFrames (n + 1) ≤ 2 := by
    unfold stopzOf
    omega
  have hARB : activeIn cfg bB 0 (stopzOf cfg.Az numFrames (n + 1) + 1)
      = Finset.Icc 1 (stopzOf cfg.Az numFrames (n + 1)) := by
    unfold activeIn
    have em : stopzOf cfg.Az numFrames (n + 1) + 1 - 1
        = stopzOf cfg.Az numFrames (n + 1) := by ring
    rw [em, hgB]
    apply Finset.ext
    intro z
    rw [Finset.mem_filter, Finset.mem_Icc, Finset.mem_Icc, hdsaB2 z]
    by_cases hz : z = 0
    · rw [if_pos hz]
      subst hz
      constructor
      · rintro ⟨_, hcon⟩
        exact absurd rfl hcon
      · intro hcon
        omega
    · rw [if_neg hz]
      constructor
      · rintro ⟨hz2, _⟩
        omega
      · intro hz2
        refine ⟨by omega, by omega⟩
  have hASB : activeIn cfg bS 0 (stopzOf cfg.Az numFrames (n + 1) + 1)
      = Finset.Icc 0 (stopzOf cfg.Az numFrames (n + 1)) := by
    unfold activeIn
    have em : stopzOf cfg.Az numFrames (n + 1) + 1 - 1
        = stopzOf cfg.Az numFrames (n + 1) := by ring
    rw [em, hgS]
    apply Finset.filter_true_of_mem
    intro z hz
    rw [hbS1dsa z]
    omega
  have hcond8 : startzOf cfg.Az n ≤ 2 ∧ 2 ≤ stopzOf cfg.Az numFrames n
      ∧ (0 : ℤ) ≠ 1 ∧ (0 : ℤ) ≠ 1 → True := fun _ => trivial
  have htrans : ∀ r2 ∈ dom (width - 1) (height - 1),
      ((bB.slots 2).ds.weights r2
        = ∑ q ∈ winF cfg.Ax cfg.Ay (width - 1) (height - 1) r2,
            wZ cfg ((bB.slots 2).data) ((bB.slots 1).data)
              (width - 1) (height - 1) q r2)
      ∧ ((bB.slots 2).ds.sums r2
        = ∑ q ∈ winF cfg.Ax cfg.Ay (width - 1) (height - 1) r2,
            (((bB.slots 1).data q : ℝ)
              * wZ cfg ((bB.slots 2).data) ((bB.slots 1).data)
                  (width - 1) (height - 1) q r2))
      ∧ ((bB.slots 2).ds.wmaxs r2
        = max 0 ((winF cfg.Ax cfg.Ay (width - 1) (height - 1) r2).fold max 0
            (fun q => wZ cfg ((bB.slots 2).data) ((bB.slots 1).data)
              (width - 1) (height - 1) q r2))) := by
    intro r2 hr2
    obtain ⟨w1, w2, w3⟩ := hA8 2 (by omega) (by rw [hbAsz]; omega) (by omega) r2
    rw [hgA, hgA2, hbA1dsa 2, hbA2dsa (2 * cfg.Az - 2)] at w1 w2 w3
    rw [hbA2w r2] at w1
    rw [hbA2s r2] at w2
    rw [hbA2m r2] at w3
    rw [if_pos ⟨by unfold startzOf; omega, hstopA.ge, by omega,
        by omega, hr2⟩, zero_add, anteSet_full] at w1 w2
    rw [if_pos ⟨by unfold startzOf; omega, hstopA.ge, by omega,
        by omega, hr2⟩, anteSet_full] at w3
    refine ⟨?_, ?_, ?_⟩
    · rw [hds2, w1, hdata2, hdata1, hbA2d, hbA1d]
    · rw [hds2, w2, hdata2, hdata1, hbA2d, hbA1d]
    · rw [hds2, w3, hdata2, hdata1, hbA2d, hbA1d]
  -- compare outputs pixel by pixel
  rw [hGB, hGS]
  show stB.2 = stS.2
  funext r
  by_cases hrdom : r ∈ dom (width - 1) (height - 1)
  · have hbf : before r (0, (height - 1) + 1) := by
      have hrd2 := hrdom
      rw [mem_dom] at hrd2
      unfold before
      dsimp only
      omega
    rw [hB9 r hrdom hbf, hS9 r hrdom hbf]
    obtain ⟨ht1, ht2, ht3⟩ := htrans r hrdom
    exact wzOut_transport cfg (width - 1) (height - 1)
      (stopzOf cfg.Az numFrames (n + 1)) bB bS r hAz hsb1 hsb2
      hbBst hbBsz hbSst hbSsz
      (hdata2.trans hbSd1.symm) (hdata1.trans hbSd0.symm)
      (hdata0.trans hbSd2.symm)
      ht1 ht2 ht3 hARB hASB hzSds
  · rw [hB10 r (fun hcon => hrdom hcon.1), hS10 r (fun hcon => hrdom hcon.1)]

/-- A concrete Az = 1 configuration for instantiating the reuse theorem. -/
def cfgT : Cfg := ⟨0, 0, 1, 0, 0, 0, 0, 1, 1, false⟩

/-- A concrete clip: every frame is the constant-7 plane. -/
def clipT : ℤ → Pic := fun _ => fun _ => 7

theorem temporal_cache_reuse_witness :
    cfgT.Az = 1 ∧ 0 ≤ cfgT.Ax ∧ 0 ≤ cfgT.Ay ∧ (0 : ℤ) < 1 ∧ (0 : ℤ) < 1
    ∧ (0 : ℤ) ≤ 0 ∧ (0 : ℤ) + 1 ≤ 3 - 1
    ∧ (GetFrameWZ cfgT clipT 3 1 1 (0 + 1)
        (GetFrameWZ cfgT clipT 3 1 1 0 (mkCache (2 * cfgT.Az + 1))).1).2
      = (GetFrameWZ cfgT clipT 3 1 1 (0 + 1) (mkCache (2 * cfgT.Az + 1))).2 :=
  ⟨rfl, le_refl 0, le_refl 0, by norm_num, by norm_num, le_refl 0, by norm_num,
    temporal_cache_reuse cfgT clipT 3 1 1 0 rfl (le_refl 0) (le_refl 0)
      (by norm_num) (by norm_num) (le_refl 0) (by norm_num)⟩

end TNL
